import Mathlib

/-!
Shallow embedding of the bustubx storage core: the B+-tree index
(src/bustubx/src/storage/index.rs), the table heap
(src/bustubx/src/storage/table_heap.rs) and the buffer pool manager
(src/bustubx/src/buffer/buffer_pool.rs).

Pure data is modelled directly; the stateful code is modelled by explicit
state passing over an association-list page store, and the unbounded loops
of the source are modelled with explicit fuel (returning `none` when the
fuel runs out, when the source would return an error, or when the source
would panic on an out-of-range index).

Page-level helper types (`BPlusTreeLeafPage`, `BPlusTreeInternalPage`,
`TablePage`, `Page`, `LRUKReplacer`) are declared in files of the
repository that are not part of the given sources; their operations are
modelled from the specification, as marked in their doc comments.
-/

namespace Bustubx

/-- Keys of the index are tuples; the spec says two tuples with the same
schema compare lexicographically column by column, so a key is modelled as
the list of its column values and compared lexicographically.  The empty
tuple (`Tuple::empty`) is the smallest, matching the semantically
negative-infinite first key of an internal page. -/
abbrev Tuple := List Int

/-- Modelled from the spec: lexicographic strict order on tuples. -/
def tupleLt : Tuple → Tuple → Bool
  | [], [] => false
  | [], _ :: _ => true
  | _ :: _, [] => false
  | a :: as, b :: bs => if a < b then true else if b < a then false else tupleLt as bs

/-- Modelled from the spec: lexicographic order on tuples. -/
def tupleLe (a b : Tuple) : Bool := !(tupleLt b a)

/-- RecordId: `(page_id, slot_num)`. -/
structure RecordId where
  page_id : Nat
  slot_num : Nat
deriving DecidableEq, Repr

/-- The sentinel page id `INVALID_PAGE_ID = 0`. -/
def INVALID_PAGE_ID : Nat := 0

abbrev LeafKV := Tuple × RecordId

abbrev InternalKV := Tuple × Nat

/-- Modelled from the spec: stable ordered insertion into a key-value
array sorted ascending by key.  The new entry is placed before the first
strictly greater key, hence after all existing entries with an equal key
(inserts preserve stable order). -/
def kvInsert {β : Type} (kv : Tuple × β) : List (Tuple × β) → List (Tuple × β)
  | [] => [kv]
  | x :: xs => if tupleLt kv.1 x.1 then kv :: x :: xs else x :: kvInsert kv xs

/-- Modelled from the spec: remove the first entry with the given key
(deleting a non-existent key is silently a no-op). -/
def kvDeleteFirst {β : Type} (k : Tuple) : List (Tuple × β) → List (Tuple × β)
  | [] => []
  | x :: xs => if x.1 = k then xs else x :: kvDeleteFirst k xs

/-- Modelled from the spec: replace the key of the first entry whose key
equals `old` by `new`. -/
def kvReplaceKey {β : Type} (old new : Tuple) : List (Tuple × β) → List (Tuple × β)
  | [] => []
  | x :: xs => if x.1 = old then (new, x.2) :: xs else x :: kvReplaceKey old new xs

/-- LeafPage: header `{current_size, max_size, next_page_id}` plus an
ordered array of `(key, RecordId)`; `current_size` is the length of the
array. -/
structure BPlusTreeLeafPage where
  max_size : Nat
  next_page_id : Nat
  array : List LeafKV
deriving DecidableEq, Repr

/-- InternalPage: header `{current_size, max_size}` plus an ordered array
of `(key, child PageId)`; the first entry's key is semantically empty /
negative infinity. -/
structure BPlusTreeInternalPage where
  max_size : Nat
  array : List InternalKV
deriving DecidableEq, Repr

def BPlusTreeLeafPage.current_size (p : BPlusTreeLeafPage) : Nat := p.array.length

def BPlusTreeInternalPage.current_size (p : BPlusTreeInternalPage) : Nat := p.array.length

/-- Modelled from the spec: the minimum size of a non-root page is
`ceil(max_size / 2)`. -/
def minSize (max_size : Nat) : Nat := (max_size + 1) / 2

/-- Modelled from the spec: ordered stable insert of a `(key, rid)` pair. -/
def BPlusTreeLeafPage.insert (p : BPlusTreeLeafPage) (k : Tuple) (rid : RecordId) :
    BPlusTreeLeafPage :=
  { p with array := kvInsert (k, rid) p.array }

/-- Modelled from the spec: point lookup in a leaf, returning the record
id of the leftmost entry with an equal key. -/
def BPlusTreeLeafPage.look_up (p : BPlusTreeLeafPage) (k : Tuple) : Option RecordId :=
  (p.array.find? (fun e => decide (e.1 = k))).map (·.2)

/-- Modelled from the spec: delete the entry with the given key from a
leaf (silently a no-op when absent). -/
def BPlusTreeLeafPage.delete (p : BPlusTreeLeafPage) (k : Tuple) : BPlusTreeLeafPage :=
  { p with array := kvDeleteFirst k p.array }

/-- Modelled from the spec: `split_off(idx)` keeps the entries below
`idx` in the page and returns the removed upper entries. -/
def BPlusTreeLeafPage.split_off (p : BPlusTreeLeafPage) (idx : Nat) :
    BPlusTreeLeafPage × List LeafKV :=
  ({ p with array := p.array.take idx }, p.array.drop idx)

/-- Modelled from the spec: `reverse_split_off(idx)` keeps the entries
above `idx` in the page and returns the removed lower entries. -/
def BPlusTreeLeafPage.reverse_split_off (p : BPlusTreeLeafPage) (idx : Nat) :
    BPlusTreeLeafPage × List LeafKV :=
  ({ p with array := p.array.drop (idx + 1) }, p.array.take (idx + 1))

/-- Modelled from the spec: insert a batch of entries keeping ascending
key order. -/
def BPlusTreeLeafPage.batch_insert (p : BPlusTreeLeafPage) (kvs : List LeafKV) :
    BPlusTreeLeafPage :=
  { p with array := kvs.foldl (fun acc kv => kvInsert kv acc) p.array }

def BPlusTreeLeafPage.kv_at (p : BPlusTreeLeafPage) (i : Nat) : Option LeafKV :=
  p.array.get? i

def BPlusTreeLeafPage.key_at (p : BPlusTreeLeafPage) (i : Nat) : Option Tuple :=
  (p.array.get? i).map (·.1)

/-- Modelled from the spec: `next_closest(key, inclusive)` returns the
smallest index whose key is `≥ key` (`> key` when not inclusive), if any. -/
def BPlusTreeLeafPage.next_closest (p : BPlusTreeLeafPage) (k : Tuple) (inclusive : Bool) :
    Option Nat :=
  p.array.findIdx? (fun e => if inclusive then tupleLe k e.1 else tupleLt k e.1)

/-- Modelled from the spec: a page is full when `current_size > max_size`. -/
def BPlusTreeLeafPage.is_full (p : BPlusTreeLeafPage) : Bool :=
  p.current_size > p.max_size

/-- Modelled from the spec: a non-root page underflows when its size is
below the minimum; the root never underflows. -/
def BPlusTreeLeafPage.is_underflow (p : BPlusTreeLeafPage) (isRoot : Bool) : Bool :=
  !isRoot && p.current_size < minSize p.max_size

/-- Modelled from the spec: a page can lend an entry when its size
strictly exceeds the minimum. -/
def BPlusTreeLeafPage.can_borrow (p : BPlusTreeLeafPage) : Bool :=
  p.current_size > minSize p.max_size

/-- Modelled from the spec: ordered stable insert of a `(key, child)`
pair; the empty key sorts first. -/
def BPlusTreeInternalPage.insert (p : BPlusTreeInternalPage) (k : Tuple) (child : Nat) :
    BPlusTreeInternalPage :=
  { p with array := kvInsert (k, child) p.array }

def internalLookUpFrom (k : Tuple) : List InternalKV → Nat → Nat
  | [], acc => acc
  | e :: rest, acc =>
      if tupleLe e.1 k then internalLookUpFrom k rest e.2 else internalLookUpFrom k rest acc

/-- Modelled from the spec: `look_up(k)` returns the child associated
with the greatest entry whose key is `≤ k`, the first entry's key being
treated as negative infinity. -/
def BPlusTreeInternalPage.look_up (p : BPlusTreeInternalPage) (k : Tuple) : Nat :=
  match p.array with
  | [] => INVALID_PAGE_ID
  | e0 :: rest => internalLookUpFrom k rest e0.2

def BPlusTreeInternalPage.value_at (p : BPlusTreeInternalPage) (i : Nat) : Option Nat :=
  (p.array.get? i).map (·.2)

def BPlusTreeInternalPage.key_at (p : BPlusTreeInternalPage) (i : Nat) : Option Tuple :=
  (p.array.get? i).map (·.1)

def BPlusTreeInternalPage.split_off (p : BPlusTreeInternalPage) (idx : Nat) :
    BPlusTreeInternalPage × List InternalKV :=
  ({ p with array := p.array.take idx }, p.array.drop idx)

def BPlusTreeInternalPage.reverse_split_off (p : BPlusTreeInternalPage) (idx : Nat) :
    BPlusTreeInternalPage × List InternalKV :=
  ({ p with array := p.array.drop (idx + 1) }, p.array.take (idx + 1))

def BPlusTreeInternalPage.batch_insert (p : BPlusTreeInternalPage) (kvs : List InternalKV) :
    BPlusTreeInternalPage :=
  { p with array := kvs.foldl (fun acc kv => kvInsert kv acc) p.array }

/-- Modelled from the spec: `sibling_page_ids(child)` returns the left
and right neighbours of `child` under this parent, if any. -/
def BPlusTreeInternalPage.sibling_page_ids (p : BPlusTreeInternalPage) (child : Nat) :
    Option Nat × Option Nat :=
  match p.array.findIdx? (fun e => decide (e.2 = child)) with
  | none => (none, none)
  | some i =>
      (if i > 0 then (p.array.get? (i - 1)).map (·.2) else none,
       (p.array.get? (i + 1)).map (·.2))

def BPlusTreeInternalPage.replace_key (p : BPlusTreeInternalPage) (old new : Tuple) :
    BPlusTreeInternalPage :=
  { p with array := kvReplaceKey old new p.array }

/-- Modelled from the spec: remove the first entry whose value equals the
given page id. -/
def kvDeleteByValue {β : Type} [DecidableEq β] (v : β) : List (Tuple × β) → List (Tuple × β)
  | [] => []
  | x :: xs => if x.2 = v then xs else x :: kvDeleteByValue v xs

/-- Modelled from the spec: remove the entry pointing to the given child
page id. -/
def BPlusTreeInternalPage.delete_page_id (p : BPlusTreeInternalPage) (pid : Nat) :
    BPlusTreeInternalPage :=
  { p with array := kvDeleteByValue pid p.array }

def BPlusTreeInternalPage.is_full (p : BPlusTreeInternalPage) : Bool :=
  p.current_size > p.max_size

def BPlusTreeInternalPage.is_underflow (p : BPlusTreeInternalPage) (isRoot : Bool) : Bool :=
  !isRoot && p.current_size < minSize p.max_size

def BPlusTreeInternalPage.can_borrow (p : BPlusTreeInternalPage) : Bool :=
  p.current_size > minSize p.max_size

/-- B+TreePage is the sum of internal and leaf pages. -/
inductive BPlusTreePage where
  | internal (page : BPlusTreeInternalPage)
  | leaf (page : BPlusTreeLeafPage)
deriving DecidableEq, Repr

def BPlusTreePage.is_full : BPlusTreePage → Bool
  | .internal p => p.is_full
  | .leaf p => p.is_full

def BPlusTreePage.is_underflow (isRoot : Bool) : BPlusTreePage → Bool
  | .internal p => p.is_underflow isRoot
  | .leaf p => p.is_underflow isRoot

def BPlusTreePage.can_borrow : BPlusTreePage → Bool
  | .internal p => p.can_borrow
  | .leaf p => p.can_borrow

def BPlusTreePage.current_size : BPlusTreePage → Nat
  | .internal p => p.current_size
  | .leaf p => p.current_size

/-- `insert_internalkv` dispatches to the internal page insert; on a leaf
page the source would be an unreachable panic, modelled as `none`. -/
def BPlusTreePage.insert_internalkv (kv : InternalKV) : BPlusTreePage → Option BPlusTreePage
  | .internal p => some (.internal (p.insert kv.1 kv.2))
  | .leaf _ => none

/-! ### The page store

The buffer pool is, for the tree algorithms, a cache over the disk pages;
the tree operations only see `fetch` (decode the page), `set_data`
(encode and overwrite), `new_page` (allocate a fresh id) and
`delete_page`.  The combined disk/pool content is modelled as an
association list from page ids to decoded tree pages, together with the
disk manager's monotone allocation counter.  `delete_page` respects the
pin counts of the handles the running operation holds (a pinned page is
not removed and `delete_page` reports failure), which is the only way
pinning is observable at this level. -/

abbrev PageStore := List (Nat × BPlusTreePage)

def storeGet (s : PageStore) (pid : Nat) : Option BPlusTreePage :=
  (s.find? (fun e => decide (e.1 = pid))).map (·.2)

def storeSet : PageStore → Nat → BPlusTreePage → PageStore
  | [], pid, pg => [(pid, pg)]
  | e :: rest, pid, pg =>
      if e.1 = pid then (pid, pg) :: rest else e :: storeSet rest pid pg

def storeDel : PageStore → Nat → PageStore
  | [], _ => []
  | e :: rest, pid => if e.1 = pid then rest else e :: storeDel rest pid

/-- The in-memory state a `BPlusTreeIndex` operates on: the page store,
the disk manager's next page id to allocate, and the atomic
`root_page_id`. -/
structure TreeState where
  store : PageStore
  next_page : Nat
  root_page_id : Nat
deriving DecidableEq, Repr

/-- The configuration of a `BPlusTreeIndex`. -/
structure BPlusTreeIndex where
  internal_max_size : Nat
  leaf_max_size : Nat
deriving DecidableEq, Repr

/-- `buffer_pool.new_page()`: a fresh page id from the disk manager
(monotone, never `INVALID_PAGE_ID`). -/
def newPage (s : TreeState) : TreeState × Nat :=
  ({ s with next_page := s.next_page + 1 }, s.next_page)

/-- `delete_page(pid)` as seen by the tree code: the page is removed
unless some handle in `pins` still pins it. -/
def bufferDeletePage (store : PageStore) (pid : Nat) (pins : List Nat) : PageStore :=
  if pid ∈ pins then store else storeDel store pid

def TreeState.is_empty (s : TreeState) : Bool := s.root_page_id = INVALID_PAGE_ID

/-- The descent loop of `find_leaf_page`: on internal pages push the page
id onto the read set and follow `look_up(key)`; stop on a leaf. -/
def findLeafPageLoop : Nat → PageStore → Nat → BPlusTreePage → List Nat → Tuple →
    Option (Nat × List Nat)
  | 0, _, _, _, _, _ => none
  | fuel + 1, store, pid, page, readSet, k =>
      match page with
      | .internal ip =>
          let readSet := readSet ++ [pid]
          let next := ip.look_up k
          match storeGet store next with
          | none => none
          | some np => findLeafPageLoop fuel store next np readSet k
      | .leaf _ => some (pid, readSet)

/-- `find_leaf_page`: `some none` models `Ok(None)` (empty tree), the
outer `none` models errors and exhausted fuel. -/
def find_leaf_page (fuel : Nat) (s : TreeState) (k : Tuple) :
    Option (Option (Nat × List Nat)) :=
  if s.is_empty then some none
  else
    match storeGet s.store s.root_page_id with
    | none => none
    | some p => (findLeafPageLoop fuel s.store s.root_page_id p [] k).map some

/-- The descent loop of `find_subtree_leafkv`: follow child 0 (for the
minimum) or the last child (for the maximum) down to a leaf and return
its first (resp. last) entry. -/
def findSubtreeLeafkvLoop : Nat → PageStore → BPlusTreePage → Bool → Option LeafKV
  | 0, _, _, _ => none
  | fuel + 1, store, page, min_or_max =>
      match page with
      | .internal ip =>
          let index := if min_or_max then 0 else ip.current_size - 1
          match ip.value_at index with
          | none => none
          | some next =>
              match storeGet store next with
              | none => none
              | some np => findSubtreeLeafkvLoop fuel store np min_or_max
      | .leaf lp =>
          let index := if min_or_max then 0 else lp.current_size - 1
          lp.kv_at index

def find_subtree_leafkv (fuel : Nat) (store : PageStore) (pid : Nat) (min_or_max : Bool) :
    Option LeafKV :=
  match storeGet store pid with
  | none => none
  | some p => findSubtreeLeafkvLoop fuel store p min_or_max

def find_subtree_min_leafkv (fuel : Nat) (store : PageStore) (pid : Nat) : Option LeafKV :=
  find_subtree_leafkv fuel store pid true

/-- `BPlusTreeIndex::split`: allocate a new right sibling, move the upper
half of the entries to it (split point `current_size / 2`), chain the
leaf `next_page_id`s, write the new page, and return the separator kv to
push up.  The current (left) page is returned in memory, not yet
written. -/
def split (fuel : Nat) (idx : BPlusTreeIndex) (s : TreeState) (page : BPlusTreePage) :
    Option (TreeState × BPlusTreePage × InternalKV) :=
  let (s1, new_page_id) := newPage s
  match page with
  | .leaf leaf_page =>
      let (leaf_page, moved) := leaf_page.split_off (leaf_page.current_size / 2)
      let new_leaf :=
        BPlusTreeLeafPage.batch_insert
          { max_size := idx.leaf_max_size, next_page_id := INVALID_PAGE_ID, array := [] } moved
      let new_leaf := { new_leaf with next_page_id := leaf_page.next_page_id }
      let leaf_page := { leaf_page with next_page_id := new_page_id }
      let s2 := { s1 with store := storeSet s1.store new_page_id (.leaf new_leaf) }
      match new_leaf.key_at 0 with
      | none => none
      | some k0 => some (s2, .leaf leaf_page, (k0, new_page_id))
  | .internal internal_page =>
      let (internal_page, moved) := internal_page.split_off (internal_page.current_size / 2)
      let new_internal :=
        BPlusTreeInternalPage.batch_insert
          { max_size := idx.internal_max_size, array := [] } moved
      let s2 := { s1 with store := storeSet s1.store new_page_id (.internal new_internal) }
      match find_subtree_min_leafkv fuel s2.store new_page_id with
      | none => none
      | some min_leafkv => some (s2, .internal internal_page, (min_leafkv.1, new_page_id))

/-- The split-and-ascend loop of `BPlusTreeIndex::insert`: while the
current page is full, split it, write the current (left) page, and either
continue with the parent popped from the read set (inserting the
separator) or, when the current page is the root, publish a new root with
the empty key pointing at the old root and the separator pointing at the
new sibling.  On exit the current page is written. -/
def insertLoop : Nat → BPlusTreeIndex → TreeState → Nat → BPlusTreePage → List Nat →
    Option TreeState
  | 0, _, _, _, _, _ => none
  | fuel + 1, idx, s, curr_page_id, curr_tree_page, readSet =>
      if curr_tree_page.is_full then
        match split fuel idx s curr_tree_page with
        | none => none
        | some (s1, curr_split_page, internalkv) =>
            let s2 := { s1 with store := storeSet s1.store curr_page_id curr_split_page }
            match readSet.getLast? with
            | some parent_page_id =>
                let readSet := readSet.dropLast
                match storeGet s2.store parent_page_id with
                | none => none
                | some parent_tree_page =>
                    match parent_tree_page.insert_internalkv internalkv with
                    | none => none
                    | some parent2 => insertLoop fuel idx s2 parent_page_id parent2 readSet
            | none =>
                if curr_page_id = s2.root_page_id then
                  let (s3, new_root_page_id) := newPage s2
                  let new_root :=
                    (BPlusTreeInternalPage.insert
                      (BPlusTreeInternalPage.insert
                        { max_size := idx.internal_max_size, array := [] }
                        [] s3.root_page_id)
                      internalkv.1 internalkv.2)
                  let ns := storeSet s3.store new_root_page_id (.internal new_root)
                  let s4 := { s3 with store := ns }
                  let s5 := { s4 with root_page_id := new_root_page_id }
                  insertLoop fuel idx s5 new_root_page_id (.internal new_root) readSet
                else
                  insertLoop fuel idx s2 curr_page_id curr_split_page readSet
      else
        some { s with store := storeSet s.store curr_page_id curr_tree_page }

/-- `BPlusTreeIndex::start_new_tree`. -/
def start_new_tree (idx : BPlusTreeIndex) (s : TreeState) (k : Tuple) (rid : RecordId) :
    TreeState :=
  let (s1, new_page_id) := newPage s
  let leaf_page :=
    BPlusTreeLeafPage.insert
      { max_size := idx.leaf_max_size, next_page_id := INVALID_PAGE_ID, array := [] } k rid
  let s2 := { s1 with store := storeSet s1.store new_page_id (.leaf leaf_page) }
  { s2 with root_page_id := new_page_id }

/-- `BPlusTreeIndex::insert`. -/
def insert (fuel : Nat) (idx : BPlusTreeIndex) (s : TreeState) (k : Tuple) (rid : RecordId) :
    Option TreeState :=
  if s.is_empty then some (start_new_tree idx s k rid)
  else
    match find_leaf_page fuel s k with
    | none => none
    | some none => none
    | some (some (leaf_pid, readSet)) =>
        match storeGet s.store leaf_pid with
        | some (.leaf leaf_tree_page) =>
            insertLoop fuel idx s leaf_pid (.leaf (leaf_tree_page.insert k rid)) readSet
        | _ => none

/-- `BPlusTreeIndex::get`. -/
def get (fuel : Nat) (s : TreeState) (k : Tuple) : Option (Option RecordId) :=
  if s.is_empty then some none
  else
    match find_leaf_page fuel s k with
    | none => none
    | some none => some none
    | some (some (leaf_pid, _)) =>
        match storeGet s.store leaf_pid with
        | some (.leaf leaf_tree_page) => some (leaf_tree_page.look_up k)
        | _ => none

/-- `BPlusTreeIndex::find_sibling_pages`. -/
def find_sibling_pages (s : TreeState) (parent_page_id child_page_id : Nat) :
    Option (Option Nat × Option Nat) :=
  match storeGet s.store parent_page_id with
  | some (.internal parent_internal_page) =>
      some (parent_internal_page.sibling_page_ids child_page_id)
  | _ => none

/-- The common tail of `BPlusTreeIndex::borrow`: write the updated
current and sibling pages, then fetch the parent as an internal page
(error otherwise) and replace the separator key `old_key` by `new_key`. -/
def borrowFinish (s : TreeState) (parent_page_id page_id borrowed_page_id : Nat)
    (page borrowed_page : BPlusTreePage) (old_key new_key : Tuple) :
    Option (TreeState × Bool) :=
  let st1 := storeSet s.store page_id page
  let st2 := storeSet st1 borrowed_page_id borrowed_page
  match storeGet st2 parent_page_id with
  | some (.internal parent_internal_page) =>
      let parent2 := parent_internal_page.replace_key old_key new_key
      some ({ s with store := storeSet st2 parent_page_id (.internal parent2) }, true)
  | _ => none

/-- The common tail of `BPlusTreeIndex::merge`: write the merged left
page, delete the right page through the buffer pool (a no-op when the
page is still pinned), remove the right page from the parent, and either
promote the left page as root (the parent, whose handle is still alive
and hence pinned, survives its `delete_page`) or write the parent back. -/
def mergeFinish (s : TreeState) (parent_page_id left_page_id right_page_id : Nat)
    (new_left : BPlusTreePage) (pins : List Nat) : Option (TreeState × Nat) :=
  let st1 := storeSet s.store left_page_id new_left
  let st2 := bufferDeletePage st1 right_page_id pins
  match storeGet st2 parent_page_id with
  | some (.internal parent_internal_page) =>
      let parent2 := parent_internal_page.delete_page_id right_page_id
      if parent_page_id = s.root_page_id ∧ parent2.current_size = 1 then
        let st3 := bufferDeletePage st2 parent_page_id (parent_page_id :: pins)
        some ({ s with store := st3, root_page_id := left_page_id }, left_page_id)
      else
        some ({ s with store := storeSet st2 parent_page_id (.internal parent2) },
          parent_page_id)
  | _ => none

/-- `BPlusTreeIndex::borrow`: move one entry from the sibling
`borrowed_page_id` (its minimum when `min_max`, its maximum otherwise)
into `page_id`, write both pages, and rewrite the corresponding separator
key in the parent.  Returns `false` without touching anything when the
sibling cannot lend an entry.  The in-source index accesses that would
panic on an out-of-range index are modelled as `none`. -/
def borrow (fuel : Nat) (s : TreeState)
    (parent_page_id page_id borrowed_page_id : Nat) (min_max : Bool) :
    Option (TreeState × Bool) :=
  match storeGet s.store borrowed_page_id with
  | none => none
  | some borrowed_tree_page =>
      if !borrowed_tree_page.can_borrow then some (s, false)
      else
        match storeGet s.store page_id with
        | none => none
        | some tree_page =>
            match borrowed_tree_page, tree_page with
            | .internal borrowed_internal_page, .internal internal_page =>
                if min_max then
                  let (borrowed2, taken) := borrowed_internal_page.reverse_split_off 0
                  match taken.head? with
                  | none => none
                  | some kv =>
                      let internal2 := internal_page.insert kv.1 kv.2
                      match borrowed2.value_at 0 with
                      | none => none
                      | some v0 =>
                          match find_subtree_min_leafkv fuel s.store v0 with
                          | none => none
                          | some min_leafkv =>
                              borrowFinish s parent_page_id page_id borrowed_page_id
                                (.internal internal2) (.internal borrowed2) kv.1 min_leafkv.1
                else
                  let (borrowed2, taken) :=
                    borrowed_internal_page.split_off
                      (borrowed_internal_page.current_size - 1)
                  match taken.head? with
                  | none => none
                  | some kv =>
                      match internal_page.key_at 0 with
                      | none => none
                      | some min_key =>
                          let internal2 := internal_page.insert kv.1 kv.2
                          match borrowed2.value_at 0 with
                          | none => none
                          | some v0 =>
                              match find_subtree_min_leafkv fuel s.store v0 with
                              | none => none
                              | some min_leafkv =>
                                  borrowFinish s parent_page_id page_id borrowed_page_id
                                    (.internal internal2) (.internal borrowed2)
                                    min_key min_leafkv.1
            | .leaf borrowed_leaf_page, .leaf leaf_page =>
                if min_max then
                  let (borrowed2, taken) := borrowed_leaf_page.reverse_split_off 0
                  match taken.head? with
                  | none => none
                  | some kv =>
                      let leaf2 := leaf_page.insert kv.1 kv.2
                      match borrowed2.key_at 0 with
                      | none => none
                      | some new_key =>
                          borrowFinish s parent_page_id page_id borrowed_page_id
                            (.leaf leaf2) (.leaf borrowed2) kv.1 new_key
                else
                  let (borrowed2, taken) :=
                    borrowed_leaf_page.split_off (borrowed_leaf_page.current_size - 1)
                  match taken.head? with
                  | none => none
                  | some kv =>
                      let leaf2 := leaf_page.insert kv.1 kv.2
                      match leaf2.key_at 1, leaf2.key_at 0 with
                      | some old_key, some new_key =>
                          borrowFinish s parent_page_id page_id borrowed_page_id
                            (.leaf leaf2) (.leaf borrowed2) old_key new_key
                      | _, _ => none
            | _, _ => none

/-- `BPlusTreeIndex::merge`: merge `right_page_id` into `left_page_id`
(for internals with the right page's first key replaced by the minimum
leaf key of its first child's subtree; for leaves inheriting the right
page's `next_page_id`), delete the right page, remove its entry from the
parent, and promote the left page as the new root when the parent was the
root and is left with a single child. -/
def merge (fuel : Nat) (s : TreeState)
    (parent_page_id left_page_id right_page_id : Nat) (pins : List Nat) :
    Option (TreeState × Nat) :=
  match storeGet s.store left_page_id, storeGet s.store right_page_id with
  | some left_tree_page, some right_tree_page =>
      match left_tree_page, right_tree_page with
      | .internal left_internal_page, .internal right_internal_page =>
          match right_internal_page.value_at 0 with
          | none => none
          | some v0 =>
              match find_subtree_min_leafkv fuel s.store v0 with
              | none => none
              | some min_leaf_kv =>
                  let kvs :=
                    match right_internal_page.array with
                    | [] => []
                    | e :: rest => (min_leaf_kv.1, e.2) :: rest
                  mergeFinish s parent_page_id left_page_id right_page_id
                    (.internal (left_internal_page.batch_insert kvs)) pins
      | .leaf left_leaf_page, .leaf right_leaf_page =>
          let left2 := left_leaf_page.batch_insert right_leaf_page.array
          let left2 := { left2 with next_page_id := right_leaf_page.next_page_id }
          mergeFinish s parent_page_id left_page_id right_page_id (.leaf left2) pins
      | _, _ => none
  | _, _ => none

/-- The rebalancing loop of `BPlusTreeIndex::delete`: while the current
page underflows, pop the parent from the read set, try to borrow from the
left then the right sibling (stopping on success), otherwise merge with
the left sibling if there is one, else with the right, and continue at
the returned parent.  `pins` holds the page ids pinned by the running
delete (the leaf handle it keeps alive). -/
def deleteLoop : Nat → TreeState → Nat → BPlusTreePage → List Nat → List Nat →
    Option TreeState
  | 0, _, _, _, _, _ => none
  | fuel + 1, s, curr_page_id, curr_tree_page, readSet, pins =>
      if curr_tree_page.is_underflow (s.root_page_id = curr_page_id) then
        match readSet.getLast? with
        | none => none
        | some parent_page_id =>
            let readSet := readSet.dropLast
            match find_sibling_pages s parent_page_id curr_page_id with
            | none => none
            | some (left_sibling, right_sibling) =>
                match
                  (match left_sibling with
                   | some l => borrow fuel s parent_page_id curr_page_id l false
                   | none => some (s, false)) with
                | none => none
                | some (s1, true) => some s1
                | some (s1, false) =>
                    match
                      (match right_sibling with
                       | some r => borrow fuel s1 parent_page_id curr_page_id r true
                       | none => some (s1, false)) with
                    | none => none
                    | some (s2, true) => some s2
                    | some (s2, false) =>
                        match
                          (match left_sibling, right_sibling with
                           | some l, _ => merge fuel s2 parent_page_id l curr_page_id pins
                           | none, some r => merge fuel s2 parent_page_id curr_page_id r pins
                           | none, none => none) with
                        | none => none
                        | some (s3, new_parent_page_id) =>
                            match storeGet s3.store new_parent_page_id with
                            | none => none
                            | some new_parent_tree_page =>
                                deleteLoop fuel s3 new_parent_page_id new_parent_tree_page
                                  readSet pins
      else some s

/-- `BPlusTreeIndex::delete`: no-op on an empty tree; otherwise descend
to the leaf for the key, remove the entry, write the leaf, and rebalance.
The leaf page handle stays alive for the whole call, pinning that page. -/
def delete (fuel : Nat) (s : TreeState) (k : Tuple) : Option TreeState :=
  if s.is_empty then some s
  else
    match find_leaf_page fuel s k with
    | none => none
    | some none => none
    | some (some (leaf_pid, readSet)) =>
        match storeGet s.store leaf_pid with
        | some (.leaf leaf_tree_page) =>
            let leaf2 := leaf_tree_page.delete k
            let s1 := { s with store := storeSet s.store leaf_pid (.leaf leaf2) }
            deleteLoop fuel s1 leaf_pid (.leaf leaf2) readSet [leaf_pid]
        | _ => none

def getFirstLeafPageLoop : Nat → PageStore → BPlusTreePage → Option BPlusTreeLeafPage
  | 0, _, _ => none
  | fuel + 1, store, page =>
      match page with
      | .internal internal_page =>
          match internal_page.value_at 0 with
          | none => none
          | some next =>
              match storeGet store next with
              | none => none
              | some np => getFirstLeafPageLoop fuel store np
      | .leaf leaf_page => some leaf_page

/-- `BPlusTreeIndex::get_first_leaf_page`: descend along child 0 from the
root. -/
def get_first_leaf_page (fuel : Nat) (s : TreeState) : Option BPlusTreeLeafPage :=
  match storeGet s.store s.root_page_id with
  | none => none
  | some p => getFirstLeafPageLoop fuel s.store p

/-- `std::ops::Bound<Tuple>`. -/
inductive TupleBound where
  | included (t : Tuple)
  | excluded (t : Tuple)
  | unbounded
deriving DecidableEq, Repr

/-- The mutable state of a `TreeIndexIterator` (the iterator owns a copy
of the current decoded leaf). -/
structure TreeIndexIterator where
  start_bound : TupleBound
  end_bound : TupleBound
  leaf_page : BPlusTreeLeafPage
  cursor : Nat
  started : Bool
deriving DecidableEq, Repr

/-- `TreeIndexIterator::new`. -/
def TreeIndexIterator.new (start_bound end_bound : TupleBound) : TreeIndexIterator :=
  { start_bound := start_bound, end_bound := end_bound,
    leaf_page := { max_size := 0, next_page_id := INVALID_PAGE_ID, array := [] },
    cursor := 0, started := false }

/-- `TreeIndexIterator::load_next_leaf_page`. -/
def loadNextLeafPage (s : TreeState) (it : TreeIndexIterator) :
    Option (TreeIndexIterator × Bool) :=
  if it.leaf_page.next_page_id = INVALID_PAGE_ID then some (it, false)
  else
    match storeGet s.store it.leaf_page.next_page_id with
    | some (.leaf next_leaf_page) => some ({ it with leaf_page := next_leaf_page }, true)
    | _ => none

/-- The "advance the cursor, loading the next leaf when past the end"
step shared by the three started branches of `TreeIndexIterator::next`;
returns the new iterator and the kv under the cursor, or `some (it,
none)` when the leaf chain is exhausted. -/
def iterAdvanceAt (s : TreeState) (it : TreeIndexIterator) :
    Option (TreeIndexIterator × Option LeafKV) :=
  if it.cursor ≥ it.leaf_page.current_size then
    match loadNextLeafPage s it with
    | none => none
    | some (it2, true) =>
        match it2.leaf_page.array.get? 0 with
        | none => none
        | some kv => some ({ it2 with cursor := 0 }, some kv)
    | some (it2, false) => some (it2, none)
  else
    match it.leaf_page.array.get? it.cursor with
    | none => none
    | some kv => some (it, some kv)

def iterAdvance (s : TreeState) (it : TreeIndexIterator) :
    Option (TreeIndexIterator × Option LeafKV) :=
  iterAdvanceAt s { it with cursor := it.cursor + 1 }

/-- The not-yet-started `Included` / `Excluded` branches of
`TreeIndexIterator::next`: descend to the leaf that should contain the
start tuple, position the cursor at `next_closest(start, inclusive)` (or
at index 0 of the next leaf), and yield without consulting the end
bound. -/
def iterStart (fuel : Nat) (s : TreeState) (it : TreeIndexIterator) (start_tuple : Tuple)
    (inclusive : Bool) : Option (TreeIndexIterator × Option RecordId) :=
  match find_leaf_page fuel s start_tuple with
  | none => none
  | some none => some (it, none)
  | some (some (leaf_pid, _)) =>
      match storeGet s.store leaf_pid with
      | some (.leaf leaf_page) =>
          let it1 := { it with leaf_page := leaf_page }
          match it1.leaf_page.next_closest start_tuple inclusive with
          | some idx =>
              let it2 := { it1 with cursor := idx }
              match it2.leaf_page.array.get? it2.cursor with
              | none => none
              | some kv => some (it2, some kv.2)
          | none =>
              match loadNextLeafPage s it1 with
              | none => none
              | some (it2, true) =>
                  let it3 := { it2 with cursor := 0 }
                  match it3.leaf_page.array.get? it3.cursor with
                  | none => none
                  | some kv => some (it3, some kv.2)
              | some (it2, false) => some (it2, none)
      | _ => none

/-- `TreeIndexIterator::next`.  Returns the new iterator state and the
yielded record id; the outer `none` models errors, exhausted fuel and
the panicking index accesses of the source. -/
def iterNext (fuel : Nat) (s : TreeState) (it : TreeIndexIterator) :
    Option (TreeIndexIterator × Option RecordId) :=
  if it.started then
    match it.end_bound with
    | .included end_tuple =>
        match iterAdvance s it with
        | none => none
        | some (it2, none) => some (it2, none)
        | some (it2, some kv) =>
            if tupleLe kv.1 end_tuple then some (it2, some kv.2) else some (it2, none)
    | .excluded end_tuple =>
        match iterAdvance s it with
        | none => none
        | some (it2, none) => some (it2, none)
        | some (it2, some kv) =>
            if tupleLt kv.1 end_tuple then some (it2, some kv.2) else some (it2, none)
    | .unbounded =>
        match iterAdvance s it with
        | none => none
        | some (it2, none) => some (it2, none)
        | some (it2, some kv) => some (it2, some kv.2)
  else
    let it := { it with started := true }
    match it.start_bound with
    | .included start_tuple => iterStart fuel s it start_tuple true
    | .excluded start_tuple => iterStart fuel s it start_tuple false
    | .unbounded =>
        match get_first_leaf_page fuel s with
        | none => none
        | some leaf_page =>
            let it1 := { it with leaf_page := leaf_page, cursor := 0 }
            match it1.leaf_page.array.get? it1.cursor with
            | none => none
            | some kv => some (it1, some kv.2)

/-! ### Validation of the tree model against the repository's own tests

The fixture of `storage/index.rs`: `internal_max_size = leaf_max_size
= 4`, keys `(i, i)` over an `(Int8, Int16)` schema mapped to record id
`(i, i)`.  In the repository's test environment the first data page id
the disk manager hands out is 6, so the model's allocator starts there;
the expected trees below are exactly the ones asserted by
`test_index_insert` and `test_index_delete` (the delete test also shows
the orphaned pages 7 and 13 that stay in the pool because they were
pinned when `delete_page` ran). -/

def testIndex : BPlusTreeIndex := { internal_max_size := 4, leaf_max_size := 4 }

def testState0 : TreeState := { store := [], next_page := 6, root_page_id := INVALID_PAGE_ID }

def testKey (i : Int) : Tuple := [i, i]

def testRid (n : Nat) : RecordId := { page_id := n, slot_num := n }

def testTree11 : Option TreeState :=
  (List.range 11).foldl
    (fun acc (n : Nat) =>
      acc.bind (fun s => insert 100 testIndex s (testKey ((n : Int) + 1)) (testRid (n + 1))))
    (some testState0)

def mkLeaf (next_page_id : Nat) (arr : List LeafKV) : BPlusTreePage :=
  .leaf { max_size := 4, next_page_id := next_page_id, array := arr }

def mkInternal (arr : List InternalKV) : BPlusTreePage :=
  .internal { max_size := 4, array := arr }

theorem model_reproduces_repo_insert_test :
    testTree11 = some
      { store :=
          [(6, mkLeaf 7 [(testKey 1, testRid 1), (testKey 2, testRid 2)]),
           (7, mkLeaf 9 [(testKey 3, testRid 3), (testKey 4, testRid 4)]),
           (8, mkInternal [([], 6), (testKey 3, 7)]),
           (9, mkLeaf 10 [(testKey 5, testRid 5), (testKey 6, testRid 6)]),
           (10, mkLeaf 11 [(testKey 7, testRid 7), (testKey 8, testRid 8)]),
           (11, mkLeaf 0 [(testKey 9, testRid 9), (testKey 10, testRid 10),
             (testKey 11, testRid 11)]),
           (12, mkInternal [(testKey 5, 9), (testKey 7, 10), (testKey 9, 11)]),
           (13, mkInternal [([], 8), (testKey 5, 12)])],
        next_page := 14, root_page_id := 13 } := by
  decide

theorem model_reproduces_repo_delete_test :
    (testTree11.bind (fun s => delete 100 s (testKey 3))
      |>.bind (fun s => delete 100 s (testKey 10))
      |>.bind (fun s => delete 100 s (testKey 8))) = some
      { store :=
          [(6, mkLeaf 9 [(testKey 1, testRid 1), (testKey 2, testRid 2),
             (testKey 4, testRid 4)]),
           (7, mkLeaf 9 [(testKey 4, testRid 4)]),
           (8, mkInternal [([], 6), (testKey 5, 9), (testKey 7, 10)]),
           (9, mkLeaf 10 [(testKey 5, testRid 5), (testKey 6, testRid 6)]),
           (10, mkLeaf 0 [(testKey 7, testRid 7), (testKey 9, testRid 9),
             (testKey 11, testRid 11)]),
           (13, mkInternal [([], 8), (testKey 7, 12)])],
        next_page := 14, root_page_id := 8 } := by
  decide

def runIter (fuel : Nat) (s : TreeState) : Nat → TreeIndexIterator → List (Option RecordId)
  | 0, _ => []
  | n + 1, it =>
      match iterNext fuel s it with
      | none => []
      | some (it2, r) => r :: runIter fuel s n it2

theorem model_reproduces_repo_iterator_test :
    (testTree11.map (fun s =>
      (runIter 100 s 3 (TreeIndexIterator.new .unbounded (.excluded (testKey 3))),
       runIter 100 s 4 (TreeIndexIterator.new (.included (testKey 3)) (.included (testKey 5))),
       runIter 100 s 1 (TreeIndexIterator.new (.excluded (testKey 6)) (.excluded (testKey 8))),
       runIter 100 s 5 (TreeIndexIterator.new (.included (testKey 9)) .unbounded)))) =
    some
      ([some (testRid 1), some (testRid 2), none],
       [some (testRid 3), some (testRid 4), some (testRid 5), none],
       [some (testRid 7)],
       [some (testRid 9), some (testRid 10), some (testRid 11), none, none]) := by
  decide

/-! ### Claim C3: the iterator's end-bound checks -/

/-! ### Claim C3: the iterator's end-bound checks -/

theorem loadNextLeafPage_false {s : TreeState} {it it2 : TreeIndexIterator}
    (h : loadNextLeafPage s it = some (it2, false)) :
    it2 = it ∧ it.leaf_page.next_page_id = INVALID_PAGE_ID := by
  unfold loadNextLeafPage at h
  split at h
  · simp at h
    exact ⟨h.symm, by assumption⟩
  · split at h <;> simp at h

theorem iterAdvanceAt_some_kv {s : TreeState} {it it2 : TreeIndexIterator} {kv : LeafKV}
    (h : iterAdvanceAt s it = some (it2, some kv)) :
    it2.leaf_page.array.get? it2.cursor = some kv := by
  unfold iterAdvanceAt at h
  split at h
  · split at h
    · simp at h
    · split at h
      · simp at h
      · rename_i it3 hload kv0 hget
        simp at h
        obtain ⟨h1, h2⟩ := h
        subst h2
        rw [← h1]
        simpa using hget
    · simp at h
  · split at h
    · simp at h
    · rename_i kv0 hget
      simp at h
      obtain ⟨h1, h2⟩ := h
      subst h2
      rw [← h1]
      simpa using hget

theorem iterAdvanceAt_none {s : TreeState} {it it2 : TreeIndexIterator}
    (h : iterAdvanceAt s it = some (it2, none)) :
    it.cursor ≥ it.leaf_page.current_size ∧
      it.leaf_page.next_page_id = INVALID_PAGE_ID := by
  unfold iterAdvanceAt at h
  split at h
  · refine ⟨by assumption, ?_⟩
    split at h
    · simp at h
    · split at h <;> simp at h
    · rename_i it3 hload
      exact (loadNextLeafPage_false hload).2
  · split at h <;> simp at h

theorem iterAdvance_some_kv {s : TreeState} {it it2 : TreeIndexIterator} {kv : LeafKV}
    (h : iterAdvance s it = some (it2, some kv)) :
    it2.leaf_page.array.get? it2.cursor = some kv :=
  iterAdvanceAt_some_kv h

theorem iterAdvance_none {s : TreeState} {it it2 : TreeIndexIterator}
    (h : iterAdvance s it = some (it2, none)) :
    it.cursor + 1 ≥ it.leaf_page.current_size ∧
      it.leaf_page.next_page_id = INVALID_PAGE_ID := by
  have h2 := iterAdvanceAt_none h
  simpa using h2

/-- Claim C3 (amended): on every call to `next` after the first (the
iterator already started), the end bound is checked against the current
key before yielding: with `Included(end)` a yielded record's key is
`≤ end`, with `Excluded(end)` it is `< end`, and with `Unbounded` the
call returns `None` only when the leaf chain is exhausted (the cursor is
past the current leaf and its `next_page_id` is invalid).  On the first
call the end bound is not consulted (see the counterexample). -/
theorem claimC3 (fuel : Nat) (s : TreeState) (it it2 : TreeIndexIterator)
    (res : Option RecordId)
    (hstarted : it.started = true)
    (h : iterNext fuel s it = some (it2, res)) :
    (∀ r, res = some r →
      ∃ kv, it2.leaf_page.array.get? it2.cursor = some kv ∧ kv.2 = r ∧
        (∀ e, it.end_bound = .included e → tupleLe kv.1 e = true) ∧
        (∀ e, it.end_bound = .excluded e → tupleLt kv.1 e = true)) ∧
    (it.end_bound = .unbounded → res = none →
      it.cursor + 1 ≥ it.leaf_page.current_size ∧
        it.leaf_page.next_page_id = INVALID_PAGE_ID) := by
  unfold iterNext at h
  simp only [hstarted, if_true] at h
  split at h
  · rename_i e heq
    rw [heq]
    split at h
    · exact nomatch h
    · rename_i it3 hadv
      injection h with h'
      injection h' with hA hB
      subst hA
      subst hB
      exact ⟨fun r hr => (nomatch hr), fun hu => (nomatch hu)⟩
    · rename_i it3 kv hadv
      split at h
      · injection h with h'
        injection h' with hA hB
        subst hA
        subst hB
        refine ⟨fun r hr => ?_, fun hu => nomatch hu⟩
        refine ⟨kv, iterAdvance_some_kv hadv, Option.some.inj hr, ?_, ?_⟩
        · intro e2 he2
          cases he2
          assumption
        · intro e2 he2
          cases he2
      · injection h with h'
        injection h' with hA hB
        subst hA
        subst hB
        exact ⟨fun r hr => (nomatch hr), fun hu => (nomatch hu)⟩
  · rename_i e heq
    rw [heq]
    split at h
    · exact nomatch h
    · rename_i it3 hadv
      injection h with h'
      injection h' with hA hB
      subst hA
      subst hB
      exact ⟨fun r hr => (nomatch hr), fun hu => (nomatch hu)⟩
    · rename_i it3 kv hadv
      split at h
      · injection h with h'
        injection h' with hA hB
        subst hA
        subst hB
        refine ⟨fun r hr => ?_, fun hu => nomatch hu⟩
        refine ⟨kv, iterAdvance_some_kv hadv, Option.some.inj hr, ?_, ?_⟩
        · intro e2 he2
          cases he2
        · intro e2 he2
          cases he2
          assumption
      · injection h with h'
        injection h' with hA hB
        subst hA
        subst hB
        exact ⟨fun r hr => (nomatch hr), fun hu => (nomatch hu)⟩
  · rename_i heq
    rw [heq]
    split at h
    · exact nomatch h
    · rename_i it3 hadv
      injection h with h'
      injection h' with hA hB
      subst hA
      subst hB
      exact ⟨fun r hr => (nomatch hr), fun _ _ => iterAdvance_none hadv⟩
    · rename_i it3 kv hadv
      injection h with h'
      injection h' with hA hB
      subst hA
      subst hB
      refine ⟨fun r hr => ?_, fun _ hn => nomatch hn⟩
      refine ⟨kv, iterAdvance_some_kv hadv, Option.some.inj hr, ?_, ?_⟩
      · intro e2 he2
        cases he2
      · intro e2 he2
        cases he2

/-- A leaf page with `max_size = 4` and the given chain and entries. -/
def mkLeafPage (next_page_id : Nat) (arr : List LeafKV) : BPlusTreeLeafPage :=
  { max_size := 4, next_page_id := next_page_id, array := arr }

/-- A one-leaf tree holding the single key `[5]`, used to exhibit the
first-call behaviour of the iterator. -/
def c3State : TreeState :=
  { store := [(1, .leaf (mkLeafPage 0 [([5], { page_id := 9, slot_num := 9 })]))],
    next_page := 2, root_page_id := 1 }

def c3Iter : TreeIndexIterator := TreeIndexIterator.new (.included [5]) (.excluded [5])

def c3IterAfter : TreeIndexIterator :=
  { start_bound := .included [5], end_bound := .excluded [5],
    leaf_page := mkLeafPage 0 [([5], { page_id := 9, slot_num := 9 })],
    cursor := 0, started := true }

/-- Claim C3 counterexample: the claim demands that the end bound be
checked before yielding on the first call to `next` as well, and that
with `Excluded(end)` no record with key `≥ end` is ever yielded.  On the
range `(Included [5], Excluded [5])` over a one-leaf tree holding `[5]`,
the first call yields the record for key `[5]`, whose key is not
`< [5]`: the first call never consults the end bound. -/
theorem claimC3_counterexample :
    c3Iter.started = false ∧
    c3Iter.end_bound = .excluded [5] ∧
    iterNext 10 c3State c3Iter =
      some (c3IterAfter, some { page_id := 9, slot_num := 9 }) ∧
    c3IterAfter.leaf_page.array.get? c3IterAfter.cursor =
      some ([5], { page_id := 9, slot_num := 9 }) ∧
    tupleLt [5] [5] = false := by
  decide

def c3wState : TreeState :=
  { store := [(1, .leaf (mkLeafPage 0
      [([1], { page_id := 1, slot_num := 1 }), ([2], { page_id := 2, slot_num := 2 })]))],
    next_page := 2, root_page_id := 1 }

def c3wIter : TreeIndexIterator :=
  { start_bound := .unbounded, end_bound := .included [5],
    leaf_page := mkLeafPage 0
      [([1], { page_id := 1, slot_num := 1 }), ([2], { page_id := 2, slot_num := 2 })],
    cursor := 0, started := true }

def c3wIterAfter : TreeIndexIterator := { c3wIter with cursor := 1 }

/-- Witness for the amended C3 at a concrete started iterator. -/
theorem claimC3_witness :
    (∀ r, (some { page_id := 2, slot_num := 2 } : Option RecordId) = some r →
      ∃ kv, c3wIterAfter.leaf_page.array.get? c3wIterAfter.cursor = some kv ∧ kv.2 = r ∧
        (∀ e, c3wIter.end_bound = .included e → tupleLe kv.1 e = true) ∧
        (∀ e, c3wIter.end_bound = .excluded e → tupleLt kv.1 e = true)) ∧
    (c3wIter.end_bound = .unbounded →
      (some { page_id := 2, slot_num := 2 } : Option RecordId) = none →
      c3wIter.cursor + 1 ≥ c3wIter.leaf_page.current_size ∧
        c3wIter.leaf_page.next_page_id = INVALID_PAGE_ID) :=
  claimC3 10 c3wState c3wIter c3wIterAfter
    (some { page_id := 2, slot_num := 2 }) (by decide) (by decide)

/-! ### Association-list store lemmas and sorted-insert lemmas -/

theorem storeGet_storeSet_self (s : PageStore) (pid : Nat) (pg : BPlusTreePage) :
    storeGet (storeSet s pid pg) pid = some pg := by
  induction s with
  | nil => simp [storeSet, storeGet]
  | cons e rest ih =>
      unfold storeSet
      split
      · simp [storeGet]
      · rename_i hne
        simpa [storeGet, List.find?, hne] using ih

theorem storeGet_storeSet_ne (s : PageStore) (pid : Nat) (pg : BPlusTreePage) (qid : Nat)
    (h : qid ≠ pid) : storeGet (storeSet s pid pg) qid = storeGet s qid := by
  induction s with
  | nil => simp [storeSet, storeGet, List.find?, Ne.symm h]
  | cons e rest ih =>
      unfold storeSet
      split
      · rename_i heq
        subst heq
        simp [storeGet, List.find?, Ne.symm h]
      · by_cases he : e.1 = qid
        · simp [storeGet, List.find?, he]
        · simpa [storeGet, List.find?, he] using ih

theorem storeGet_storeDel_ne (s : PageStore) (pid qid : Nat) (h : qid ≠ pid)
    (hnodup : (s.map (·.1)).Nodup) :
    storeGet (storeDel s pid) qid = storeGet s qid := by
  induction s with
  | nil => simp [storeDel]
  | cons e rest ih =>
      simp only [List.map_cons, List.nodup_cons] at hnodup
      unfold storeDel
      split
      · rename_i heq
        subst heq
        simp [storeGet, List.find?, Ne.symm h]
      · by_cases he : e.1 = qid
        · simp [storeGet, List.find?, he]
        · simpa [storeGet, List.find?, he] using ih hnodup.2

/-- Inserting a kv that no element of the list is strictly above appends
it at the end. -/
theorem kvInsert_append {β : Type} (kv : Tuple × β) (acc : List (Tuple × β))
    (h : ∀ x ∈ acc, tupleLt kv.1 x.1 = false) : kvInsert kv acc = acc ++ [kv] := by
  induction acc with
  | nil => rfl
  | cons x xs ih =>
      unfold kvInsert
      rw [h x (by simp)]
      simp only [Bool.false_eq_true, if_false, List.cons_append, List.cons.injEq, true_and]
      exact ih (fun y hy => h y (by simp [hy]))

/-- Batch-inserting an ascending list into an accumulator everything of
which is below the list just appends the list. -/
theorem foldl_kvInsert_sorted {β : Type} (l : List (Tuple × β)) :
    ∀ acc : List (Tuple × β),
    (∀ b ∈ l, ∀ a ∈ acc, tupleLt b.1 a.1 = false) →
    List.Pairwise (fun a b => tupleLt b.1 a.1 = false) l →
    l.foldl (fun acc kv => kvInsert kv acc) acc = acc ++ l := by
  induction l with
  | nil => simp
  | cons x xs ih =>
      intro acc hacc hpair
      simp only [List.foldl_cons]
      rw [List.pairwise_cons] at hpair
      have hx := kvInsert_append x acc (hacc x (by simp))
      rw [hx]
      rw [ih (acc ++ [x]) ?_ hpair.2]
      · simp
      · intro b hb a ha
        rcases List.mem_append.mp ha with ha | ha
        · exact hacc b (by simp [hb]) a ha
        · simp only [List.mem_singleton] at ha
          subst ha
          exact hpair.1 b hb

/-! ### Claim C6: the shape of a split -/

/-- Claim C6: splitting a page holding exactly `max_size + 1` entries
keeps the lower `floor((max_size + 1) / 2)` entries in the left page and
moves the rest to the freshly allocated right sibling.  For a leaf the
new right page inherits the old `next_page_id`, the old page's
`next_page_id` becomes the new page's id, and the separator pushed up is
the new right page's key at index 0 (the entry at the split point).  For
an internal page the separator is the minimum leaf key of the subtree
rooted at the new right page's child 0, obtained by the child-0 descent
`find_subtree_leafkv`. -/
theorem claimC6 (fuel : Nat) (idx : BPlusTreeIndex) (s : TreeState) :
    (∀ (lp : BPlusTreeLeafPage) (sepkv : LeafKV),
      lp.current_size = lp.max_size + 1 →
      List.Pairwise (fun a b => tupleLt b.1 a.1 = false) lp.array →
      lp.array.get? ((lp.max_size + 1) / 2) = some sepkv →
      split (fuel + 1) idx s (.leaf lp) = some
        ({ s with next_page := s.next_page + 1, store := storeSet s.store s.next_page (.leaf { max_size := idx.leaf_max_size, next_page_id := lp.next_page_id, array := lp.array.drop ((lp.max_size + 1) / 2) }) },
          .leaf { lp with next_page_id := s.next_page, array := lp.array.take ((lp.max_size + 1) / 2) },
          (sepkv.1, s.next_page))) ∧
    (∀ (ip : BPlusTreeInternalPage) (res : TreeState × BPlusTreePage × InternalKV)
      (childkv : InternalKV),
      ip.current_size = ip.max_size + 1 →
      List.Pairwise (fun a b => tupleLt b.1 a.1 = false) ip.array →
      ip.array.get? ((ip.max_size + 1) / 2) = some childkv →
      split (fuel + 1) idx s (.internal ip) = some res →
      ∃ r : RecordId,
        res.1 = { s with next_page := s.next_page + 1, store := storeSet s.store s.next_page (.internal { max_size := idx.internal_max_size, array := ip.array.drop ((ip.max_size + 1) / 2) }) } ∧
        res.2.1 = .internal { ip with array := ip.array.take ((ip.max_size + 1) / 2) } ∧
        res.2.2.2 = s.next_page ∧
        find_subtree_leafkv fuel res.1.store childkv.2 true = some (res.2.2.1, r)) := by
  constructor
  · intro lp sepkv hfull hpair hsep
    have hmid : lp.current_size / 2 = (lp.max_size + 1) / 2 := by rw [hfull]
    have hdrop : (BPlusTreeLeafPage.batch_insert
        { max_size := idx.leaf_max_size, next_page_id := INVALID_PAGE_ID, array := [] }
        (lp.array.drop ((lp.max_size + 1) / 2))).array =
        lp.array.drop ((lp.max_size + 1) / 2) := by
      unfold BPlusTreeLeafPage.batch_insert
      rw [foldl_kvInsert_sorted _ [] (by simp)
        (hpair.sublist (List.drop_sublist _ _))]
      simp
    have hkey0 : (lp.array.drop ((lp.max_size + 1) / 2)).get? 0 = some sepkv := by
      rw [List.get?_drop]
      simpa using hsep
    simp only [split, newPage, BPlusTreeLeafPage.split_off, hmid,
      BPlusTreeLeafPage.key_at]
    rw [show (BPlusTreeLeafPage.batch_insert
        { max_size := idx.leaf_max_size, next_page_id := INVALID_PAGE_ID, array := [] }
        (lp.array.drop ((lp.max_size + 1) / 2))) =
        { max_size := idx.leaf_max_size, next_page_id := INVALID_PAGE_ID,
          array := lp.array.drop ((lp.max_size + 1) / 2) } from ?_]
    · simp only [hkey0, Option.map_some]
      rfl
    · unfold BPlusTreeLeafPage.batch_insert
      simp only [BPlusTreeLeafPage.mk.injEq, true_and]
      rw [foldl_kvInsert_sorted _ [] (by simp)
        (hpair.sublist (List.drop_sublist _ _))]
      simp
  · intro ip res childkv hfull hpair hchild hsplit
    have hmid : ip.current_size / 2 = (ip.max_size + 1) / 2 := by rw [hfull]
    have hdrop : (BPlusTreeInternalPage.batch_insert
        { max_size := idx.internal_max_size, array := [] }
        (ip.array.drop ((ip.max_size + 1) / 2))) =
        { max_size := idx.internal_max_size,
          array := ip.array.drop ((ip.max_size + 1) / 2) } := by
      unfold BPlusTreeInternalPage.batch_insert
      simp only [BPlusTreeInternalPage.mk.injEq, true_and]
      rw [foldl_kvInsert_sorted _ [] (by simp)
        (hpair.sublist (List.drop_sublist _ _))]
      simp
    simp only [split, newPage, BPlusTreeInternalPage.split_off, hmid, hdrop] at hsplit
    have hval : (BPlusTreeInternalPage.value_at { max_size := idx.internal_max_size, array := ip.array.drop ((ip.max_size + 1) / 2) } 0) = some childkv.2 := by
      unfold BPlusTreeInternalPage.value_at
      simp only [List.get?_drop]
      simpa using congrArg (Option.map (·.2)) hchild
    rcases hmin : find_subtree_min_leafkv (fuel + 1) (storeSet s.store s.next_page (.internal { max_size := idx.internal_max_size, array := ip.array.drop ((ip.max_size + 1) / 2) })) s.next_page with _ | minkv
    · simp only [hmin] at hsplit
      exact nomatch hsplit
    · simp only [hmin] at hsplit
      injection hsplit with h'
      subst h'
      have hmin2 : find_subtree_leafkv fuel (storeSet s.store s.next_page (.internal { max_size := idx.internal_max_size, array := ip.array.drop ((ip.max_size + 1) / 2) })) childkv.2 true = some minkv := by
        rw [find_subtree_min_leafkv, find_subtree_leafkv, storeGet_storeSet_self] at hmin
        simp only [findSubtreeLeafkvLoop, if_true, hval] at hmin
        simp only [find_subtree_leafkv]
        exact hmin
      exact ⟨minkv.2, rfl, rfl, rfl, hmin2⟩

def c6wLP : BPlusTreeLeafPage :=
  mkLeafPage 42 [([1], testRid 1), ([2], testRid 2), ([3], testRid 3), ([4], testRid 4), ([5], testRid 5)]

def c6wS : TreeState := { store := [], next_page := 20, root_page_id := 0 }

def c6wIP : BPlusTreeInternalPage :=
  { max_size := 4, array := [([], 10), ([2], 11), ([3], 12), ([4], 13), ([5], 14)] }

def c6wS2 : TreeState :=
  { store := [(12, mkLeaf 0 [([3], testRid 3)])], next_page := 20, root_page_id := 0 }

def c6wRes : TreeState × BPlusTreePage × InternalKV :=
  ({ store := [(12, mkLeaf 0 [([3], testRid 3)]), (20, mkInternal [([3], 12), ([4], 13), ([5], 14)])], next_page := 21, root_page_id := 0 },
   mkInternal [([], 10), ([2], 11)],
   ([3], 20))

/-- Witness for C6 at a concrete overfull leaf and internal page. -/
theorem claimC6_witness :
    (split (9 + 1) testIndex c6wS (.leaf c6wLP) = some
      ({ c6wS with next_page := c6wS.next_page + 1, store := storeSet c6wS.store c6wS.next_page (.leaf { max_size := testIndex.leaf_max_size, next_page_id := c6wLP.next_page_id, array := c6wLP.array.drop ((c6wLP.max_size + 1) / 2) }) },
        .leaf { c6wLP with next_page_id := c6wS.next_page, array := c6wLP.array.take ((c6wLP.max_size + 1) / 2) },
        (([3] : Tuple), c6wS.next_page))) ∧
    (∃ r : RecordId,
        c6wRes.1 = { c6wS2 with next_page := c6wS2.next_page + 1, store := storeSet c6wS2.store c6wS2.next_page (.internal { max_size := testIndex.internal_max_size, array := c6wIP.array.drop ((c6wIP.max_size + 1) / 2) }) } ∧
        c6wRes.2.1 = .internal { c6wIP with array := c6wIP.array.take ((c6wIP.max_size + 1) / 2) } ∧
        c6wRes.2.2.2 = c6wS2.next_page ∧
        find_subtree_leafkv 9 c6wRes.1.store ((([3], 12) : InternalKV)).2 true = some (c6wRes.2.2.1, r)) :=
  ⟨(claimC6 9 testIndex c6wS).1 c6wLP ([3], testRid 3) (by decide) (by decide) (by decide),
   (claimC6 9 testIndex c6wS2).2 c6wIP c6wRes ([3], 12) (by decide) (by decide) (by decide)
     (by decide)⟩

/-! ### The buffer pool manager

The `BufferPoolManager` of src/bustubx/src/buffer/buffer_pool.rs, with
`Page` and the LRU-K replacer (whose sources are not given) modelled from
the specification.  The disk manager is the spec's collaborator: a
monotone page-id allocator plus a page-id-indexed byte-image map (byte
images are abstracted to a single value); `deallocate_page` records the
deallocation.  Errors are modelled by `Except String` carrying the
source's error message; index accesses that would panic are errors
marked "panic". -/

def alGet {α : Type} (s : List (Nat × α)) (key : Nat) : Option α :=
  (s.find? (fun e => decide (e.1 = key))).map (·.2)

def alSet {α : Type} : List (Nat × α) → Nat → α → List (Nat × α)
  | [], key, v => [(key, v)]
  | e :: rest, key, v =>
      if e.1 = key then (key, v) :: rest else e :: alSet rest key v

def alDel {α : Type} : List (Nat × α) → Nat → List (Nat × α)
  | [], _ => []
  | e :: rest, key => if e.1 = key then rest else e :: alDel rest key

/-- Modelled from the spec: a frame image: `page_id`, `pin_count`,
`is_dirty` and the (abstracted) byte data. -/
structure Page where
  page_id : Nat
  pin_count : Nat
  is_dirty : Bool
  data : Nat
deriving DecidableEq, Repr

def Page.empty : Page := { page_id := 0, pin_count := 0, is_dirty := false, data := 0 }

def Page.new (pid : Nat) : Page := { page_id := pid, pin_count := 0, is_dirty := false, data := 0 }

def Page.with_pin_count (p : Page) (n : Nat) : Page := { p with pin_count := n }

/-- Modelled from the spec: per-frame access history (most recent first,
at most `k` kept) and the evictable flag. -/
structure ReplacerEntry where
  history : List Nat
  evictable : Bool
deriving DecidableEq, Repr

/-- Modelled from the spec: the LRU-K replacer. -/
structure LRUKReplacer where
  num_frames : Nat
  k : Nat
  current_timestamp : Nat
  entries : List (Nat × ReplacerEntry)
deriving DecidableEq, Repr

def LRUKReplacer.new (num_frames k : Nat) : LRUKReplacer :=
  { num_frames := num_frames, k := k, current_timestamp := 0, entries := [] }

/-- Modelled from the spec: append the current timestamp to the frame's
history (keep at most `k`); fails when `frame ≥ num_frames`. -/
def LRUKReplacer.record_access (r : LRUKReplacer) (frame : Nat) : Option LRUKReplacer :=
  if frame ≥ r.num_frames then none
  else
    let e := (alGet r.entries frame).getD { history := [], evictable := false }
    some { r with
      entries := alSet r.entries frame
        { e with history := (r.current_timestamp :: e.history).take r.k },
      current_timestamp := r.current_timestamp + 1 }

/-- Modelled from the spec: toggle a frame's eviction eligibility; fails
when `frame ≥ num_frames`. -/
def LRUKReplacer.set_evictable (r : LRUKReplacer) (frame : Nat) (b : Bool) :
    Option LRUKReplacer :=
  if frame ≥ r.num_frames then none
  else
    let e := (alGet r.entries frame).getD { history := [], evictable := false }
    some { r with entries := alSet r.entries frame { e with evictable := b } }

/-- Modelled from the spec: the number of currently evictable frames. -/
def LRUKReplacer.size (r : LRUKReplacer) : Nat :=
  (r.entries.filter (fun e => e.2.evictable)).length

/-- Modelled from the spec: forget a frame's history. -/
def LRUKReplacer.remove (r : LRUKReplacer) (frame : Nat) : LRUKReplacer :=
  { r with entries := alDel r.entries frame }

/-- Modelled from the spec: the eviction rank of an entry, smaller is
evicted first: frames with fewer than `k` accesses (infinite backward
distance) come first, tie-broken by the oldest earliest access; frames
with `k` accesses are ranked by the timestamp of the k-th most recent
access (maximal backward distance = minimal such timestamp). -/
def LRUKReplacer.rank (r : LRUKReplacer) (e : ReplacerEntry) : Nat × Nat :=
  if e.history.length < r.k then (0, (e.history.getLast?).getD 0)
  else (1, (e.history.get? (r.k - 1)).getD 0)

def rankLt (a b : Nat × Nat) : Bool := a.1 < b.1 || (a.1 = b.1 && a.2 < b.2)

/-- Modelled from the spec: evict the evictable frame with the largest
backward k-distance and forget its history. -/
def LRUKReplacer.evict (r : LRUKReplacer) : Option (LRUKReplacer × Nat) :=
  match r.entries.filter (fun e => e.2.evictable) with
  | [] => none
  | c :: cs =>
      let best := cs.foldl
        (fun best e => if rankLt (r.rank e.2) (r.rank best.2) then e else best) c
      some ({ r with entries := alDel r.entries best.1 }, best.1)

/-- The spec's DiskManager collaborator. -/
structure DiskState where
  next_page_id : Nat
  pages : List (Nat × Nat)
  deallocated : List Nat
deriving DecidableEq, Repr

def DiskState.allocate_page (d : DiskState) : Nat × DiskState :=
  (d.next_page_id, { d with next_page_id := d.next_page_id + 1 })

def DiskState.deallocate_page (d : DiskState) (pid : Nat) : DiskState :=
  { d with deallocated := pid :: d.deallocated }

def DiskState.write_page (d : DiskState) (pid data : Nat) : DiskState :=
  { d with pages := alSet d.pages pid data }

/-- The state of a `BufferPoolManager`: the frame array, the replacer,
the disk manager, the page table and the free list. -/
structure BufferPoolManager where
  pool : List Page
  replacer : LRUKReplacer
  disk : DiskState
  page_table : List (Nat × Nat)
  free_list : List Nat
deriving DecidableEq, Repr

/-- `BufferPoolManager::flush_page`. -/
def BufferPoolManager.flush_page (b : BufferPoolManager) (pid : Nat) :
    Except String (BufferPoolManager × Bool) :=
  match alGet b.page_table pid with
  | some fid =>
      match b.pool.get? fid with
      | none => .error "panic: invalid frame id"
      | some pg =>
          .ok ({ b with disk := b.disk.write_page pid pg.data, pool := b.pool.set fid { pg with is_dirty := false } }, true)
  | none => .ok (b, false)

/-- `BufferPoolManager::allocate_frame`: pop the free list, else evict
through the replacer (flushing a dirty resident page and unmapping it),
else fail. -/
def BufferPoolManager.allocate_frame (b : BufferPoolManager) :
    Except String (BufferPoolManager × Nat) :=
  match b.free_list with
  | frame_id :: rest => .ok ({ b with free_list := rest }, frame_id)
  | [] =>
      match b.replacer.evict with
      | some (rep2, frame_id) =>
          match b.pool.get? frame_id with
          | none => .error "panic: invalid frame id"
          | some evicted_page =>
              let b1 := { b with replacer := rep2 }
              match (if evicted_page.is_dirty
                  then b1.flush_page evicted_page.page_id
                  else .ok (b1, true)) with
              | .error e => .error e
              | .ok (b2, _) =>
                  .ok ({ b2 with page_table := alDel b2.page_table evicted_page.page_id },
                    frame_id)
      | none => .error "Cannot allocate free frame"

/-- `BufferPoolManager::new_page`: fail when the free list is empty and
the replacer has no evictable frame; otherwise allocate a frame, get a
fresh page id from the disk manager, install the mapping and the fresh
page with pin count 1, record an access and mark the frame
non-evictable.  Returns the new state, the page id and the frame id. -/
def BufferPoolManager.new_page (b : BufferPoolManager) :
    Except String (BufferPoolManager × Nat × Nat) :=
  if b.free_list.isEmpty ∧ b.replacer.size = 0 then
    .error "Cannot new page because buffer pool is full and no page to evict"
  else
    match b.allocate_frame with
    | .error e => .error e
    | .ok (b1, frame_id) =>
        let (new_page_id, d2) := b1.disk.allocate_page
        let b2 := { b1 with disk := d2, page_table := alSet b1.page_table new_page_id frame_id }
        match b2.pool.get? frame_id with
        | none => .error "panic: invalid frame id"
        | some _ =>
            let b3 := { b2 with
              pool := b2.pool.set frame_id ((Page.new new_page_id).with_pin_count 1) }
            match b3.replacer.record_access frame_id with
            | none => .error "invalid frame id for replacer"
            | some rep1 =>
                match (LRUKReplacer.set_evictable rep1 frame_id false) with
                | none => .error "invalid frame id for replacer"
                | some rep2 =>
                    .ok ({ b3 with replacer := rep2 }, new_page_id, frame_id)

/-- `BufferPoolManager::delete_page`: success when the page id is
unmapped; refuse when the resident page is pinned; otherwise clear the
frame, unmap the page id, push the frame onto the free list, remove the
frame from the replacer and deallocate the page id on disk. -/
def BufferPoolManager.delete_page (b : BufferPoolManager) (pid : Nat) :
    Except String (BufferPoolManager × Bool) :=
  match alGet b.page_table pid with
  | some frame_id =>
      match b.pool.get? frame_id with
      | none => .error "panic: invalid frame id"
      | some page =>
          if page.pin_count > 0 then .ok (b, false)
          else
            .ok ({ b with
              pool := b.pool.set frame_id Page.empty,
              page_table := alDel b.page_table pid,
              free_list := b.free_list ++ [frame_id],
              replacer := b.replacer.remove frame_id,
              disk := b.disk.deallocate_page pid }, true)
  | none => .ok (b, true)

/-! ### Claims C4, C5, C9: the buffer pool -/

theorem alGet_alSet_self {α : Type} (s : List (Nat × α)) (k : Nat) (v : α) :
    alGet (alSet s k v) k = some v := by
  induction s with
  | nil => simp [alSet, alGet]
  | cons e rest ih =>
      unfold alSet
      split
      · simp [alGet]
      · rename_i hne
        simpa [alGet, List.find?, hne] using ih

theorem foldl_pick_mem {α : Type} (p : α → α → Bool) (c : α) (cs : List α) :
    cs.foldl (fun best e => if p e best then e else best) c ∈ c :: cs := by
  induction cs generalizing c with
  | nil => simp
  | cons x xs ih =>
      simp only [List.foldl_cons]
      have h := ih (if p x c then x else c)
      rcases List.mem_cons.mp h with h1 | h1
      · rw [h1]
        split <;> simp
      · simp [h1]

/-- A replacer with a positive evictable count always evicts some frame
that it was tracking, preserving `num_frames`. -/
theorem evict_of_size_pos (r : LRUKReplacer) (h : 0 < r.size) :
    ∃ rep2 f, r.evict = some (rep2, f) ∧ f ∈ r.entries.map (·.1) ∧
      rep2.num_frames = r.num_frames ∧ rep2.k = r.k := by
  unfold LRUKReplacer.size at h
  unfold LRUKReplacer.evict
  rcases hc : r.entries.filter (fun e => e.2.evictable) with _ | ⟨c, cs⟩
  · rw [hc] at h
    simp at h
  · simp only [hc]
    refine ⟨_, _, rfl, ?_, rfl, rfl⟩
    have hb := foldl_pick_mem
      (fun e best => rankLt (r.rank e.2) (r.rank best.2)) c cs
    have hmem : (cs.foldl
        (fun best e => if rankLt (r.rank e.2) (r.rank best.2) then e else best) c)
        ∈ r.entries := by
      refine List.mem_of_mem_filter (p := fun e => e.2.evictable) ?_
      rw [hc]
      exact hb
    exact List.mem_map_of_mem _ hmem

/-- `flush_page` never fails when the page table maps into the frame
array, and it preserves the pool size, the allocation counter and the
replacer. -/
theorem flush_page_ok (b : BufferPoolManager) (pid : Nat)
    (hwf : ∀ f ∈ b.page_table.map (·.2), f < b.pool.length) :
    ∃ b2 res, b.flush_page pid = .ok (b2, res) ∧ b2.pool.length = b.pool.length ∧
      b2.disk.next_page_id = b.disk.next_page_id ∧ b2.replacer = b.replacer := by
  unfold BufferPoolManager.flush_page
  rcases hpt : alGet b.page_table pid with _ | fid
  · exact ⟨b, false, rfl, rfl, rfl, rfl⟩
  · have hfid : fid < b.pool.length := by
      refine hwf fid ?_
      unfold alGet at hpt
      rcases hf : b.page_table.find? (fun e => decide (e.1 = pid)) with _ | e
      · rw [hf] at hpt
        exact nomatch hpt
      · rw [hf] at hpt
        injection hpt with h'
        subst h'
        exact List.mem_map_of_mem _ (List.mem_of_find?_eq_some hf)
    obtain ⟨pg, hpg⟩ : ∃ pg, b.pool.get? fid = some pg := ⟨_, List.get?_eq_get hfid⟩
    simp only [hpg]
    exact ⟨_, true, rfl, by simp [List.length_set], rfl, rfl⟩

/-- `allocate_frame` succeeds whenever the free list is non-empty or the
replacer has an evictable frame, handing out an in-range frame id and
preserving the pool size, the allocation counter and the replacer
geometry. -/
theorem allocate_frame_ok (b : BufferPoolManager)
    (hwf2 : ∀ f ∈ b.free_list, f < b.pool.length)
    (hwf3 : ∀ f ∈ b.replacer.entries.map (·.1), f < b.pool.length)
    (hwf4 : ∀ f ∈ b.page_table.map (·.2), f < b.pool.length)
    (hnotfull : ¬(b.free_list.isEmpty ∧ b.replacer.size = 0)) :
    ∃ b1 fid, b.allocate_frame = .ok (b1, fid) ∧ fid < b.pool.length ∧
      b1.pool.length = b.pool.length ∧
      b1.disk.next_page_id = b.disk.next_page_id ∧
      b1.replacer.num_frames = b.replacer.num_frames ∧
      b1.replacer.k = b.replacer.k := by
  unfold BufferPoolManager.allocate_frame
  rcases hfl : b.free_list with _ | ⟨f, rest⟩
  · have hsz : 0 < b.replacer.size := by
      rcases Nat.eq_zero_or_pos b.replacer.size with h0 | h
      · exact absurd ⟨by simp [hfl], h0⟩ hnotfull
      · exact h
    obtain ⟨rep2, f, hev, hfmem, hnum, hkk⟩ := evict_of_size_pos b.replacer hsz
    have hf : f < b.pool.length := hwf3 f hfmem
    obtain ⟨pg, hpg⟩ : ∃ pg, b.pool.get? f = some pg := ⟨_, List.get?_eq_get hf⟩
    simp only [hev, hpg]
    rcases hd : pg.is_dirty with _ | _
    · simp only [hd, Bool.false_eq_true, if_false]
      exact ⟨_, f, rfl, hf, rfl, rfl, hnum, hkk⟩
    · simp only [hd, if_true]
      obtain ⟨b2, res, hflush, hlen, hnext, hrep⟩ :=
        flush_page_ok { b with replacer := rep2, free_list := [] } pg.page_id hwf4
      simp only [hflush]
      refine ⟨_, f, rfl, hf, hlen, hnext, ?_, ?_⟩
      · rw [hrep]
        exact hnum
      · rw [hrep]
        exact hkk
  · exact ⟨_, f, rfl, hwf2 f (by simp [hfl]), rfl, rfl, rfl, rfl⟩

/-- Claim C4: `new_page` fails with the "buffer pool full" error exactly
when the free list is empty and the replacer has zero evictable frames;
otherwise it returns the freshly allocated page id, installs a page with
pin count 1 in the chosen frame, inserts the mapping into the page
table, records an access for the frame and marks it non-evictable.  The
well-formedness hypotheses say the frame ids known to the free list, the
replacer and the page table index into the frame array, the replacer
covers the frame array and its `k` is positive. -/
theorem claimC4 (b : BufferPoolManager)
    (hwf1 : b.replacer.num_frames = b.pool.length)
    (hwf2 : ∀ f ∈ b.free_list, f < b.pool.length)
    (hwf3 : ∀ f ∈ b.replacer.entries.map (·.1), f < b.pool.length)
    (hwf4 : ∀ f ∈ b.page_table.map (·.2), f < b.pool.length)
    (hwf5 : 0 < b.replacer.k) :
    (b.free_list.isEmpty ∧ b.replacer.size = 0 →
      b.new_page = .error "Cannot new page because buffer pool is full and no page to evict") ∧
    (¬(b.free_list.isEmpty ∧ b.replacer.size = 0) →
      ∃ b2 fid, b.new_page = .ok (b2, b.disk.next_page_id, fid) ∧
        b2.pool.get? fid = some ((Page.new b.disk.next_page_id).with_pin_count 1) ∧
        alGet b2.page_table b.disk.next_page_id = some fid ∧
        ∃ e, alGet b2.replacer.entries fid = some e ∧
          e.history ≠ [] ∧ e.evictable = false) := by
  constructor
  · intro hfull
    unfold BufferPoolManager.new_page
    rw [if_pos hfull]
  · intro hnotfull
    unfold BufferPoolManager.new_page
    rw [if_neg hnotfull]
    obtain ⟨b1, fid, halloc, hfid, hlen, hnext, hnum, hk⟩ :=
      allocate_frame_ok b hwf2 hwf3 hwf4 hnotfull
    simp only [halloc, DiskState.allocate_page]
    have hfid1 : fid < b1.pool.length := hlen ▸ hfid
    obtain ⟨pg0, hpg0⟩ : ∃ pg, b1.pool.get? fid = some pg := ⟨_, List.get?_eq_get hfid1⟩
    simp only [hpg0]
    have hnum1 : fid < b1.replacer.num_frames := by
      rw [hnum, hwf1]
      exact hfid
    rcases hra : b1.replacer.record_access fid with _ | rep1
    · unfold LRUKReplacer.record_access at hra
      rw [if_neg (by omega)] at hra
      exact nomatch hra
    · simp only [hra]
      unfold LRUKReplacer.record_access at hra
      rw [if_neg (by omega)] at hra
      injection hra with hra
      rcases hse : rep1.set_evictable fid false with _ | rep2
      · unfold LRUKReplacer.set_evictable at hse
        rw [if_neg (by rw [← hra]; simp; omega)] at hse
        exact nomatch hse
      · simp only [hse]
        unfold LRUKReplacer.set_evictable at hse
        rw [if_neg (by rw [← hra]; simp; omega)] at hse
        injection hse with hse
        refine ⟨_, fid, by rw [hnext], ?_, ?_, ?_⟩
        · simp only [List.get?_set_eq_of_lt _ hfid1]
        · exact alGet_alSet_self _ _ _
        · refine ⟨_, by rw [← hse]; exact alGet_alSet_self _ _ _, ?_, rfl⟩
          rw [← hra]
          simp only [alGet_alSet_self, Option.getD_some]
          have hk1 : 0 < b1.replacer.k := hk ▸ hwf5
          rcases hke : b1.replacer.k with _ | k2
          · omega
          · simp [List.take_succ_cons]

/-- Claim C5: `delete_page(pid)` returns true when `pid` is unmapped;
returns false, refusing, when the resident page has a positive pin
count; and otherwise clears the frame, removes `pid` from the page
table, pushes the frame onto the free list, removes the frame from the
replacer, deallocates `pid` on disk and returns true. -/
theorem claimC5 (b : BufferPoolManager) (pid : Nat) :
    (alGet b.page_table pid = none → b.delete_page pid = .ok (b, true)) ∧
    (∀ fid page, alGet b.page_table pid = some fid → b.pool.get? fid = some page →
      (page.pin_count > 0 → b.delete_page pid = .ok (b, false)) ∧
      (page.pin_count = 0 → b.delete_page pid = .ok ({ b with pool := b.pool.set fid Page.empty, page_table := alDel b.page_table pid, free_list := b.free_list ++ [fid], replacer := b.replacer.remove fid, disk := b.disk.deallocate_page pid }, true))) := by
  constructor
  · intro h
    unfold BufferPoolManager.delete_page
    simp only [h]
  · intro fid page hmap hpool
    unfold BufferPoolManager.delete_page
    simp only [hmap, hpool]
    constructor
    · intro hpin
      rw [if_pos hpin]
    · intro hpin
      rw [if_neg (by omega)]

/-- Claim C9: when `pid` is mapped and its page is pinned, `delete_page`
returns `Ok(false)` and leaves the frame array, the page table, the free
list, the replacer and the disk (hence no deallocation) exactly as they
were. -/
theorem claimC9 (b : BufferPoolManager) (pid fid : Nat) (page : Page)
    (hmap : alGet b.page_table pid = some fid)
    (hpool : b.pool.get? fid = some page)
    (hpin : page.pin_count > 0) :
    ∃ b2, b.delete_page pid = .ok (b2, false) ∧ b2.pool = b.pool ∧
      b2.page_table = b.page_table ∧ b2.free_list = b.free_list ∧
      b2.replacer = b.replacer ∧ b2.disk = b.disk := by
  refine ⟨b, ?_, rfl, rfl, rfl, rfl, rfl⟩
  unfold BufferPoolManager.delete_page
  simp only [hmap, hpool]
  rw [if_pos hpin]

def c4wB : BufferPoolManager :=
  { pool := [Page.empty], replacer := LRUKReplacer.new 1 2,
    disk := { next_page_id := 5, pages := [], deallocated := [] },
    page_table := [], free_list := [0] }

/-- Witness for C4 at a one-frame pool with a free frame. -/
theorem claimC4_witness :
    (c4wB.free_list.isEmpty ∧ c4wB.replacer.size = 0 →
      c4wB.new_page = .error "Cannot new page because buffer pool is full and no page to evict") ∧
    (¬(c4wB.free_list.isEmpty ∧ c4wB.replacer.size = 0) →
      ∃ b2 fid, c4wB.new_page = .ok (b2, c4wB.disk.next_page_id, fid) ∧
        b2.pool.get? fid = some ((Page.new c4wB.disk.next_page_id).with_pin_count 1) ∧
        alGet b2.page_table c4wB.disk.next_page_id = some fid ∧
        ∃ e, alGet b2.replacer.entries fid = some e ∧
          e.history ≠ [] ∧ e.evictable = false) :=
  claimC4 c4wB (by decide) (by decide) (by decide) (by decide) (by decide)

def c5wB : BufferPoolManager :=
  { pool := [{ page_id := 7, pin_count := 0, is_dirty := false, data := 3 }],
    replacer := LRUKReplacer.new 1 2,
    disk := { next_page_id := 8, pages := [], deallocated := [] },
    page_table := [(7, 0)], free_list := [] }

/-- Witness for C5 at a one-frame pool holding unpinned page 7. -/
theorem claimC5_witness :
    (alGet c5wB.page_table 7 = none → c5wB.delete_page 7 = .ok (c5wB, true)) ∧
    (∀ fid page, alGet c5wB.page_table 7 = some fid → c5wB.pool.get? fid = some page →
      (page.pin_count > 0 → c5wB.delete_page 7 = .ok (c5wB, false)) ∧
      (page.pin_count = 0 → c5wB.delete_page 7 = .ok ({ c5wB with pool := c5wB.pool.set fid Page.empty, page_table := alDel c5wB.page_table 7, free_list := c5wB.free_list ++ [fid], replacer := c5wB.replacer.remove fid, disk := c5wB.disk.deallocate_page 7 }, true))) :=
  claimC5 c5wB 7

def c9wB : BufferPoolManager :=
  { pool := [{ page_id := 7, pin_count := 2, is_dirty := false, data := 3 }],
    replacer := LRUKReplacer.new 1 2,
    disk := { next_page_id := 8, pages := [], deallocated := [] },
    page_table := [(7, 0)], free_list := [] }

/-- Witness for C9 at a one-frame pool holding pinned page 7. -/
theorem claimC9_witness :
    ∃ b2, c9wB.delete_page 7 = .ok (b2, false) ∧ b2.pool = c9wB.pool ∧
      b2.page_table = c9wB.page_table ∧ b2.free_list = c9wB.free_list ∧
      b2.replacer = c9wB.replacer ∧ b2.disk = c9wB.disk :=
  claimC9 c9wB 7 0 { page_id := 7, pin_count := 2, is_dirty := false, data := 3 }
    (by decide) (by decide) (by decide)

/-! ### The table heap

The `TableHeap` of src/bustubx/src/storage/table_heap.rs.  `TablePage` is
declared in a file that is not part of the given sources; it is modelled
from the spec: a header `{next_page_id, num_tuples}` and an append-only
slot directory, where a tuple fits iff its slot entry and bytes still
fit into the fixed page size (byte sizes are abstracted by a per-value
width).  The buffer pool is modelled as the page-id-indexed store of
decoded table pages; crucially, writes through a `PageRef` handle go to
the page the handle was fetched for. -/

structure TupleMeta where
  insert_txn_id : Nat
  delete_txn_id : Nat
  is_deleted : Bool
deriving DecidableEq, Repr

def EMPTY_TUPLE_META : TupleMeta :=
  { insert_txn_id := 0, delete_txn_id := 0, is_deleted := false }

/-- Modelled from the spec: a table page: `next_page_id` and the slot
directory with the tuples (num_tuples is its length). -/
structure TablePage where
  next_page_id : Nat
  tuples : List (TupleMeta × Tuple)
deriving DecidableEq, Repr

def TablePage.num_tuples (p : TablePage) : Nat := p.tuples.length

def TablePage.new (next_page_id : Nat) : TablePage :=
  { next_page_id := next_page_id, tuples := [] }

def TABLE_PAGE_CAPACITY : Nat := 4096

def TABLE_PAGE_HEADER_BYTES : Nat := 8

def TABLE_PAGE_SLOT_BYTES : Nat := 24

/-- Modelled from the spec: the encoded width of a tuple (abstracted as
a fixed width per column value). -/
def tupleBytes (t : Tuple) : Nat := 8 * t.length

def TablePage.used_bytes (p : TablePage) : Nat :=
  TABLE_PAGE_HEADER_BYTES +
    p.tuples.foldl (fun acc e => acc + TABLE_PAGE_SLOT_BYTES + tupleBytes e.2) 0

/-- Modelled from the spec: `next_tuple_offset` succeeds (returning the
offset at which the tuple bytes would be placed) iff the new slot entry
and the tuple bytes still fit into the page. -/
def TablePage.next_tuple_offset (p : TablePage) (t : Tuple) : Option Nat :=
  if p.used_bytes + TABLE_PAGE_SLOT_BYTES + tupleBytes t ≤ TABLE_PAGE_CAPACITY then
    some (TABLE_PAGE_CAPACITY - (p.used_bytes + tupleBytes t))
  else none

/-- Modelled from the spec: append the tuple at the next free slot,
returning the slot id. -/
def TablePage.insert_tuple (p : TablePage) (meta : TupleMeta) (t : Tuple) :
    Option (TablePage × Nat) :=
  match p.next_tuple_offset t with
  | none => none
  | some _ => some ({ p with tuples := p.tuples ++ [(meta, t)] }, p.num_tuples)

/-- Modelled from the spec: the next slot of a RID is
`(page_id, slot_num + 1)` when in range. -/
def TablePage.get_next_rid (p : TablePage) (rid : RecordId) : Option RecordId :=
  if rid.slot_num + 1 < p.num_tuples then
    some { page_id := rid.page_id, slot_num := rid.slot_num + 1 }
  else none

/-- Modelled from the spec: read a slot (out of range is an error). -/
def TablePage.tuple (p : TablePage) (slot : Nat) : Option (TupleMeta × Tuple) :=
  p.tuples.get? slot

/-- The state a `TableHeap` operates on. -/
structure TableHeapState where
  store : List (Nat × TablePage)
  next_alloc : Nat
  first_page_id : Nat
  last_page_id : Nat
deriving DecidableEq, Repr

def heapAlloc (s : TableHeapState) : Nat × TableHeapState :=
  (s.next_alloc, { s with next_alloc := s.next_alloc + 1 })

/-- The result of `TableHeap::insert_tuple`: success, the fatal
`assert!` (tuple too large), or a propagated error / exhausted fuel. -/
inductive HeapInsertResult where
  | ok (s : TableHeapState) (rid : RecordId)
  | panic
  | fail
deriving DecidableEq, Repr

/-- The page-allocation loop of `TableHeap::insert_tuple`.  `handle_pid`
is the page the `last_page` handle obtained at entry refers to: the
source never re-fetches it, so every `last_page.write().set_data(...)`
(the chaining write and the final write of the filled page) lands on
that page, even after `last_page_id` has moved on to the freshly
allocated page. -/
def insertTupleLoop : Nat → TableHeapState → Nat → Nat → TablePage → TupleMeta → Tuple →
    HeapInsertResult
  | 0, _, _, _, _, _, _ => .fail
  | fuel + 1, s, handle_pid, last_page_id, last_table_page, meta, tuple =>
      if (last_table_page.next_tuple_offset tuple).isSome then
        match last_table_page.insert_tuple meta tuple with
        | none => .fail
        | some (page2, slot_id) =>
            .ok { s with store := alSet s.store handle_pid page2 }
              { page_id := last_page_id, slot_num := slot_id }
      else if last_table_page.num_tuples ≠ 0 then
        let (next_page_id, s1) := heapAlloc s
        let s2 := { s1 with store := alSet s1.store next_page_id (TablePage.new INVALID_PAGE_ID) }
        let s3 := { s2 with store := alSet s2.store handle_pid { last_table_page with next_page_id := next_page_id } }
        let s4 := { s3 with last_page_id := next_page_id }
        insertTupleLoop fuel s4 handle_pid next_page_id (TablePage.new INVALID_PAGE_ID)
          meta tuple
      else .panic

/-- `TableHeap::insert_tuple`. -/
def TableHeap.insert_tuple (fuel : Nat) (s : TableHeapState) (meta : TupleMeta)
    (tuple : Tuple) : HeapInsertResult :=
  match alGet s.store s.last_page_id with
  | none => .fail
  | some last_table_page =>
      insertTupleLoop fuel s s.last_page_id s.last_page_id last_table_page meta tuple

/-- `TableHeap::full_tuple` / `TableHeap::tuple`. -/
def TableHeap.full_tuple (s : TableHeapState) (rid : RecordId) :
    Option (TupleMeta × Tuple) :=
  (alGet s.store rid.page_id).bind (fun tp => tp.tuple rid.slot_num)

def TableHeap.tuple (s : TableHeapState) (rid : RecordId) : Option Tuple :=
  (TableHeap.full_tuple s rid).map (·.2)

/-- `TableHeap::get_first_rid`: `some none` models `Ok(None)`. -/
def TableHeap.get_first_rid (s : TableHeapState) : Option (Option RecordId) :=
  match alGet s.store s.first_page_id with
  | none => none
  | some tp =>
      if tp.num_tuples = 0 then some none
      else some (some { page_id := s.first_page_id, slot_num := 0 })

/-- `TableHeap::get_next_rid`: in-page successor, else follow
`next_page_id` once: `None` if it is invalid or the next page has no
tuples (the source's TODO: it does not keep walking). -/
def TableHeap.get_next_rid (s : TableHeapState) (rid : RecordId) :
    Option (Option RecordId) :=
  match alGet s.store rid.page_id with
  | none => none
  | some table_page =>
      match table_page.get_next_rid rid with
      | some next_rid => some (some next_rid)
      | none =>
          if table_page.next_page_id = INVALID_PAGE_ID then some none
          else
            match alGet s.store table_page.next_page_id with
            | none => none
            | some next_table_page =>
                if next_table_page.num_tuples = 0 then some none
                else some (some { page_id := table_page.next_page_id, slot_num := 0 })

inductive RidBound where
  | included (r : RecordId)
  | excluded (r : RecordId)
  | unbounded
deriving DecidableEq, Repr

/-- The state of a `TableIterator`. -/
structure TableIterator where
  start_bound : RidBound
  end_bound : RidBound
  cursor : RecordId
  started : Bool
  ended : Bool
deriving DecidableEq, Repr

def INVALID_RID : RecordId := { page_id := 0, slot_num := 0 }

def TableIterator.new (start_bound end_bound : RidBound) : TableIterator :=
  { start_bound := start_bound, end_bound := end_bound, cursor := INVALID_RID,
    started := false, ended := false }

/-- `TableIterator::next`: the outer `none` models a propagated error. -/
def tableIterNext (s : TableHeapState) (it : TableIterator) :
    Option (TableIterator × Option (RecordId × Tuple)) :=
  if it.ended then some (it, none)
  else if it.started then
    match it.end_bound with
    | .included rid =>
        match TableHeap.get_next_rid s it.cursor with
        | none => none
        | some (some next_rid) =>
            let it2 := if next_rid = rid then { it with ended := true } else it
            let it3 := { it2 with cursor := next_rid }
            some (it3, (TableHeap.tuple s next_rid).map (fun t => (next_rid, t)))
        | some none => some (it, none)
    | .excluded rid =>
        match TableHeap.get_next_rid s it.cursor with
        | none => none
        | some (some next_rid) =>
            if next_rid = rid then some (it, none)
            else
              let it2 := { it with cursor := next_rid }
              some (it2, (TableHeap.tuple s next_rid).map (fun t => (next_rid, t)))
        | some none => some (it, none)
    | .unbounded =>
        match TableHeap.get_next_rid s it.cursor with
        | none => none
        | some (some next_rid) =>
            let it2 := { it with cursor := next_rid }
            some (it2, (TableHeap.tuple s next_rid).map (fun t => (next_rid, t)))
        | some none => some (it, none)
  else
    let it1 := { it with started := true }
    match it1.start_bound with
    | .included rid =>
        let it2 := { it1 with cursor := rid }
        some (it2, (TableHeap.tuple s rid).map (fun t => (rid, t)))
    | .excluded rid =>
        match TableHeap.get_next_rid s rid with
        | none => none
        | some (some next_rid) =>
            let it2 := { it1 with cursor := next_rid }
            some (it2, (TableHeap.tuple s next_rid).map (fun t => (next_rid, t)))
        | some none => some ({ it1 with ended := true }, none)
    | .unbounded =>
        match TableHeap.get_first_rid s with
        | none => none
        | some (some first_rid) =>
            let it2 := { it1 with cursor := first_rid }
            some (it2, (TableHeap.tuple s first_rid).map (fun t => (first_rid, t)))
        | some none => some ({ it1 with ended := true }, none)

/-! ### Claim C7: insert_tuple

The fatal-panic half of the claim holds, but the success half does not:
after the loop allocates and chains a new page, the source never
re-fetches `last_page`, so the final `last_page.write().set_data(...)`
writes the filled new page's image into the frame of the OLD last page.
The returned RecordId names the new page, which stays empty: reading the
returned rid fails, the old page's tuples are lost and its
`next_page_id` is reset.  The concrete run below exhibits this. -/

def c7BigTuple : Tuple := List.replicate 508 0

def c7S : TableHeapState :=
  { store := [(1, { next_page_id := 0, tuples := [(EMPTY_TUPLE_META, c7BigTuple)] })],
    next_alloc := 2, first_page_id := 1, last_page_id := 1 }

def c7S2 : TableHeapState :=
  { store := [(1, { next_page_id := 0, tuples := [(EMPTY_TUPLE_META, [5])] }),
      (2, TablePage.new INVALID_PAGE_ID)],
    next_alloc := 3, first_page_id := 1, last_page_id := 2 }

set_option maxRecDepth 40000 in
/-- Claim C7, evaluated at the failing input: page 1 is exactly full, the
small tuple `[5]` fits an empty page (first conjunct) while an oversized
tuple does not and makes `insert_tuple` panic as claimed (second and
third conjuncts).  But inserting the fitting tuple returns rid `(2, 0)`
while page 2 stays empty — reading the returned rid yields nothing, the
full page's former tuple is gone and its chain pointer is reset
(remaining conjuncts): the code does not append the tuple at the slot the
returned RecordId names. -/
theorem claimC7 :
    ((TablePage.new INVALID_PAGE_ID).next_tuple_offset [5]).isSome = true ∧
    ((TablePage.new INVALID_PAGE_ID).next_tuple_offset (List.replicate 1000 0)).isSome
      = false ∧
    TableHeap.insert_tuple 10 c7S EMPTY_TUPLE_META (List.replicate 1000 0) = .panic ∧
    TableHeap.insert_tuple 10 c7S EMPTY_TUPLE_META [5] =
      .ok c7S2 { page_id := 2, slot_num := 0 } ∧
    alGet c7S2.store 2 = some (TablePage.new INVALID_PAGE_ID) ∧
    TableHeap.tuple c7S2 { page_id := 2, slot_num := 0 } = none ∧
    (alGet c7S2.store 1).map (fun tp => tp.next_page_id) = some INVALID_PAGE_ID := by
  decide

/-! ### Claim C8: get_next_rid at a page boundary -/

/-- Claim C8: for a rid whose page has no slot `slot_num + 1`,
`get_next_rid` returns `None` when the page's `next_page_id` is invalid;
otherwise it returns `(next_page_id, 0)` if that next page has at least
one tuple and `None` (without walking further) if it has none. -/
theorem claimC8 (s : TableHeapState) (rid : RecordId) (tp : TablePage)
    (hget : alGet s.store rid.page_id = some tp)
    (hnoslot : ¬(rid.slot_num + 1 < tp.num_tuples)) :
    (tp.next_page_id = INVALID_PAGE_ID → TableHeap.get_next_rid s rid = some none) ∧
    (∀ ntp, tp.next_page_id ≠ INVALID_PAGE_ID →
      alGet s.store tp.next_page_id = some ntp →
      (0 < ntp.num_tuples →
        TableHeap.get_next_rid s rid =
          some (some { page_id := tp.next_page_id, slot_num := 0 })) ∧
      (ntp.num_tuples = 0 → TableHeap.get_next_rid s rid = some none)) := by
  unfold TableHeap.get_next_rid
  simp only [hget]
  have hnr : tp.get_next_rid rid = none := by
    unfold TablePage.get_next_rid
    rw [if_neg hnoslot]
  simp only [hnr]
  constructor
  · intro h0
    rw [if_pos h0]
  · intro ntp hne hnext
    rw [if_neg hne]
    simp only [hnext]
    constructor
    · intro hpos
      rw [if_neg (by omega)]
    · intro hzero
      rw [if_pos hzero]

def c8wS : TableHeapState :=
  { store := [(1, { next_page_id := 2, tuples := [(EMPTY_TUPLE_META, [7, 7])] }),
      (2, { next_page_id := 3, tuples := [] }),
      (3, { next_page_id := 0, tuples := [(EMPTY_TUPLE_META, [9, 9])] })],
    next_alloc := 4, first_page_id := 1, last_page_id := 3 }

def c8wTP : TablePage := { next_page_id := 2, tuples := [(EMPTY_TUPLE_META, [7, 7])] }

/-- Witness for C8: page 1's only slot is 0, its successor page 2 is
empty (page 3 beyond it is not consulted). -/
theorem claimC8_witness :
    (c8wTP.next_page_id = INVALID_PAGE_ID →
      TableHeap.get_next_rid c8wS { page_id := 1, slot_num := 0 } = some none) ∧
    (∀ ntp, c8wTP.next_page_id ≠ INVALID_PAGE_ID →
      alGet c8wS.store c8wTP.next_page_id = some ntp →
      (0 < ntp.num_tuples →
        TableHeap.get_next_rid c8wS { page_id := 1, slot_num := 0 } =
          some (some { page_id := c8wTP.next_page_id, slot_num := 0 })) ∧
      (ntp.num_tuples = 0 →
        TableHeap.get_next_rid c8wS { page_id := 1, slot_num := 0 } = some none)) :=
  claimC8 c8wS { page_id := 1, slot_num := 0 } c8wTP (by decide) (by decide)

/-! ### Claim C10: the table iterator's first call with an Included
start bound -/

/-- Claim C10: on its first call, a not-ended `TableIterator` with start
bound `Included(rid)` sets the cursor to `rid` and yields the tuple
stored at `rid`, with no reference to the end bound whatsoever (the
result is the same for every end bound, in particular for
`Excluded(rid)` itself). -/
theorem claimC10 (s : TableHeapState) (it : TableIterator) (rid : RecordId)
    (hstarted : it.started = false) (hended : it.ended = false)
    (hstart : it.start_bound = .included rid) :
    tableIterNext s it =
      some ({ it with started := true, cursor := rid },
        (TableHeap.tuple s rid).map (fun t => (rid, t))) := by
  unfold tableIterNext
  rw [hended, hstarted]
  simp only [Bool.false_eq_true, if_false, hstart]

def c10wS : TableHeapState :=
  { store := [(1, { next_page_id := 0, tuples := [(EMPTY_TUPLE_META, [7, 7])] })],
    next_alloc := 2, first_page_id := 1, last_page_id := 1 }

def c10wIt : TableIterator :=
  TableIterator.new (.included { page_id := 1, slot_num := 0 })
    (.excluded { page_id := 1, slot_num := 0 })

/-- Witness for C10 at a range whose Excluded end equals its Included
start: the record there is still yielded by the first call. -/
theorem claimC10_witness :
    tableIterNext c10wS c10wIt =
      some ({ c10wIt with started := true, cursor := { page_id := 1, slot_num := 0 } },
        (TableHeap.tuple c10wS { page_id := 1, slot_num := 0 }).map
          (fun t => ({ page_id := 1, slot_num := 0 }, t))) :=
  claimC10 c10wS c10wIt { page_id := 1, slot_num := 0 } (by decide) (by decide) (by decide)

/-! ### The lexicographic tuple order -/

theorem tupleLt_irrefl (a : Tuple) : tupleLt a a = false := by
  induction a with
  | nil => rfl
  | cons x xs ih => simp [tupleLt, ih]

theorem tupleLt_trans {a b c : Tuple} (h1 : tupleLt a b = true) (h2 : tupleLt b c = true) :
    tupleLt a c = true := by
  induction a generalizing b c with
  | nil =>
      cases b with
      | nil => simp [tupleLt] at h1
      | cons y ys =>
          cases c with
          | nil => simp [tupleLt] at h2
          | cons z zs => simp [tupleLt]
  | cons x xs ih =>
      cases b with
      | nil => simp [tupleLt] at h1
      | cons y ys =>
          cases c with
          | nil => simp [tupleLt] at h2
          | cons z zs =>
              simp only [tupleLt] at h1 h2 ⊢
              by_cases hxy : x < y
              · by_cases hyz : y < z
                · simp [lt_trans hxy hyz]
                · by_cases hzy : z < y
                  · simp [hyz, hzy] at h2
                  · have heq : y = z := le_antisymm (not_lt.mp hzy) (not_lt.mp hyz)
                    subst heq
                    simp [hxy]
              · by_cases hyx : y < x
                · simp [hxy, hyx] at h1
                · have heq : x = y := le_antisymm (not_lt.mp hyx) (not_lt.mp hxy)
                  subst heq
                  simp only [lt_irrefl, if_false] at h1 h2 ⊢
                  by_cases hxz : x < z
                  · simp [hxz]
                  · by_cases hzx : z < x
                    · simp [hxz, hzx] at h2
                    · simp only [hxz, hzx, if_false] at h2 ⊢
                      exact ih h1 h2

theorem tupleLe_refl (a : Tuple) : tupleLe a a = true := by
  simp [tupleLe, tupleLt_irrefl]

theorem tupleLt_asymm {a b : Tuple} (h : tupleLt a b = true) : tupleLt b a = false := by
  cases hba : tupleLt b a
  · rfl
  · have h2 := tupleLt_trans h hba
    rw [tupleLt_irrefl] at h2
    exact nomatch h2

theorem tupleLt_total {a b : Tuple} (h1 : tupleLt a b = false) (h2 : tupleLt b a = false) :
    a = b := by
  induction a generalizing b with
  | nil =>
      cases b with
      | nil => rfl
      | cons y ys => simp [tupleLt] at h1
  | cons x xs ih =>
      cases b with
      | nil => simp [tupleLt] at h2
      | cons y ys =>
          simp only [tupleLt] at h1 h2
          rcases lt_trichotomy x y with hxy | hxy | hxy
          · simp [hxy] at h1
          · subst hxy
            simp only [lt_irrefl, if_false] at h1 h2
            rw [ih h1 h2]
          · simp [hxy, not_lt.mpr (le_of_lt hxy)] at h2

theorem tupleLe_of_lt {a b : Tuple} (h : tupleLt a b = true) : tupleLe a b = true := by
  simp [tupleLe, tupleLt_asymm h]

theorem tupleLt_of_not_le {a b : Tuple} (h : tupleLe a b = false) : tupleLt b a = true := by
  simpa [tupleLe] using h

theorem tupleLe_iff_not_lt {a b : Tuple} : tupleLe a b = true ↔ tupleLt b a = false := by
  simp [tupleLe]

theorem tupleLe_trans {a b c : Tuple} (h1 : tupleLe a b = true) (h2 : tupleLe b c = true) :
    tupleLe a c = true := by
  rw [tupleLe_iff_not_lt] at h1 h2 ⊢
  cases hca : tupleLt c a
  · rfl
  · exfalso
    cases hbc : tupleLt b c
    · have hbceq := tupleLt_total hbc h2
      subst hbceq
      rw [h1] at hca
      exact nomatch hca
    · have hba := tupleLt_trans hbc hca
      rw [h1] at hba
      exact nomatch hba

theorem tupleLt_le_trans {a b c : Tuple} (h1 : tupleLt a b = true) (h2 : tupleLe b c = true) :
    tupleLt a c = true := by
  rcases Bool.eq_false_or_eq_true (tupleLt b c) with h' | h'
  · exact tupleLt_trans h1 h'
  · have := tupleLt_total h' (tupleLe_iff_not_lt.mp h2)
    subst this
    exact h1

theorem tupleLe_lt_trans {a b c : Tuple} (h1 : tupleLe a b = true) (h2 : tupleLt b c = true) :
    tupleLt a c = true := by
  rcases Bool.eq_false_or_eq_true (tupleLt a b) with h' | h'
  · exact tupleLt_trans h' h2
  · have := tupleLt_total h' (tupleLe_iff_not_lt.mp h1)
    subst this
    exact h2


/-! ### Key membership helpers for the round-trip claim

The delete half of the lookup/insert round-trip is proved through a
store-wide invariant: once no leaf page anywhere in the store holds an
entry with the deleted key, `get` must answer `None` no matter which
leaf the descent reaches.  The predicates below express that invariant
and the lemmas show it is preserved by every write the rebalancing loop
performs, because every page the loop writes is assembled from entries
already present in the store. -/

def leafNoKey (lp : BPlusTreeLeafPage) (k : Tuple) : Bool :=
  lp.array.all (fun e => !(decide (e.1 = k)))

def pageNoKey (pg : BPlusTreePage) (k : Tuple) : Bool :=
  match pg with
  | .leaf lp => leafNoKey lp k
  | .internal _ => true

def storeNoKey (store : PageStore) (k : Tuple) : Bool :=
  store.all (fun e => pageNoKey e.2 k)

def kvCount {β : Type} (k : Tuple) (l : List (Tuple × β)) : Nat :=
  l.countP (fun e => decide (e.1 = k))

theorem leafNoKey_iff {lp : BPlusTreeLeafPage} {k : Tuple} :
    leafNoKey lp k = true ↔ ∀ e ∈ lp.array, e.1 ≠ k := by
  simp [leafNoKey]

theorem mem_storeSet {l : PageStore} {pid : Nat} {pg : BPlusTreePage} {e : Nat × BPlusTreePage}
    (h : e ∈ storeSet l pid pg) : e = (pid, pg) ∨ e ∈ l := by
  induction l with
  | nil => simpa [storeSet] using h
  | cons x xs ih =>
      simp only [storeSet] at h
      by_cases hx : x.1 = pid
      · simp only [hx, if_true] at h
        rcases List.mem_cons.mp h with h | h
        · exact Or.inl h
        · exact Or.inr (List.mem_cons_of_mem _ h)
      · simp only [hx, if_false] at h
        rcases List.mem_cons.mp h with h | h
        · exact Or.inr (List.mem_cons.mpr (Or.inl h))
        · rcases ih h with h2 | h2
          · exact Or.inl h2
          · exact Or.inr (List.mem_cons_of_mem _ h2)

theorem mem_storeDel {l : PageStore} {pid : Nat} {e : Nat × BPlusTreePage}
    (h : e ∈ storeDel l pid) : e ∈ l := by
  induction l with
  | nil => simpa [storeDel] using h
  | cons x xs ih =>
      simp only [storeDel] at h
      by_cases hx : x.1 = pid
      · simp only [hx, if_true] at h
        exact List.mem_cons_of_mem _ h
      · simp only [hx, if_false] at h
        rcases List.mem_cons.mp h with h | h
        · exact List.mem_cons.mpr (Or.inl h)
        · exact List.mem_cons_of_mem _ (ih h)

theorem storeNoKey_get {store : PageStore} {k : Tuple} {pid : Nat} {pg : BPlusTreePage}
    (hnk : storeNoKey store k = true) (hget : storeGet store pid = some pg) :
    pageNoKey pg k = true := by
  unfold storeGet at hget
  match hfind : store.find? (fun e => decide (e.1 = pid)) with
  | none => rw [hfind] at hget; exact (nomatch hget)
  | some e =>
      rw [hfind] at hget
      injection hget with hpg
      have hmem := List.mem_of_find?_eq_some hfind
      have := (List.all_eq_true.mp hnk) e hmem
      exact hpg ▸ this

theorem storeNoKey_set {store : PageStore} {k : Tuple} {pid : Nat} {pg : BPlusTreePage}
    (hnk : storeNoKey store k = true) (hpg : pageNoKey pg k = true) :
    storeNoKey (storeSet store pid pg) k = true := by
  refine List.all_eq_true.mpr ?_
  intro e he
  rcases mem_storeSet he with h | h
  · rw [h]; exact hpg
  · exact (List.all_eq_true.mp hnk) e h

theorem storeNoKey_del {store : PageStore} {k : Tuple} {pid : Nat}
    (hnk : storeNoKey store k = true) :
    storeNoKey (storeDel store pid) k = true := by
  refine List.all_eq_true.mpr ?_
  intro e he
  exact (List.all_eq_true.mp hnk) e (mem_storeDel he)

theorem storeNoKey_bufferDelete {store : PageStore} {k : Tuple} {pid : Nat} {pins : List Nat}
    (hnk : storeNoKey store k = true) :
    storeNoKey (bufferDeletePage store pid pins) k = true := by
  unfold bufferDeletePage
  by_cases h : pid ∈ pins
  · simpa [h] using hnk
  · simpa [h] using storeNoKey_del hnk

theorem mem_kvInsert {β : Type} {kv e : Tuple × β} {l : List (Tuple × β)}
    (h : e ∈ kvInsert kv l) : e = kv ∨ e ∈ l := by
  induction l with
  | nil => simpa [kvInsert] using h
  | cons x xs ih =>
      simp only [kvInsert] at h
      by_cases hx : tupleLt kv.1 x.1
      · simp only [hx, if_true] at h
        rcases List.mem_cons.mp h with h | h
        · exact Or.inl h
        · exact Or.inr h
      · simp only [hx, if_false] at h
        rcases List.mem_cons.mp h with h | h
        · exact Or.inr (List.mem_cons.mpr (Or.inl h))
        · rcases ih h with h2 | h2
          · exact Or.inl h2
          · exact Or.inr (List.mem_cons_of_mem _ h2)

theorem mem_foldl_kvInsert {β : Type} {e : Tuple × β} {l acc : List (Tuple × β)}
    (h : e ∈ l.foldl (fun a kv => kvInsert kv a) acc) : e ∈ acc ∨ e ∈ l := by
  induction l generalizing acc with
  | nil => exact Or.inl (by simpa using h)
  | cons x xs ih =>
      simp only [List.foldl_cons] at h
      rcases ih h with h2 | h2
      · rcases mem_kvInsert h2 with h3 | h3
        · exact Or.inr (h3 ▸ List.mem_cons_self x xs)
        · exact Or.inl h3
      · exact Or.inr (List.mem_cons_of_mem _ h2)

theorem mem_kvDeleteFirst {β : Type} {k : Tuple} {e : Tuple × β} {l : List (Tuple × β)}
    (h : e ∈ kvDeleteFirst k l) : e ∈ l := by
  induction l with
  | nil => simpa [kvDeleteFirst] using h
  | cons x xs ih =>
      simp only [kvDeleteFirst] at h
      by_cases hx : x.1 = k
      · simp only [hx, if_true] at h
        exact List.mem_cons_of_mem _ h
      · simp only [hx, if_false] at h
        rcases List.mem_cons.mp h with h | h
        · exact List.mem_cons.mpr (Or.inl h)
        · exact List.mem_cons_of_mem _ (ih h)

theorem kvDeleteFirst_noKey {β : Type} {k : Tuple} {l : List (Tuple × β)}
    (h : kvCount k l ≤ 1) : ∀ e ∈ kvDeleteFirst k l, e.1 ≠ k := by
  induction l with
  | nil => intro e he; simp [kvDeleteFirst] at he
  | cons x xs ih =>
      intro e he
      simp only [kvDeleteFirst] at he
      by_cases hx : x.1 = k
      · simp only [hx, if_true] at he
        have hcons : kvCount k (x :: xs) = kvCount k xs + 1 := by
          simp [kvCount, List.countP_cons, hx]
        have hc : kvCount k xs = 0 := by omega
        have := List.countP_eq_zero.mp hc e he
        simpa using this
      · simp only [hx, if_false] at he
        rcases List.mem_cons.mp he with he | he
        · exact he ▸ hx
        · refine ih ?_ e he
          have hcons : kvCount k (x :: xs) = kvCount k xs := by
            simp [kvCount, List.countP_cons, hx]
          omega


theorem mem_of_head? {α : Type} {l : List α} {a : α} (h : l.head? = some a) : a ∈ l := by
  cases l with
  | nil => exact (nomatch h)
  | cons x xs =>
      injection h with h2
      exact h2 ▸ List.mem_cons_self x xs

theorem pageNoKey_leaf_of {k : Tuple} {lp : BPlusTreeLeafPage}
    (h : ∀ e ∈ lp.array, e.1 ≠ k) : pageNoKey (.leaf lp) k = true := by
  simp only [pageNoKey, leafNoKey, List.all_eq_true]
  intro e he
  simpa using h e he

theorem pageNoKey_internal (k : Tuple) (ip : BPlusTreeInternalPage) :
    pageNoKey (.internal ip) k = true := rfl

theorem storeSet_all {P : Nat × BPlusTreePage → Prop} {l : PageStore} {pid : Nat}
    {pg : BPlusTreePage} (hnd : (l.map Prod.fst).Nodup)
    (hold : ∀ e ∈ l, e.1 ≠ pid → P e) (hnew : P (pid, pg)) :
    ∀ e ∈ storeSet l pid pg, P e := by
  induction l with
  | nil =>
      intro e he
      simp only [storeSet, List.mem_singleton] at he
      exact he ▸ hnew
  | cons x xs ih =>
      intro e he
      simp only [storeSet] at he
      by_cases hx : x.1 = pid
      · simp only [hx, if_true] at he
        rcases List.mem_cons.mp he with he | he
        · exact he ▸ hnew
        · have hne : e.1 ≠ pid := by
            intro hep
            have hmem : pid ∈ xs.map Prod.fst := hep ▸ List.mem_map_of_mem _ he
            have hx2 : x.1 ∉ xs.map Prod.fst :=
              (List.nodup_cons.mp (by simpa using hnd)).1
            exact hx2 (hx ▸ hmem)
          exact hold e (List.mem_cons_of_mem _ he) hne
      · simp only [hx, if_false] at he
        rcases List.mem_cons.mp he with he | he
        · exact he ▸ hold x (List.mem_cons_self x xs) hx
        · exact ih ((List.nodup_cons.mp (by simpa using hnd)).2)
            (fun e2 he2 hne2 => hold e2 (List.mem_cons_of_mem _ he2) hne2) e he

theorem borrowFinish_noKey {k : Tuple} {s : TreeState} {pp pid bid : Nat}
    {page bp : BPlusTreePage} {ok nk : Tuple} {s1 : TreeState} {bb : Bool}
    (hnk : storeNoKey s.store k = true) (hpage : pageNoKey page k = true)
    (hbp : pageNoKey bp k = true)
    (h : borrowFinish s pp pid bid page bp ok nk = some (s1, bb)) :
    storeNoKey s1.store k = true := by
  unfold borrowFinish at h
  dsimp only [] at h
  split at h
  case h_1 pip heq =>
    injection h with h2
    have h3 : _ = s1 := congrArg Prod.fst h2
    rw [← h3]
    exact storeNoKey_set (storeNoKey_set (storeNoKey_set hnk hpage) hbp)
      (pageNoKey_internal k _)
  case h_2 => exact (nomatch h)

theorem mergeFinish_noKey {k : Tuple} {s : TreeState} {pp lid rid : Nat}
    {nl : BPlusTreePage} {pins : List Nat} {s1 : TreeState} {np : Nat}
    (hnk : storeNoKey s.store k = true) (hnl : pageNoKey nl k = true)
    (h : mergeFinish s pp lid rid nl pins = some (s1, np)) :
    storeNoKey s1.store k = true := by
  unfold mergeFinish at h
  dsimp only [] at h
  split at h
  case h_1 pip heq =>
    split at h
    · injection h with h2
      have h3 : _ = s1 := congrArg Prod.fst h2
      rw [← h3]
      exact storeNoKey_bufferDelete (storeNoKey_bufferDelete (storeNoKey_set hnk hnl))
    · injection h with h2
      have h3 : _ = s1 := congrArg Prod.fst h2
      rw [← h3]
      exact storeNoKey_set (storeNoKey_bufferDelete (storeNoKey_set hnk hnl))
        (pageNoKey_internal k _)
  case h_2 => exact (nomatch h)


theorem pageNoKey_leaf_elim {k : Tuple} {lp : BPlusTreeLeafPage}
    (h : pageNoKey (.leaf lp) k = true) : ∀ e ∈ lp.array, e.1 ≠ k := by
  simp only [pageNoKey, leafNoKey, List.all_eq_true] at h
  intro e he
  simpa using h e he

theorem borrow_noKey {k : Tuple} {fuel : Nat} {s : TreeState} {pp pid bid : Nat} {mm : Bool}
    {s1 : TreeState} {bb : Bool} (hnk : storeNoKey s.store k = true)
    (h : borrow fuel s pp pid bid mm = some (s1, bb)) : storeNoKey s1.store k = true := by
  unfold borrow at h
  split at h
  · exact (nomatch h)
  · rename_i btp hbtp
    split at h
    · injection h with h2
      injection h2 with h3 h4
      exact h3 ▸ hnk
    · split at h
      · exact (nomatch h)
      · rename_i tp htp
        dsimp only [BPlusTreeLeafPage.reverse_split_off, BPlusTreeLeafPage.split_off,
          BPlusTreeInternalPage.reverse_split_off, BPlusTreeInternalPage.split_off] at h
        split at h
        · rename_i bip ipg
          split at h
          · split at h
            · exact (nomatch h)
            · rename_i kv hkv
              split at h
              · exact (nomatch h)
              · rename_i v0 hv0
                split at h
                · exact (nomatch h)
                · rename_i mlk hmlk
                  exact borrowFinish_noKey hnk (pageNoKey_internal k _)
                    (pageNoKey_internal k _) h
          · split at h
            · exact (nomatch h)
            · rename_i kv hkv
              split at h
              · exact (nomatch h)
              · rename_i mk2 hmk2
                split at h
                · exact (nomatch h)
                · rename_i v0 hv0
                  split at h
                  · exact (nomatch h)
                  · rename_i mlk hmlk
                    exact borrowFinish_noKey hnk (pageNoKey_internal k _)
                      (pageNoKey_internal k _) h
        · rename_i blp lpg hcb2
          have hbno : ∀ e ∈ blp.array, e.1 ≠ k :=
            pageNoKey_leaf_elim (storeNoKey_get hnk hbtp)
          have hlno : ∀ e ∈ lpg.array, e.1 ≠ k :=
            pageNoKey_leaf_elim (storeNoKey_get hnk htp)
          split at h
          · split at h
            · exact (nomatch h)
            · rename_i kv hkv
              split at h
              · exact (nomatch h)
              · rename_i nk2 hnk2
                have hkv1 : kv.1 ≠ k :=
                  hbno kv (List.take_subset _ _ (mem_of_head? hkv))
                refine borrowFinish_noKey hnk ?_ ?_ h
                · refine pageNoKey_leaf_of ?_
                  intro e he
                  rcases mem_kvInsert he with he2 | he2
                  · exact he2 ▸ hkv1
                  · exact hlno e he2
                · exact pageNoKey_leaf_of (fun e he => hbno e (List.drop_subset _ _ he))
          · split at h
            · exact (nomatch h)
            · rename_i kv hkv
              split at h
              · rename_i ok2 nk2 hok2
                have hkv1 : kv.1 ≠ k :=
                  hbno kv (List.drop_subset _ _ (mem_of_head? hkv))
                refine borrowFinish_noKey hnk ?_ ?_ h
                · refine pageNoKey_leaf_of ?_
                  intro e he
                  rcases mem_kvInsert he with he2 | he2
                  · exact he2 ▸ hkv1
                  · exact hlno e he2
                · exact pageNoKey_leaf_of (fun e he => hbno e (List.take_subset _ _ he))
              · exact (nomatch h)
        all_goals exact (nomatch h)

theorem merge_noKey {k : Tuple} {fuel : Nat} {s : TreeState} {pp lid rid : Nat}
    {pins : List Nat} {s1 : TreeState} {np : Nat} (hnk : storeNoKey s.store k = true)
    (h : merge fuel s pp lid rid pins = some (s1, np)) : storeNoKey s1.store k = true := by
  unfold merge at h
  split at h
  · rename_i ltp rtp hltp hrtp
    split at h
    · rename_i lip rip
      split at h
      · exact (nomatch h)
      · rename_i v0 hv0
        split at h
        · exact (nomatch h)
        · rename_i mlk hmlk
          exact mergeFinish_noKey hnk (pageNoKey_internal k _) h
    · rename_i llp rlp
      have hlno : ∀ e ∈ llp.array, e.1 ≠ k :=
        pageNoKey_leaf_elim (storeNoKey_get hnk hltp)
      have hrno : ∀ e ∈ rlp.array, e.1 ≠ k :=
        pageNoKey_leaf_elim (storeNoKey_get hnk hrtp)
      refine mergeFinish_noKey hnk ?_ h
      refine pageNoKey_leaf_of ?_
      intro e he
      simp only [BPlusTreeLeafPage.batch_insert] at he
      rcases mem_foldl_kvInsert he with he2 | he2
      · exact hlno e he2
      · exact hrno e he2
    all_goals exact (nomatch h)
  all_goals exact (nomatch h)


theorem deleteLoop_noKey {k : Tuple} : ∀ (fuel : Nat) (s : TreeState) (cp : Nat)
    (ctp : BPlusTreePage) (rs pins : List Nat) (s1 : TreeState),
    storeNoKey s.store k = true → deleteLoop fuel s cp ctp rs pins = some s1 →
    storeNoKey s1.store k = true := by
  intro fuel
  induction fuel with
  | zero => intro s cp ctp rs pins s1 hnk h; exact (nomatch h)
  | succ n ih =>
      intro s cp ctp rs pins s1 hnk h
      simp only [deleteLoop] at h
      split at h
      · split at h
        · exact (nomatch h)
        · rename_i parent hparent
          split at h
          · exact (nomatch h)
          · rename_i ls rsib hsib
            split at h
            · exact (nomatch h)
            · rename_i sx hbx
              injection h with h2
              have hsx : storeNoKey sx.store k = true := by
                split at hbx
                · rename_i l
                  exact borrow_noKey hnk hbx
                · injection hbx with h3
                  injection h3 with h4 h5
                  exact h4 ▸ hnk
              exact h2 ▸ hsx
            · rename_i sx hbx
              have hsx : storeNoKey sx.store k = true := by
                split at hbx
                · rename_i l
                  exact borrow_noKey hnk hbx
                · injection hbx with h3
                  injection h3 with h4 h5
                  exact h4 ▸ hnk
              split at h
              · exact (nomatch h)
              · rename_i sy hby
                injection h with h2
                have hsy : storeNoKey sy.store k = true := by
                  split at hby
                  · rename_i r
                    exact borrow_noKey hsx hby
                  · injection hby with h3
                    injection h3 with h4 h5
                    exact h4 ▸ hsx
                exact h2 ▸ hsy
              · rename_i sy hby
                have hsy : storeNoKey sy.store k = true := by
                  split at hby
                  · rename_i r
                    exact borrow_noKey hsx hby
                  · injection hby with h3
                    injection h3 with h4 h5
                    exact h4 ▸ hsx
                split at h
                · exact (nomatch h)
                · rename_i s3 npp hmg
                  have hs3 : storeNoKey s3.store k = true := by
                    split at hmg
                    · rename_i l osib
                      exact merge_noKey hsy hmg
                    · rename_i r
                      exact merge_noKey hsy hmg
                    · exact (nomatch hmg)
                  split at h
                  · exact (nomatch h)
                  · rename_i npg hnpg
                    exact ih s3 npp npg rs.dropLast pins s1 hs3 h
      · injection h with h2
        exact h2 ▸ hnk

theorem leafNoKey_look_up {k : Tuple} {lp : BPlusTreeLeafPage}
    (h : ∀ e ∈ lp.array, e.1 ≠ k) : lp.look_up k = none := by
  unfold BPlusTreeLeafPage.look_up
  have h2 : lp.array.find? (fun e => decide (e.1 = k)) = none :=
    List.find?_eq_none.mpr (fun e he => by simpa using h e he)
  rw [h2]
  rfl

theorem get_none_of_noKey {k : Tuple} {f : Nat} {s : TreeState} {res : Option RecordId}
    (hnk : storeNoKey s.store k = true) (h : get f s k = some res) : res = none := by
  unfold get at h
  split at h
  · injection h with h2
    exact h2.symm
  · split at h
    · exact (nomatch h)
    · injection h with h2
      exact h2.symm
    · rename_i lpid rs2
      split at h
      · rename_i ltp hltp
        injection h with h2
        rw [← h2]
        exact leafNoKey_look_up (pageNoKey_leaf_elim (storeNoKey_get hnk hltp))
      · exact (nomatch h)

theorem delete_then_get_none {k : Tuple} {fuel g : Nat} {s0 : TreeState} {L : Nat}
    {rs : List Nat} {lp : BPlusTreeLeafPage} {s1 : TreeState} {res : Option RecordId}
    (hnd : (s0.store.map Prod.fst).Nodup)
    (hfl : find_leaf_page fuel s0 k = some (some (L, rs)))
    (hlp : storeGet s0.store L = some (.leaf lp))
    (hcnt : kvCount k lp.array ≤ 1)
    (hoth : ∀ e ∈ s0.store, e.1 ≠ L → pageNoKey e.2 k = true)
    (hdel : delete fuel s0 k = some s1)
    (hget : get g s1 k = some res) : res = none := by
  unfold delete at hdel
  split at hdel
  · rename_i hemp
    injection hdel with h2
    subst h2
    unfold get at hget
    rw [if_pos hemp] at hget
    injection hget with h3
    exact h3.symm
  · simp only [hfl, hlp] at hdel
    have hn1 : storeNoKey (storeSet s0.store L
        (.leaf (lp.delete k))) k = true := by
      refine List.all_eq_true.mpr ?_
      refine storeSet_all hnd (fun e he hne => hoth e he hne) ?_
      exact pageNoKey_leaf_of (kvDeleteFirst_noKey hcnt)
    have hn2 := deleteLoop_noKey fuel _ L (.leaf (lp.delete k)) rs [L] s1 hn1 hdel
    exact get_none_of_noKey hn2 hget


/-! ### The duplicate-key counterexample for the round-trip claim

Inserting the same key twice is accepted by `insert` (the ordered insert
is stable, placing the new entry after existing equal keys) while
`BPlusTreeLeafPage::look_up` returns the leftmost equal entry, so after
`insert(k, r1); insert(k, r2)` a `get(k)` answers `Some(r1)`, not
`Some(r2)`; and `delete(k)` removes only the first of the two entries,
so the subsequent `get(k)` answers `Some(r2)`, not `None`. -/

def c1xIdx : BPlusTreeIndex := { internal_max_size := 4, leaf_max_size := 4 }

def c1xS0 : TreeState := { store := [], next_page := 1, root_page_id := 0 }

def c1xK : Tuple := [7]

def c1xR1 : RecordId := { page_id := 100, slot_num := 0 }

def c1xR2 : RecordId := { page_id := 200, slot_num := 1 }

def c1xS1 : TreeState :=
  { store := [(1, mkLeaf 0 [(c1xK, c1xR1)])], next_page := 2, root_page_id := 1 }

def c1xS2 : TreeState :=
  { store := [(1, mkLeaf 0 [(c1xK, c1xR1), (c1xK, c1xR2)])], next_page := 2,
    root_page_id := 1 }

def c1xS3 : TreeState :=
  { store := [(1, mkLeaf 0 [(c1xK, c1xR2)])], next_page := 2, root_page_id := 1 }

/-- C1, counterexample: with a duplicate key both halves of the claim
fail.  `insert(k, r1)` then `insert(k, r2)` succeed, but `get(k)`
returns `Some(r1)` rather than `Some(r2)` (the leftmost equal entry
wins); and after a successful `delete(k)`, `get(k)` returns `Some(r2)`
rather than `None` (only the first equal entry was removed). -/
theorem claimC1_counterexample :
    insert 9 c1xIdx c1xS0 c1xK c1xR1 = some c1xS1 ∧
    insert 9 c1xIdx c1xS1 c1xK c1xR2 = some c1xS2 ∧
    get 9 c1xS2 c1xK = some (some c1xR1) ∧
    c1xR1 ≠ c1xR2 ∧
    delete 9 c1xS2 c1xK = some c1xS3 ∧
    get 9 c1xS3 c1xK = some (some c1xR2) := by
  decide


/-! ### Well-formedness of a tree rooted in the store

The insert half of the round-trip claim needs structural facts about the
tree: every page array is sorted, every internal entry bounds the keys
of its child subtree (the first entry key plays negative infinity and is
itself bounded by the inherited lower bound), children exist in the
store, and the pages of the tree are pairwise distinct so that writing
one page cannot corrupt another.  All predicates are fueled boolean
checks so that a witness can evaluate them on a concrete store. -/

def loLe (lo : Option Tuple) (t : Tuple) : Bool :=
  match lo with
  | none => true
  | some l => tupleLe l t

def loLt (lo : Option Tuple) (t : Tuple) : Bool :=
  match lo with
  | none => true
  | some l => tupleLt l t

def ltHi (t : Tuple) (hi : Option Tuple) : Bool :=
  match hi with
  | none => true
  | some h => tupleLt t h

def leafGood (lp : BPlusTreeLeafPage) (lo hi : Option Tuple) : Bool :=
  decide (1 ≤ lp.max_size) &&
  decide (List.Pairwise (fun a b : LeafKV => tupleLt a.1 b.1 = true) lp.array) &&
  lp.array.all (fun e => loLe lo e.1 && ltHi e.1 hi)

def e0Bound (lo : Option Tuple) (t : Tuple) : Bool :=
  match lo with
  | none => decide (t = ([] : Tuple))
  | some l => tupleLe t l

def goodKids (f : Nat → Option Tuple → Option Tuple → Bool) :
    Nat → List InternalKV → Option Tuple → Option Tuple → Bool
  | c, [], lo, hi => f c lo hi
  | c, e :: rest, lo, hi =>
      loLt lo e.1 && ltHi e.1 hi && f c lo (some e.1) && goodKids f e.2 rest (some e.1) hi

def goodPgF (f : Nat → Option Tuple → Option Tuple → Bool) :
    BPlusTreePage → Option Tuple → Option Tuple → Bool
  | .leaf lp, lo, hi => leafGood lp lo hi
  | .internal ip, lo, hi =>
      decide (1 ≤ ip.max_size) &&
      (match ip.array with
       | [] => false
       | e0 :: rest => e0Bound lo e0.1 && goodKids f e0.2 rest lo hi)

def goodAt : Nat → PageStore → Nat → Option Tuple → Option Tuple → Bool
  | 0, _, _, _, _ => false
  | fuel + 1, store, pid, lo, hi =>
      match storeGet store pid with
      | none => false
      | some pg => goodPgF (fun c lo2 hi2 => goodAt fuel store c lo2 hi2) pg lo hi

def goodPg (fuel : Nat) (store : PageStore) (pg : BPlusTreePage)
    (lo hi : Option Tuple) : Bool :=
  goodPgF (fun c lo2 hi2 => goodAt fuel store c lo2 hi2) pg lo hi

def kidsPids (f : Nat → Option (List Nat)) : List Nat → Option (List Nat)
  | [] => some []
  | c :: cs =>
      match f c, kidsPids f cs with
      | some l1, some l2 => some (c :: (l1 ++ l2))
      | _, _ => none

def pidsPgF (f : Nat → Option (List Nat)) : BPlusTreePage → Option (List Nat)
  | .leaf _ => some []
  | .internal ip => kidsPids f (ip.array.map (fun e => e.2))

def pidsAt : Nat → PageStore → Nat → Option (List Nat)
  | 0, _, _ => none
  | fuel + 1, store, pid =>
      match storeGet store pid with
      | none => none
      | some pg => pidsPgF (fun c => pidsAt fuel store c) pg

def pidsPg (fuel : Nat) (store : PageStore) (pg : BPlusTreePage) : Option (List Nat) :=
  pidsPgF (fun c => pidsAt fuel store c) pg

def routeAt : Nat → PageStore → Nat → Tuple → Option (Nat × BPlusTreeLeafPage)
  | 0, _, _, _ => none
  | fuel + 1, store, pid, k =>
      match storeGet store pid with
      | some (.leaf lp) => some (pid, lp)
      | some (.internal ip) => routeAt fuel store (ip.look_up k) k
      | none => none

def nextFresh (s : TreeState) : Bool :=
  s.store.all (fun e => e.1 < s.next_page)

def wfTree (F : Nat) (s : TreeState) : Bool :=
  nextFresh s &&
  (if s.root_page_id = INVALID_PAGE_ID then true
   else
     goodAt F s.store s.root_page_id none none &&
     (match pidsAt F s.store s.root_page_id with
      | none => false
      | some P => decide ((s.root_page_id :: P).Nodup)))


theorem loLe_of_loLt {lo : Option Tuple} {t : Tuple} (h : loLt lo t = true) :
    loLe lo t = true := by
  cases lo with
  | none => rfl
  | some l => exact tupleLe_of_lt h

theorem loLe_trans_le {lo : Option Tuple} {a b : Tuple} (h1 : loLe lo a = true)
    (h2 : tupleLe a b = true) : loLe lo b = true := by
  cases lo with
  | none => rfl
  | some l => exact tupleLe_trans h1 h2

theorem loLe_trans_lt {lo : Option Tuple} {a b : Tuple} (h1 : loLe lo a = true)
    (h2 : tupleLt a b = true) : loLe lo b = true :=
  loLe_trans_le h1 (tupleLe_of_lt h2)

theorem loLt_trans_le {lo : Option Tuple} {a b : Tuple} (h1 : loLt lo a = true)
    (h2 : tupleLe a b = true) : loLt lo b = true := by
  cases lo with
  | none => rfl
  | some l => exact tupleLt_le_trans h1 h2

theorem loLt_trans_lt {lo : Option Tuple} {a b : Tuple} (h1 : loLt lo a = true)
    (h2 : tupleLt a b = true) : loLt lo b = true :=
  loLt_trans_le h1 (tupleLe_of_lt h2)

theorem loLt_of_loLe_lt {lo : Option Tuple} {a b : Tuple} (h1 : loLe lo a = true)
    (h2 : tupleLt a b = true) : loLt lo b = true := by
  cases lo with
  | none => rfl
  | some l => exact tupleLe_lt_trans h1 h2

theorem ltHi_trans_lt {a b : Tuple} {hi : Option Tuple} (h1 : tupleLt a b = true)
    (h2 : ltHi b hi = true) : ltHi a hi = true := by
  cases hi with
  | none => rfl
  | some h => exact tupleLt_trans h1 h2

theorem ltHi_trans_le {a b : Tuple} {hi : Option Tuple} (h1 : tupleLe a b = true)
    (h2 : ltHi b hi = true) : ltHi a hi = true := by
  cases hi with
  | none => rfl
  | some h => exact tupleLe_lt_trans h1 h2

theorem tupleLe_not_of_lt {a b : Tuple} (h : tupleLt a b = true) :
    tupleLe b a = false := by
  simp [tupleLe, h]

theorem tupleLt_of_not_le2 {a b : Tuple} (h : tupleLe a b = false) :
    tupleLt b a = true := by
  simpa [tupleLe] using h

/-! Characterization of the internal page scan `look_up`. -/

theorem lu_skip_all {k : Tuple} {l : List InternalKV} {acc : Nat}
    (h : ∀ e ∈ l, tupleLe e.1 k = false) : internalLookUpFrom k l acc = acc := by
  induction l generalizing acc with
  | nil => rfl
  | cons e rest ih =>
      simp only [internalLookUpFrom, h e (List.mem_cons_self e rest), if_false]
      exact ih (fun e2 he2 => h e2 (List.mem_cons_of_mem _ he2))

theorem lu_append {k : Tuple} {l1 l2 : List InternalKV} {acc : Nat} :
    internalLookUpFrom k (l1 ++ l2) acc =
      internalLookUpFrom k l2 (internalLookUpFrom k l1 acc) := by
  induction l1 generalizing acc with
  | nil => rfl
  | cons e rest ih =>
      simp only [List.cons_append, internalLookUpFrom]
      by_cases he : tupleLe e.1 k
      · simp only [he, if_true]
        exact ih
      · simp only [he, if_false]
        exact ih

theorem lu_complete {k t : Tuple} {A B : List InternalKV} {c acc : Nat}
    (ht : tupleLe t k = true) (hB : ∀ e ∈ B, tupleLe e.1 k = false) :
    internalLookUpFrom k (A ++ (t, c) :: B) acc = c := by
  rw [lu_append]
  simp only [internalLookUpFrom, ht, if_true]
  exact lu_skip_all hB

theorem lu_inverse {k : Tuple} : ∀ {l : List InternalKV} {acc c : Nat},
    internalLookUpFrom k l acc = c →
    (c = acc ∧ ∀ e ∈ l, tupleLe e.1 k = false) ∨
      ∃ A t B, l = A ++ (t, c) :: B ∧ tupleLe t k = true ∧
        ∀ e ∈ B, tupleLe e.1 k = false := by
  intro l
  induction l with
  | nil =>
      intro acc c h
      exact Or.inl ⟨h.symm, by intro e he; exact (nomatch he)⟩
  | cons e rest ih =>
      intro acc c h
      simp only [internalLookUpFrom] at h
      by_cases he : tupleLe e.1 k
      · simp only [he, if_true] at h
        rcases ih h with ⟨h1, h2⟩ | ⟨A, t, B, h1, h2, h3⟩
        · exact Or.inr ⟨[], e.1, rest, by simp [h1], he, h2⟩
        · exact Or.inr ⟨e :: A, t, B, by rw [h1]; rfl, h2, h3⟩
      · simp only [he, if_false] at h
        rcases ih h with ⟨h1, h2⟩ | ⟨A, t, B, h1, h2, h3⟩
        · refine Or.inl ⟨h1, ?_⟩
          intro e2 he2
          rcases List.mem_cons.mp he2 with he3 | he3
          · exact he3 ▸ (by simpa using he)
          · exact h2 e2 he3
        · exact Or.inr ⟨e :: A, t, B, by rw [h1]; rfl, h2, h3⟩

theorem look_up_complete {ip : BPlusTreeInternalPage} {k t : Tuple} {c : Nat}
    {e0 : InternalKV} {A B : List InternalKV}
    (harr : ip.array = e0 :: (A ++ (t, c) :: B)) (ht : tupleLe t k = true)
    (hB : ∀ e ∈ B, tupleLt k e.1 = true) : ip.look_up k = c := by
  unfold BPlusTreeInternalPage.look_up
  rw [harr]
  exact lu_complete ht (fun e he => tupleLe_not_of_lt (hB e he))

theorem look_up_complete0 {ip : BPlusTreeInternalPage} {k : Tuple}
    {e0 : InternalKV} {rest : List InternalKV}
    (harr : ip.array = e0 :: rest)
    (hrest : ∀ e ∈ rest, tupleLt k e.1 = true) : ip.look_up k = e0.2 := by
  unfold BPlusTreeInternalPage.look_up
  rw [harr]
  exact lu_skip_all (fun e he => tupleLe_not_of_lt (hrest e he))

theorem look_up_inverse {ip : BPlusTreeInternalPage} {k : Tuple} {c : Nat}
    {e0 : InternalKV} {rest : List InternalKV}
    (harr : ip.array = e0 :: rest) (h : ip.look_up k = c) :
    (c = e0.2 ∧ ∀ e ∈ rest, tupleLt k e.1 = true) ∨
      ∃ A t B, rest = A ++ (t, c) :: B ∧ tupleLe t k = true ∧
        ∀ e ∈ B, tupleLt k e.1 = true := by
  unfold BPlusTreeInternalPage.look_up at h
  rw [harr] at h
  rcases lu_inverse h with ⟨h1, h2⟩ | ⟨A, t, B, h1, h2, h3⟩
  · exact Or.inl ⟨h1, fun e he => tupleLt_of_not_le2 (h2 e he)⟩
  · exact Or.inr ⟨A, t, B, h1, h2, fun e he => tupleLt_of_not_le2 (h3 e he)⟩

theorem look_up_mem {ip : BPlusTreeInternalPage} {k : Tuple}
    {e0 : InternalKV} {rest : List InternalKV} (harr : ip.array = e0 :: rest) :
    ip.look_up k ∈ (e0 :: rest).map (fun e => e.2) := by
  rcases look_up_inverse harr rfl with ⟨h1, h2⟩ | ⟨A, t, B, h1, h2, h3⟩
  · rw [h1]
    exact List.mem_map.mpr ⟨e0, List.mem_cons_self e0 rest, rfl⟩
  · refine List.mem_map.mpr ⟨(t, ip.look_up k), ?_, rfl⟩
    rw [h1]
    exact List.mem_cons_of_mem _ (List.mem_append_right A (List.mem_cons_self _ B))


def headKeyOr (hi : Option Tuple) (l : List InternalKV) : Option Tuple :=
  match l with
  | [] => hi
  | e :: _ => some e.1

theorem gk_child0 {f : Nat → Option Tuple → Option Tuple → Bool} {c0 : Nat}
    {rest : List InternalKV} {lo hi : Option Tuple}
    (h : goodKids f c0 rest lo hi = true) :
    f c0 lo (headKeyOr hi rest) = true := by
  cases rest with
  | nil => exact h
  | cons e rest2 =>
      simp only [goodKids, Bool.and_eq_true] at h
      exact h.1.2

theorem gk_child_split {f : Nat → Option Tuple → Option Tuple → Bool} {t : Tuple} {c : Nat}
    {B : List InternalKV} {hi : Option Tuple} :
    ∀ {A : List InternalKV} {c0 : Nat} {lo : Option Tuple},
    goodKids f c0 (A ++ (t, c) :: B) lo hi = true →
    f c (some t) (headKeyOr hi B) = true := by
  intro A
  induction A with
  | nil =>
      intro c0 lo h
      simp only [List.nil_append, goodKids, Bool.and_eq_true] at h
      exact gk_child0 h.2
  | cons a A2 ih =>
      intro c0 lo h
      simp only [List.cons_append, goodKids, Bool.and_eq_true] at h
      exact ih h.2

theorem gk_key_facts {f : Nat → Option Tuple → Option Tuple → Bool} :
    ∀ {rest : List InternalKV} {c0 : Nat} {lo hi : Option Tuple},
    goodKids f c0 rest lo hi = true →
    ∀ e ∈ rest, loLt lo e.1 = true ∧ ltHi e.1 hi = true := by
  intro rest
  induction rest with
  | nil => intro c0 lo hi h e he; exact (nomatch he)
  | cons e1 rest2 ih =>
      intro c0 lo hi h e he
      simp only [goodKids, Bool.and_eq_true] at h
      rcases List.mem_cons.mp he with he2 | he2
      · exact ⟨he2 ▸ h.1.1.1, he2 ▸ h.1.1.2⟩
      · have := ih h.2 e he2
        refine ⟨?_, this.2⟩
        have h3 : tupleLt e1.1 e.1 = true := this.1
        exact loLt_trans_lt h.1.1.1 h3

theorem gk_split_order {f : Nat → Option Tuple → Option Tuple → Bool} {t : Tuple} {c : Nat}
    {B : List InternalKV} {hi : Option Tuple} :
    ∀ {A : List InternalKV} {c0 : Nat} {lo : Option Tuple},
    goodKids f c0 (A ++ (t, c) :: B) lo hi = true →
    (∀ e ∈ A, tupleLt e.1 t = true) ∧ loLt lo t = true ∧
      (∀ e ∈ B, tupleLt t e.1 = true) ∧ ltHi t hi = true := by
  intro A
  induction A with
  | nil =>
      intro c0 lo h
      simp only [List.nil_append, goodKids, Bool.and_eq_true] at h
      refine ⟨fun e he => (nomatch he), h.1.1.1, ?_, h.1.1.2⟩
      intro e he
      have := gk_key_facts h.2 e he
      exact this.1
  | cons a A2 ih =>
      intro c0 lo h
      simp only [List.cons_append, goodKids, Bool.and_eq_true] at h
      rcases ih h.2 with ⟨hA, hlt, hB, hth⟩
      have hat : tupleLt a.1 t = true := hlt
      refine ⟨?_, loLt_trans_lt h.1.1.1 hat, hB, hth⟩
      intro e he
      rcases List.mem_cons.mp he with he2 | he2
      · exact he2 ▸ hat
      · exact hA e he2

theorem gk_children_bounded {f : Nat → Option Tuple → Option Tuple → Bool} :
    ∀ {rest : List InternalKV} {c0 : Nat} {lo hi : Option Tuple},
    goodKids f c0 rest lo hi = true →
    ∀ c ∈ c0 :: rest.map (fun e => e.2), ∃ lo2 hi2, f c lo2 hi2 = true ∧
      (∀ t, loLe lo2 t = true → loLe lo t = true) ∧
      (∀ t, ltHi t hi2 = true → ltHi t hi = true) := by
  intro rest
  induction rest with
  | nil =>
      intro c0 lo hi h c hc
      simp only [List.map_nil, List.mem_singleton] at hc
      exact ⟨lo, hi, hc ▸ h, fun t ht => ht, fun t ht => ht⟩
  | cons e1 rest2 ih =>
      intro c0 lo hi h c hc
      simp only [goodKids, Bool.and_eq_true] at h
      rcases List.mem_cons.mp hc with hc2 | hc2
      · refine ⟨lo, some e1.1, hc2 ▸ h.1.2, fun t ht => ht, ?_⟩
        intro t ht
        exact ltHi_trans_lt ht h.1.1.2
      · simp only [List.map_cons, List.mem_cons] at hc2
        have hc3 : c ∈ e1.2 :: rest2.map (fun e => e.2) := List.mem_cons.mpr hc2
        rcases ih h.2 c hc3 with ⟨lo2, hi2, hf, hlo, hhi⟩
        refine ⟨lo2, hi2, hf, ?_, hhi⟩
        intro t ht
        have h3 : loLe (some e1.1) t = true := hlo t ht
        exact loLe_of_loLt (loLt_trans_le h.1.1.1 h3)

theorem gk_congr {f f2 : Nat → Option Tuple → Option Tuple → Bool} :
    ∀ {rest : List InternalKV} {c0 : Nat} {lo hi : Option Tuple},
    (∀ c ∈ c0 :: rest.map (fun e => e.2), ∀ lo2 hi2, f c lo2 hi2 = f2 c lo2 hi2) →
    goodKids f c0 rest lo hi = goodKids f2 c0 rest lo hi := by
  intro rest
  induction rest with
  | nil =>
      intro c0 lo hi h
      exact h c0 (List.mem_cons_self _ _) lo hi
  | cons e1 rest2 ih =>
      intro c0 lo hi h
      simp only [goodKids]
      rw [h c0 (List.mem_cons_self _ _) lo (some e1.1)]
      rw [ih ?_]
      intro c hc lo2 hi2
      refine h c ?_ lo2 hi2
      rcases List.mem_cons.mp hc with hc2 | hc2
      · simp [hc2]
      · simp only [List.map_cons, List.mem_cons]
        exact Or.inr (Or.inr (by simpa using hc2))

theorem kp_build {g : Nat → Option (List Nat)} :
    ∀ {l1 l2 : List Nat} {a b : List Nat},
    kidsPids g l1 = some a → kidsPids g l2 = some b →
    kidsPids g (l1 ++ l2) = some (a ++ b) := by
  intro l1
  induction l1 with
  | nil =>
      intro l2 a b h1 h2
      injection h1 with h3
      simp [← h3, h2]
  | cons c cs ih =>
      intro l2 a b h1 h2
      simp only [kidsPids] at h1
      split at h1
      · rename_i q1 q2 hq1 hq2
        injection h1 with h3
        have h4 := ih hq2 h2
        show kidsPids g (c :: (cs ++ l2)) = some (a ++ b)
        simp only [kidsPids, hq1, h4]
        rw [← h3]
        simp
      · exact (nomatch h1)

theorem kp_split {g : Nat → Option (List Nat)} :
    ∀ {l1 l2 : List Nat} {Q : List Nat},
    kidsPids g (l1 ++ l2) = some Q →
    ∃ a b, kidsPids g l1 = some a ∧ kidsPids g l2 = some b ∧ Q = a ++ b := by
  intro l1
  induction l1 with
  | nil =>
      intro l2 Q h
      exact ⟨[], Q, rfl, h, rfl⟩
  | cons c cs ih =>
      intro l2 Q h
      simp only [List.cons_append, kidsPids] at h
      split at h
      · rename_i q1 q2 hq1 hq2
        injection h with h3
        rcases ih hq2 with ⟨a, b, ha, hb, hab⟩
        refine ⟨c :: (q1 ++ a), b, ?_, hb, ?_⟩
        · simp [kidsPids, hq1, ha]
        · rw [← h3, hab]
          simp
      · exact (nomatch h)

theorem kp_mem {g : Nat → Option (List Nat)} :
    ∀ {l : List Nat} {Q : List Nat}, kidsPids g l = some Q →
    ∀ c ∈ l, ∃ Qc, g c = some Qc ∧ ∀ q ∈ c :: Qc, q ∈ Q := by
  intro l
  induction l with
  | nil => intro Q h c hc; exact (nomatch hc)
  | cons c1 cs ih =>
      intro Q h c hc
      simp only [kidsPids] at h
      split at h
      · rename_i q1 q2 hq1 hq2
        injection h with h3
        rcases List.mem_cons.mp hc with hc2 | hc2
        · refine ⟨q1, hc2 ▸ hq1, ?_⟩
          intro q hq
          rw [← h3]
          rcases List.mem_cons.mp hq with hq2b | hq2b
          · exact List.mem_cons.mpr (Or.inl (hq2b.trans hc2))
          · exact List.mem_cons.mpr (Or.inr (List.mem_append_left _ hq2b))
        · rcases ih hq2 c hc2 with ⟨Qc, hg, hsub⟩
          refine ⟨Qc, hg, ?_⟩
          intro q hq
          rw [← h3]
          exact List.mem_cons.mpr (Or.inr (List.mem_append_right _ (hsub q hq)))
      · exact (nomatch h)

theorem kp_congr {g g2 : Nat → Option (List Nat)} :
    ∀ {l : List Nat}, (∀ c ∈ l, g c = g2 c) → kidsPids g l = kidsPids g2 l := by
  intro l
  induction l with
  | nil => intro h; rfl
  | cons c cs ih =>
      intro h
      simp only [kidsPids]
      rw [h c (List.mem_cons_self _ _), ih (fun c2 hc2 => h c2 (List.mem_cons_of_mem _ hc2))]


theorem gk_mono {f f2 : Nat → Option Tuple → Option Tuple → Bool} :
    ∀ {rest : List InternalKV} {c0 : Nat} {lo hi : Option Tuple},
    (∀ c ∈ c0 :: rest.map (fun e => e.2), ∀ lo2 hi2,
      f c lo2 hi2 = true → f2 c lo2 hi2 = true) →
    goodKids f c0 rest lo hi = true → goodKids f2 c0 rest lo hi = true := by
  intro rest
  induction rest with
  | nil =>
      intro c0 lo hi hmono h
      exact hmono c0 (List.mem_cons_self _ _) lo hi h
  | cons e1 rest2 ih =>
      intro c0 lo hi hmono h
      simp only [goodKids, Bool.and_eq_true] at h ⊢
      refine ⟨⟨⟨h.1.1.1, h.1.1.2⟩, hmono c0 (List.mem_cons_self _ _) lo (some e1.1) h.1.2⟩, ?_⟩
      refine ih ?_ h.2
      intro c hc lo2 hi2
      refine hmono c ?_ lo2 hi2
      rcases List.mem_cons.mp hc with hc2 | hc2
      · simp [hc2]
      · simp only [List.map_cons, List.mem_cons]
        exact Or.inr (Or.inr (by simpa using hc2))

theorem kp_mono {g g2 : Nat → Option (List Nat)} :
    ∀ {l : List Nat} {Q : List Nat},
    (∀ c ∈ l, ∀ Qc, g c = some Qc → g2 c = some Qc) →
    kidsPids g l = some Q → kidsPids g2 l = some Q := by
  intro l
  induction l with
  | nil => intro Q hmono h; exact h
  | cons c cs ih =>
      intro Q hmono h
      simp only [kidsPids] at h ⊢
      split at h
      · rename_i q1 q2 hq1 hq2
        rw [hmono c (List.mem_cons_self _ _) q1 hq1,
          ih (fun c2 hc2 => hmono c2 (List.mem_cons_of_mem _ hc2)) hq2]
        exact h
      · exact (nomatch h)

theorem goodAt_succ (f : Nat) (store : PageStore) (pid : Nat) (lo hi : Option Tuple) :
    goodAt (f + 1) store pid lo hi =
      match storeGet store pid with
      | none => false
      | some pg => goodPg f store pg lo hi := rfl

theorem pidsAt_succ (f : Nat) (store : PageStore) (pid : Nat) :
    pidsAt (f + 1) store pid =
      match storeGet store pid with
      | none => none
      | some pg => pidsPg f store pg := rfl

theorem routeAt_succ (f : Nat) (store : PageStore) (pid : Nat) (k : Tuple) :
    routeAt (f + 1) store pid k =
      match storeGet store pid with
      | some (.leaf lp) => some (pid, lp)
      | some (.internal ip) => routeAt f store (ip.look_up k) k
      | none => none := rfl

theorem goodAt_mono {store : PageStore} :
    ∀ {f : Nat} {pid : Nat} {lo hi : Option Tuple},
    goodAt f store pid lo hi = true → goodAt (f + 1) store pid lo hi = true := by
  intro f
  induction f with
  | zero => intro pid lo hi h; exact (nomatch h)
  | succ n ih =>
      intro pid lo hi h
      rw [goodAt_succ] at h ⊢
      split at h
      · exact (nomatch h)
      · rename_i pg hget
        cases pg with
        | leaf lp => exact h
        | internal ip =>
            simp only [goodPg, goodPgF, Bool.and_eq_true] at h ⊢
            refine ⟨h.1, ?_⟩
            have h2 := h.2
            split at h2
            · exact (nomatch h2)
            · simp only [Bool.and_eq_true] at h2 ⊢
              refine ⟨h2.1, ?_⟩
              refine gk_mono ?_ h2.2
              intro c hc lo2 hi2 hg
              exact ih hg

theorem goodAt_le {store : PageStore} {f g : Nat} {pid : Nat} {lo hi : Option Tuple}
    (hle : f ≤ g) (h : goodAt f store pid lo hi = true) :
    goodAt g store pid lo hi = true := by
  induction g with
  | zero =>
      have h2 : f = 0 := Nat.le_zero.mp hle
      exact h2 ▸ h
  | succ n ih =>
      rcases Nat.lt_or_ge f (n + 1) with h2 | h2
      · exact goodAt_mono (ih (Nat.lt_succ_iff.mp h2))
      · have h3 : f = n + 1 := Nat.le_antisymm hle h2
        exact h3 ▸ h

theorem pidsAt_mono {store : PageStore} :
    ∀ {f : Nat} {pid : Nat} {Q : List Nat},
    pidsAt f store pid = some Q → pidsAt (f + 1) store pid = some Q := by
  intro f
  induction f with
  | zero => intro pid Q h; exact (nomatch h)
  | succ n ih =>
      intro pid Q h
      rw [pidsAt_succ] at h ⊢
      split at h
      · exact (nomatch h)
      · rename_i pg hget
        cases pg with
        | leaf lp => exact h
        | internal ip =>
            simp only [pidsPg, pidsPgF] at h ⊢
            refine kp_mono ?_ h
            intro c hc Qc hg
            exact ih hg

theorem pidsAt_le {store : PageStore} {f g : Nat} {pid : Nat} {Q : List Nat}
    (hle : f ≤ g) (h : pidsAt f store pid = some Q) :
    pidsAt g store pid = some Q := by
  induction g with
  | zero =>
      have h2 : f = 0 := Nat.le_zero.mp hle
      exact h2 ▸ h
  | succ n ih =>
      rcases Nat.lt_or_ge f (n + 1) with h2 | h2
      · exact pidsAt_mono (ih (Nat.lt_succ_iff.mp h2))
      · have h3 : f = n + 1 := Nat.le_antisymm hle h2
        exact h3 ▸ h

theorem routeAt_mono {store : PageStore} {k : Tuple} :
    ∀ {f : Nat} {pid : Nat} {x : Nat × BPlusTreeLeafPage},
    routeAt f store pid k = some x → routeAt (f + 1) store pid k = some x := by
  intro f
  induction f with
  | zero => intro pid x h; exact (nomatch h)
  | succ n ih =>
      intro pid x h
      rw [routeAt_succ] at h ⊢
      split at h
      · exact h
      · exact ih h
      · exact (nomatch h)

theorem routeAt_le {store : PageStore} {k : Tuple} {f g : Nat} {pid : Nat}
    {x : Nat × BPlusTreeLeafPage} (hle : f ≤ g) (h : routeAt f store pid k = some x) :
    routeAt g store pid k = some x := by
  induction g with
  | zero =>
      have h2 : f = 0 := Nat.le_zero.mp hle
      exact h2 ▸ h
  | succ n ih =>
      rcases Nat.lt_or_ge f (n + 1) with h2 | h2
      · exact routeAt_mono (ih (Nat.lt_succ_iff.mp h2))
      · have h3 : f = n + 1 := Nat.le_antisymm hle h2
        exact h3 ▸ h

theorem pidsAt_congr {store1 store2 : PageStore} :
    ∀ {f : Nat} {pid : Nat} {Q : List Nat},
    pidsAt f store1 pid = some Q →
    (∀ q ∈ pid :: Q, storeGet store2 q = storeGet store1 q) →
    pidsAt f store2 pid = some Q := by
  intro f
  induction f with
  | zero => intro pid Q h hag; exact (nomatch h)
  | succ n ih =>
      intro pid Q h hag
      rw [pidsAt_succ] at h ⊢
      rw [hag pid (List.mem_cons_self _ _)]
      split at h
      · exact (nomatch h)
      · rename_i pg hget
        cases pg with
        | leaf lp => exact h
        | internal ip =>
            simp only [pidsPg, pidsPgF] at h ⊢
            refine kp_mono ?_ h
            intro c hc Qc hg
            rcases kp_mem h c hc with ⟨Qc2, hg2, hsub⟩
            rw [hg2] at hg
            injection hg with hg3
            subst hg3
            refine ih hg2 ?_
            intro q hq
            exact hag q (List.mem_cons_of_mem _ (hsub q hq))

theorem goodAt_congr {store1 store2 : PageStore} :
    ∀ {f F2 : Nat} {pid : Nat} {Q : List Nat} {lo hi : Option Tuple},
    pidsAt F2 store1 pid = some Q →
    (∀ q ∈ pid :: Q, storeGet store2 q = storeGet store1 q) →
    goodAt f store1 pid lo hi = true → goodAt f store2 pid lo hi = true := by
  intro f
  induction f with
  | zero => intro F2 pid Q lo hi hpids hag h; exact (nomatch h)
  | succ n ih =>
      intro F2 pid Q lo hi hpids hag h
      cases F2 with
      | zero => exact (nomatch hpids)
      | succ m =>
          rw [goodAt_succ] at h ⊢
          rw [hag pid (List.mem_cons_self _ _)]
          split at h
          · exact (nomatch h)
          · rename_i pg hget
            rw [pidsAt_succ, hget] at hpids
            cases pg with
            | leaf lp => exact h
            | internal ip =>
                simp only [goodPg, goodPgF, Bool.and_eq_true] at h ⊢
                refine ⟨h.1, ?_⟩
                have h2 := h.2
                split at h2
                · exact (nomatch h2)
                · rename_i e0 rest harr
                  simp only [Bool.and_eq_true] at h2 ⊢
                  refine ⟨h2.1, ?_⟩
                  refine gk_mono ?_ h2.2
                  intro c hc lo2 hi2 hg
                  simp only [pidsPg, pidsPgF] at hpids
                  have hc2 : c ∈ ip.array.map (fun e => e.2) := by
                    rw [harr]
                    simpa using hc
                  rcases kp_mem hpids c hc2 with ⟨Qc, hgc, hsub⟩
                  refine ih hgc ?_ hg
                  intro q hq
                  exact hag q (List.mem_cons_of_mem _ (hsub q hq))

theorem routeAt_congr {store1 store2 : PageStore} {k : Tuple} :
    ∀ {f G F2 : Nat} {pid : Nat} {Q : List Nat} {lo hi : Option Tuple}
      {x : Nat × BPlusTreeLeafPage},
    routeAt f store1 pid k = some x →
    goodAt G store1 pid lo hi = true →
    pidsAt F2 store1 pid = some Q →
    (∀ q ∈ pid :: Q, storeGet store2 q = storeGet store1 q) →
    routeAt f store2 pid k = some x := by
  intro f
  induction f with
  | zero => intro G F2 pid Q lo hi x h hgood hpids hag; exact (nomatch h)
  | succ n ih =>
      intro G F2 pid Q lo hi x h hgood hpids hag
      cases G with
      | zero => exact (nomatch hgood)
      | succ g =>
          cases F2 with
          | zero => exact (nomatch hpids)
          | succ m =>
              rw [routeAt_succ] at h ⊢
              rw [hag pid (List.mem_cons_self _ _)]
              split at h
              · exact h
              · rename_i ip hget
                rw [goodAt_succ, hget] at hgood
                rw [pidsAt_succ, hget] at hpids
                simp only [goodPg, goodPgF, Bool.and_eq_true] at hgood
                simp only [pidsPg, pidsPgF] at hpids
                have h2 := hgood.2
                split at h2
                · exact (nomatch h2)
                · rename_i e0 rest harr
                  simp only [Bool.and_eq_true] at h2
                  have hmem : ip.look_up k ∈ (e0 :: rest).map (fun e => e.2) :=
                    look_up_mem harr
                  have hmem2 : ip.look_up k ∈ ip.array.map (fun e => e.2) := by
                    rw [harr]
                    exact hmem
                  rcases gk_children_bounded h2.2 (ip.look_up k) (by simpa using hmem)
                    with ⟨lo2, hi2, hgc, hwlo, hwhi⟩
                  rcases kp_mem hpids (ip.look_up k) hmem2 with ⟨Qc, hgp, hsub⟩
                  refine ih h hgc hgp ?_
                  intro q hq
                  exact hag q (List.mem_cons_of_mem _ (hsub q hq))
              · exact (nomatch h)


theorem tupleLt_nil_right (t : Tuple) : tupleLt t [] = false := by
  cases t <;> rfl

theorem tupleLe_nil_left (t : Tuple) : tupleLe [] t = true := by
  simp [tupleLe, tupleLt_nil_right]

theorem leaf_look_up_some {lp : BPlusTreeLeafPage} {k : Tuple} {r : RecordId}
    (h : lp.look_up k = some r) : ∃ e, e ∈ lp.array ∧ e.1 = k ∧ e.2 = r := by
  unfold BPlusTreeLeafPage.look_up at h
  match hfind : lp.array.find? (fun e => decide (e.1 = k)) with
  | none => rw [hfind] at h; exact (nomatch h)
  | some e =>
      rw [hfind] at h
      injection h with h2
      have hmem := List.mem_of_find?_eq_some hfind
      have hkey := List.find?_some hfind
      exact ⟨e, hmem, by simpa using hkey, h2⟩

theorem routeAt_bounds {store : PageStore} {k : Tuple} {r : RecordId} :
    ∀ {f G : Nat} {pid : Nat} {lo hi : Option Tuple} {lam : Nat}
      {lpl : BPlusTreeLeafPage},
    routeAt f store pid k = some (lam, lpl) →
    goodAt G store pid lo hi = true →
    lpl.look_up k = some r →
    loLe lo k = true ∧ ltHi k hi = true := by
  intro f
  induction f with
  | zero => intro G pid lo hi lam lpl h hgood hr; exact (nomatch h)
  | succ n ih =>
      intro G pid lo hi lam lpl h hgood hr
      cases G with
      | zero => exact (nomatch hgood)
      | succ g =>
          rw [routeAt_succ] at h
          split at h
          · rename_i lp hget
            injection h with h2
            injection h2 with h3 h4
            subst h3
            subst h4
            rw [goodAt_succ, hget] at hgood
            simp only [goodPg, goodPgF, leafGood, Bool.and_eq_true,
              List.all_eq_true] at hgood
            rcases leaf_look_up_some hr with ⟨e, hmem, hek, her⟩
            have hb := hgood.2 e hmem
            simp only [Bool.and_eq_true] at hb
            exact ⟨hek ▸ hb.1, hek ▸ hb.2⟩
          · rename_i ip hget
            rw [goodAt_succ, hget] at hgood
            simp only [goodPg, goodPgF, Bool.and_eq_true] at hgood
            have h2 := hgood.2
            split at h2
            · exact (nomatch h2)
            · rename_i e0 rest harr
              simp only [Bool.and_eq_true] at h2
              have hmem : ip.look_up k ∈ (e0 :: rest).map (fun e => e.2) :=
                look_up_mem harr
              rcases gk_children_bounded h2.2 (ip.look_up k) (by simpa using hmem)
                with ⟨lo2, hi2, hgc, hwlo, hwhi⟩
              rcases ih h hgc hr with ⟨hk1, hk2⟩
              exact ⟨hwlo k hk1, hwhi k hk2⟩
          · exact (nomatch h)

theorem routeAt_pid_mem {store : PageStore} {k : Tuple} :
    ∀ {f G F2 : Nat} {pid : Nat} {Q : List Nat} {lo hi : Option Tuple} {lam : Nat}
      {lpl : BPlusTreeLeafPage},
    routeAt f store pid k = some (lam, lpl) →
    goodAt G store pid lo hi = true →
    pidsAt F2 store pid = some Q →
    lam ∈ pid :: Q := by
  intro f
  induction f with
  | zero => intro G F2 pid Q lo hi lam lpl h hgood hpids; exact (nomatch h)
  | succ n ih =>
      intro G F2 pid Q lo hi lam lpl h hgood hpids
      cases G with
      | zero => exact (nomatch hgood)
      | succ g =>
          cases F2 with
          | zero => exact (nomatch hpids)
          | succ m =>
              rw [routeAt_succ] at h
              split at h
              · rename_i lp hget
                injection h with h2
                injection h2 with h3 h4
                exact h3 ▸ List.mem_cons_self _ _
              · rename_i ip hget
                rw [goodAt_succ, hget] at hgood
                rw [pidsAt_succ, hget] at hpids
                simp only [goodPg, goodPgF, Bool.and_eq_true] at hgood
                simp only [pidsPg, pidsPgF] at hpids
                have h2 := hgood.2
                split at h2
                · exact (nomatch h2)
                · rename_i e0 rest harr
                  simp only [Bool.and_eq_true] at h2
                  have hmem : ip.look_up k ∈ (e0 :: rest).map (fun e => e.2) :=
                    look_up_mem harr
                  have hmem2 : ip.look_up k ∈ ip.array.map (fun e => e.2) := by
                    rw [harr]
                    exact hmem
                  rcases gk_children_bounded h2.2 (ip.look_up k) (by simpa using hmem)
                    with ⟨lo2, hi2, hgc, hwlo, hwhi⟩
                  rcases kp_mem hpids (ip.look_up k) hmem2 with ⟨Qc, hgp, hsub⟩
                  have := ih h hgc hgp
                  exact List.mem_cons_of_mem _ (hsub lam this)
              · exact (nomatch h)

theorem gk_weaken_hi {f : Nat → Option Tuple → Option Tuple → Bool}
    {hi1 hi2 : Option Tuple} (hw : ∀ x, ltHi x hi1 = true → ltHi x hi2 = true)
    (hf : ∀ c lo2, f c lo2 hi1 = true → f c lo2 hi2 = true) :
    ∀ {rest : List InternalKV} {c0 : Nat} {lo : Option Tuple},
    goodKids f c0 rest lo hi1 = true → goodKids f c0 rest lo hi2 = true := by
  intro rest
  induction rest with
  | nil => intro c0 lo h; exact hf c0 lo h
  | cons e1 rest2 ih =>
      intro c0 lo h
      simp only [goodKids, Bool.and_eq_true] at h ⊢
      exact ⟨⟨⟨h.1.1.1, hw e1.1 h.1.1.2⟩, h.1.2⟩, ih h.2⟩

theorem goodAt_weaken_hi {store : PageStore} {hi1 hi2 : Option Tuple}
    (hw : ∀ x, ltHi x hi1 = true → ltHi x hi2 = true) :
    ∀ {f : Nat} {pid : Nat} {lo : Option Tuple},
    goodAt f store pid lo hi1 = true → goodAt f store pid lo hi2 = true := by
  intro f
  induction f with
  | zero => intro pid lo h; exact (nomatch h)
  | succ n ih =>
      intro pid lo h
      rw [goodAt_succ] at h ⊢
      split at h
      · exact (nomatch h)
      · rename_i pg hget
        cases pg with
        | leaf lp =>
            simp only [goodPg, goodPgF, leafGood, Bool.and_eq_true,
              List.all_eq_true] at h ⊢
            refine ⟨h.1, ?_⟩
            intro e he
            have hb := h.2 e he
            simp only [Bool.and_eq_true] at hb ⊢
            exact ⟨hb.1, hw e.1 hb.2⟩
        | internal ip =>
            simp only [goodPg, goodPgF, Bool.and_eq_true] at h ⊢
            refine ⟨h.1, ?_⟩
            have h2 := h.2
            split at h2
            · exact (nomatch h2)
            · simp only [Bool.and_eq_true] at h2 ⊢
              refine ⟨h2.1, ?_⟩
              exact gk_weaken_hi hw (fun c lo2 hg => ih hg) h2.2


theorem minRaise_loop {store : PageStore} :
    ∀ {f G : Nat} {pg : BPlusTreePage} {lo hi : Option Tuple} {mu : LeafKV},
    findSubtreeLeafkvLoop f store pg true = some mu →
    goodPg G store pg lo hi = true →
    loLe lo mu.1 = true ∧ ltHi mu.1 hi = true ∧
      goodPg G store pg (some mu.1) hi = true := by
  intro f
  induction f with
  | zero => intro G pg lo hi mu h hgood; exact (nomatch h)
  | succ n ih =>
      intro G pg lo hi mu h hgood
      cases pg with
      | leaf lp =>
          simp only [findSubtreeLeafkvLoop, if_true, BPlusTreeLeafPage.kv_at] at h
          match harr : lp.array with
          | [] => rw [harr] at h; exact (nomatch h)
          | e :: arr2 =>
              rw [harr] at h
              injection h with h2
              rw [h2] at harr
              simp only [goodPg, goodPgF, leafGood, Bool.and_eq_true,
                List.all_eq_true] at hgood ⊢
              have hme : mu ∈ lp.array := by rw [harr]; exact List.mem_cons_self _ _
              have hb := hgood.2 mu hme
              refine ⟨hb.1, hb.2, ⟨hgood.1, ?_⟩⟩
              intro x hx
              refine ⟨?_, (hgood.2 x hx).2⟩
              have hpw : List.Pairwise (fun a b : LeafKV => tupleLt a.1 b.1 = true)
                  lp.array := by
                have := hgood.1.2
                simpa using this
              rw [harr] at hpw hx
              rcases List.mem_cons.mp hx with hx2 | hx2
              · rw [hx2]
                exact tupleLe_refl mu.1
              · have := (List.pairwise_cons.mp hpw).1 x hx2
                exact tupleLe_of_lt this
      | internal ip =>
          simp only [findSubtreeLeafkvLoop, if_true] at h
          split at h
          · exact (nomatch h)
          · rename_i next hval
            split at h
            · exact (nomatch h)
            · rename_i np hget
              simp only [goodPg, goodPgF, Bool.and_eq_true] at hgood
              have h2 := hgood.2
              split at h2
              · exact (nomatch h2)
              · rename_i e0 rest harr
                simp only [Bool.and_eq_true] at h2
                have hnext : next = e0.2 := by
                  unfold BPlusTreeInternalPage.value_at at hval
                  rw [harr] at hval
                  simp only [List.get?_cons_zero, Option.map_some] at hval
                  injection hval with h3
                  exact h3.symm
                subst hnext
                have hc0 := gk_child0 h2.2
                cases G with
                | zero => exact (nomatch hc0)
                | succ g =>
                    rw [goodAt_succ, hget] at hc0
                    rcases ih h hc0 with ⟨hlo, hhi, hraise⟩
                    have hhi2 : ltHi mu.1 hi = true := by
                      cases hr : rest with
                      | nil => rw [hr] at hhi; exact hhi
                      | cons e1 rest2 =>
                          rw [hr] at hhi
                          have hk := gk_key_facts h2.2 e1
                            (by rw [hr]; exact List.mem_cons_self _ _)
                          exact ltHi_trans_lt hhi hk.2
                    refine ⟨hlo, hhi2, ?_⟩
                    simp only [goodPg, goodPgF, Bool.and_eq_true]
                    refine ⟨hgood.1, ?_⟩
                    rw [harr]
                    simp only [Bool.and_eq_true]
                    have he0b : e0Bound (some mu.1) e0.1 = true := by
                      have he0 := h2.1
                      cases lo with
                      | none =>
                          simp only [e0Bound, decide_eq_true_eq] at he0
                          rw [he0]
                          exact tupleLe_nil_left mu.1
                      | some l =>
                          simp only [e0Bound] at he0 ⊢
                          exact tupleLe_trans he0 hlo
                    refine ⟨he0b, ?_⟩
                    cases hr : rest with
                    | nil =>
                        show goodAt (g + 1) store e0.2 (some mu.1) hi = true
                        rw [goodAt_succ, hget]
                        rw [hr] at hraise
                        exact hraise
                    | cons e1 rest2 =>
                        have hgk := h2.2
                        rw [hr] at hgk hraise hhi
                        simp only [goodKids, Bool.and_eq_true] at hgk ⊢
                        refine ⟨⟨⟨hhi, hgk.1.1.2⟩, ?_⟩, hgk.2⟩
                        show goodAt (g + 1) store e0.2 (some mu.1) (some e1.1) = true
                        rw [goodAt_succ, hget]
                        exact hraise

theorem minRaise {f G : Nat} {store : PageStore} {pid : Nat} {lo hi : Option Tuple}
    {mu : LeafKV} (h : find_subtree_min_leafkv f store pid = some mu)
    (hgood : goodAt G store pid lo hi = true) :
    loLe lo mu.1 = true ∧ ltHi mu.1 hi = true ∧
      goodAt G store pid (some mu.1) hi = true := by
  unfold find_subtree_min_leafkv find_subtree_leafkv at h
  cases G with
  | zero => exact (nomatch hgood)
  | succ g =>
      rw [goodAt_succ] at hgood ⊢
      cases hget : storeGet store pid with
      | none => rw [hget] at h; exact (nomatch h)
      | some p =>
          rw [hget] at h hgood
          exact minRaise_loop h hgood


theorem tupleLt_or_eq_of_le {a b : Tuple} (h : tupleLe a b = true) :
    tupleLt a b = true ∨ a = b := by
  cases hab : tupleLt a b
  · exact Or.inr (tupleLt_total hab (tupleLe_iff_not_lt.mp h))
  · exact Or.inl rfl

theorem tupleLe_total_of_not_lt {a b : Tuple} (h : tupleLt a b = false) :
    tupleLe a b = true ∨ tupleLt b a = true := by
  cases hba : tupleLt b a
  · exact Or.inl (tupleLe_iff_not_lt.mpr hba)
  · exact Or.inr rfl

theorem tupleLt_of_ne_of_not_lt {a b : Tuple} (h1 : tupleLt a b = false) (h2 : a ≠ b) :
    tupleLt b a = true := by
  cases hba : tupleLt b a
  · exact absurd (tupleLt_total h1 hba) h2
  · rfl

theorem pairwise_key_unique {β : Type} {l : List (Tuple × β)}
    (hpw : List.Pairwise (fun a b : Tuple × β => tupleLt a.1 b.1 = true) l) :
    ∀ e1 ∈ l, ∀ e2 ∈ l, e1.1 = e2.1 → e1 = e2 := by
  induction l with
  | nil => intro e1 he1; exact (nomatch he1)
  | cons x rest ih =>
      intro e1 he1 e2 he2 hk
      have hx := List.pairwise_cons.mp hpw
      rcases List.mem_cons.mp he1 with h1 | h1
      · rcases List.mem_cons.mp he2 with h2 | h2
        · rw [h1, h2]
        · exfalso
          have := hx.1 e2 h2
          rw [h1] at hk
          rw [hk] at this
          rw [tupleLt_irrefl] at this
          exact (nomatch this)
      · rcases List.mem_cons.mp he2 with h2 | h2
        · exfalso
          have := hx.1 e1 h1
          rw [h2] at hk
          rw [← hk] at this
          rw [tupleLt_irrefl] at this
          exact (nomatch this)
        · exact ih hx.2 e1 h1 e2 h2 hk

theorem kvInsert_append_split {β : Type} {x : Tuple × β} :
    ∀ {A B : List (Tuple × β)},
    (∀ a ∈ A, tupleLe a.1 x.1 = true) → (∀ b ∈ B, tupleLt x.1 b.1 = true) →
    kvInsert x (A ++ B) = A ++ x :: B := by
  intro A
  induction A with
  | nil =>
      intro B hA hB
      cases B with
      | nil => rfl
      | cons b B2 =>
          simp only [List.nil_append, kvInsert, hB b (List.mem_cons_self _ _), if_true]
  | cons a A2 ih =>
      intro B hA hB
      have ha : tupleLt x.1 a.1 = false := by
        have := hA a (List.mem_cons_self _ _)
        simpa [tupleLe] using this
      simp only [List.cons_append, kvInsert, ha, Bool.false_eq_true, if_false,
        List.append_eq]
      rw [ih (fun a2 ha2 => hA a2 (List.mem_cons_of_mem _ ha2)) hB]

theorem sorted_split_at_key {β : Type} {k : Tuple} :
    ∀ {l : List (Tuple × β)},
    List.Pairwise (fun a b : Tuple × β => tupleLt a.1 b.1 = true) l →
    (∀ e ∈ l, e.1 ≠ k) →
    ∃ A B, l = A ++ B ∧ (∀ a ∈ A, tupleLt a.1 k = true) ∧
      (∀ b ∈ B, tupleLt k b.1 = true) := by
  intro l
  induction l with
  | nil => intro hpw hne; exact ⟨[], [], rfl, fun a ha => (nomatch ha), fun b hb => (nomatch hb)⟩
  | cons e rest ih =>
      intro hpw hne
      have hx := List.pairwise_cons.mp hpw
      cases hek : tupleLt e.1 k
      · refine ⟨[], e :: rest, rfl, fun a ha => (nomatch ha), ?_⟩
        intro b hb
        have hke : tupleLt k e.1 = true :=
          tupleLt_of_ne_of_not_lt hek (hne e (List.mem_cons_self _ _))
        rcases List.mem_cons.mp hb with h2 | h2
        · rw [h2]
          exact hke
        · exact tupleLt_trans hke (hx.1 b h2)
      · rcases ih hx.2 (fun e2 he2 => hne e2 (List.mem_cons_of_mem _ he2)) with
          ⟨A, B, hAB, hA, hB⟩
        refine ⟨e :: A, B, by rw [hAB]; rfl, ?_, hB⟩
        intro a ha
        rcases List.mem_cons.mp ha with h2 | h2
        · rw [h2]
          exact hek
        · exact hA a h2

theorem find?_key_append_none {β : Type} {p : Tuple × β → Bool} {A B : List (Tuple × β)}
    (hA : ∀ a ∈ A, p a = false) :
    (A ++ B).find? p = B.find? p := by
  induction A with
  | nil => rfl
  | cons a A2 ih =>
      simp only [List.cons_append, List.find?]
      rw [hA a (List.mem_cons_self _ _)]
      exact ih (fun a2 ha2 => hA a2 (List.mem_cons_of_mem _ ha2))


/-! ### The descent path of an insert

`AncPath F s0 k root rs curr lo hi` records that descending from `root`
in the frozen store `s0` along `look_up k` visits exactly the pages of
`rs` (in order) and arrives at `curr`, whose separator interval is
`[lo, hi)`.  Each level stores the split of the parent array around the
chosen child together with the comparison facts the scan guarantees. -/

inductive AncPath (F : Nat) (s0 : PageStore) (k : Tuple) (root : Nat) :
    List Nat → Nat → Option Tuple → Option Tuple → Prop where
  | nil : AncPath F s0 k root [] root none none
  | snoc0 {rs : List Nat} {p : Nat} {lo hi : Option Tuple} {ip : BPlusTreeInternalPage}
      {e0 : InternalKV} {rest : List InternalKV} :
      AncPath F s0 k root rs p lo hi →
      storeGet s0 p = some (.internal ip) →
      ip.array = e0 :: rest →
      goodAt F s0 p lo hi = true →
      ip.look_up k = e0.2 →
      (∀ e ∈ rest, tupleLt k e.1 = true) →
      AncPath F s0 k root (rs ++ [p]) e0.2 lo (headKeyOr hi rest)
  | snocS {rs : List Nat} {p : Nat} {lo hi : Option Tuple} {ip : BPlusTreeInternalPage}
      {e0 : InternalKV} {A B : List InternalKV} {t : Tuple} {c : Nat} :
      AncPath F s0 k root rs p lo hi →
      storeGet s0 p = some (.internal ip) →
      ip.array = e0 :: (A ++ (t, c) :: B) →
      goodAt F s0 p lo hi = true →
      ip.look_up k = c →
      tupleLe t k = true →
      (∀ e ∈ B, tupleLt k e.1 = true) →
      AncPath F s0 k root (rs ++ [p]) c (some t) (headKeyOr hi B)

theorem anc_k_bounds {F : Nat} {s0 : PageStore} {k : Tuple} {root : Nat} :
    ∀ {rs : List Nat} {curr : Nat} {lo hi : Option Tuple},
    AncPath F s0 k root rs curr lo hi → loLe lo k = true ∧ ltHi k hi = true := by
  intro rs curr lo hi h
  induction h with
  | nil => exact ⟨rfl, rfl⟩
  | snoc0 hanc hp harr hgood hlook hrest ih =>
      refine ⟨ih.1, ?_⟩
      rename_i rest2
      cases rest2 with
      | nil => exact ih.2
      | cons e1 rest3 => exact hrest e1 (List.mem_cons_self _ _)
  | snocS hanc hp harr hgood hlook ht hB ih =>
      refine ⟨ht, ?_⟩
      rename_i B2 t2 c2
      cases B2 with
      | nil => exact ih.2
      | cons e1 B3 => exact hB e1 (List.mem_cons_self _ _)

theorem anc_curr_good {F : Nat} {s0 : PageStore} {k : Tuple} {root : Nat}
    {rs : List Nat} {curr : Nat} {lo hi : Option Tuple}
    (h : AncPath F s0 k root rs curr lo hi)
    (hroot : goodAt F s0 root none none = true) :
    goodAt F s0 curr lo hi = true := by
  cases h with
  | nil => exact hroot
  | snoc0 hanc hp harr hgood hlook hrest =>
      cases F with
      | zero => exact (nomatch hgood)
      | succ n =>
          rw [goodAt_succ, hp] at hgood
          simp only [goodPg, goodPgF, Bool.and_eq_true] at hgood
          have h2 := hgood.2
          rw [harr] at h2
          simp only [Bool.and_eq_true] at h2
          exact goodAt_le (Nat.le_succ n) (gk_child0 h2.2)
  | snocS hanc hp harr hgood hlook ht hB =>
      cases F with
      | zero => exact (nomatch hgood)
      | succ n =>
          rw [goodAt_succ, hp] at hgood
          simp only [goodPg, goodPgF, Bool.and_eq_true] at hgood
          have h2 := hgood.2
          rw [harr] at h2
          simp only [Bool.and_eq_true] at h2
          exact goodAt_le (Nat.le_succ n) (gk_child_split h2.2)

theorem kp_mem_inv {g : Nat → Option (List Nat)} :
    ∀ {l Q : List Nat}, kidsPids g l = some Q → ∀ q ∈ Q,
      ∃ c ∈ l, ∃ Qc, g c = some Qc ∧ (q = c ∨ q ∈ Qc) := by
  intro l
  induction l with
  | nil =>
      intro Q h q hq
      injection h with h2
      rw [← h2] at hq
      exact (nomatch hq)
  | cons c1 cs ih =>
      intro Q h q hq
      simp only [kidsPids] at h
      split at h
      · rename_i q1 q2 hq1 hq2
        injection h with h2
        rw [← h2] at hq
        rcases List.mem_cons.mp hq with h3 | h3
        · exact ⟨c1, List.mem_cons_self _ _, q1, hq1, Or.inl h3⟩
        · rcases List.mem_append.mp h3 with h4 | h4
          · exact ⟨c1, List.mem_cons_self _ _, q1, hq1, Or.inr h4⟩
          · rcases ih hq2 q h4 with ⟨c, hc, Qc, hgc, hor⟩
            exact ⟨c, List.mem_cons_of_mem _ hc, Qc, hgc, hor⟩
      · exact (nomatch h)

theorem pidsAt_storeGet {store : PageStore} {f : Nat} {pid : Nat} {Q : List Nat}
    (h : pidsAt f store pid = some Q) : ∃ pg, storeGet store pid = some pg := by
  cases f with
  | zero => exact (nomatch h)
  | succ n =>
      rw [pidsAt_succ] at h
      split at h
      · exact (nomatch h)
      · rename_i pg hget
        exact ⟨pg, hget⟩

theorem pids_exist {store : PageStore} :
    ∀ {f : Nat} {pid : Nat} {Q : List Nat}, pidsAt f store pid = some Q →
    ∀ q ∈ Q, ∃ pg, storeGet store q = some pg := by
  intro f
  induction f with
  | zero => intro pid Q h q hq; exact (nomatch h)
  | succ n ih =>
      intro pid Q h q hq
      rw [pidsAt_succ] at h
      split at h
      · exact (nomatch h)
      · rename_i pg hget
        cases pg with
        | leaf lp =>
            injection h with h2
            rw [← h2] at hq
            exact (nomatch hq)
        | internal ip =>
            simp only [pidsPg, pidsPgF] at h
            rcases kp_mem_inv h q hq with ⟨c, hc, Qc, hgc, hor⟩
            rcases hor with h3 | h3
            · exact h3 ▸ pidsAt_storeGet hgc
            · exact ih hgc q h3

theorem kp_nodup_mem {g : Nat → Option (List Nat)} :
    ∀ {l : List Nat} {Q : List Nat}, kidsPids g l = some Q → Q.Nodup →
    ∀ c ∈ l, ∃ Qc, g c = some Qc ∧ (c :: Qc).Nodup := by
  intro l
  induction l with
  | nil => intro Q h hnd c hc; exact (nomatch hc)
  | cons c1 cs ih =>
      intro Q h hnd c hc
      simp only [kidsPids] at h
      split at h
      · rename_i q1 q2 hq1 hq2
        injection h with h2
        rw [← h2] at hnd
        rcases List.mem_cons.mp hc with h3 | h3
        · refine ⟨q1, h3 ▸ hq1, ?_⟩
          have hsub : (c1 :: q1).Sublist (c1 :: (q1 ++ q2)) :=
            List.Sublist.cons₂ c1 (List.sublist_append_left q1 q2)
          exact h3 ▸ hnd.sublist hsub
        · refine ih hq2 ?_ c h3
          have hsub : q2.Sublist (c1 :: (q1 ++ q2)) :=
            List.Sublist.cons c1 (List.sublist_append_right q1 q2)
          exact hnd.sublist hsub
      · exact (nomatch h)


theorem anc_pids {F : Nat} {s0 : PageStore} {k : Tuple} {root : Nat}
    {P0 : List Nat} (hroot : pidsAt F s0 root = some P0)
    (hnd : (root :: P0).Nodup) :
    ∀ {rs : List Nat} {curr : Nat} {lo hi : Option Tuple},
    AncPath F s0 k root rs curr lo hi →
    ∃ Qc, pidsAt F s0 curr = some Qc ∧ (curr :: Qc).Nodup ∧
      (∀ q ∈ curr :: Qc, q ∈ root :: P0) ∧
      (∀ p ∈ rs, p ∈ root :: P0 ∧ p ∉ curr :: Qc) := by
  intro rs curr lo hi h
  induction h with
  | nil => exact ⟨P0, hroot, hnd, fun q hq => hq, fun p hp => (nomatch hp)⟩
  | snoc0 hanc hp harr hgood hlook hrest ih =>
      rename_i rs2 p lo2 hi2 ip e0 rest2
      rcases ih with ⟨Qp, hQp, hndp, hsubp, hrs⟩
      cases F with
      | zero => exact (nomatch hQp)
      | succ n =>
          rw [pidsAt_succ, hp] at hQp
          simp only [pidsPg, pidsPgF] at hQp
          have hcm : e0.2 ∈ ip.array.map (fun e => e.2) := by
            rw [harr]
            exact List.mem_map.mpr ⟨e0, List.mem_cons_self _ _, rfl⟩
          rcases kp_mem hQp e0.2 hcm with ⟨Qc, hgc, hsub⟩
          have hndQp : Qp.Nodup := (List.nodup_cons.mp hndp).2
          rcases kp_nodup_mem hQp hndQp e0.2 hcm with ⟨Qc2, hgc2, hndc⟩
          rw [hgc2] at hgc
          injection hgc with hgceq
          rw [hgceq] at hgc2 hndc
          refine ⟨Qc, pidsAt_le (Nat.le_succ n) hgc2, hndc, ?_, ?_⟩
          · intro q hq
            exact hsubp q (List.mem_cons_of_mem _ (hsub q hq))
          · intro q hq
            rcases List.mem_append.mp hq with hq2 | hq2
            · rcases hrs q hq2 with ⟨h1, h2⟩
              refine ⟨h1, ?_⟩
              intro h3
              exact h2 (List.mem_cons_of_mem _ (hsub q h3))
            · have hqp : q = p := by simpa using hq2
              subst hqp
              refine ⟨hsubp q (List.mem_cons_self _ _), ?_⟩
              intro h3
              exact (List.nodup_cons.mp hndp).1 (hsub q h3)
  | snocS hanc hp harr hgood hlook ht hB ih =>
      rename_i rs2 p lo2 hi2 ip e0 A B t c
      rcases ih with ⟨Qp, hQp, hndp, hsubp, hrs⟩
      cases F with
      | zero => exact (nomatch hQp)
      | succ n =>
          rw [pidsAt_succ, hp] at hQp
          simp only [pidsPg, pidsPgF] at hQp
          have hcm : c ∈ ip.array.map (fun e => e.2) := by
            rw [harr]
            refine List.mem_map.mpr ⟨(t, c), ?_, rfl⟩
            exact List.mem_cons_of_mem _ (List.mem_append_right A (List.mem_cons_self _ B))
          rcases kp_mem hQp c hcm with ⟨Qc, hgc, hsub⟩
          have hndQp : Qp.Nodup := (List.nodup_cons.mp hndp).2
          rcases kp_nodup_mem hQp hndQp c hcm with ⟨Qc2, hgc2, hndc⟩
          rw [hgc2] at hgc
          injection hgc with hgceq
          rw [hgceq] at hgc2 hndc
          refine ⟨Qc, pidsAt_le (Nat.le_succ n) hgc2, hndc, ?_, ?_⟩
          · intro q hq
            exact hsubp q (List.mem_cons_of_mem _ (hsub q hq))
          · intro q hq
            rcases List.mem_append.mp hq with hq2 | hq2
            · rcases hrs q hq2 with ⟨h1, h2⟩
              refine ⟨h1, ?_⟩
              intro h3
              exact h2 (List.mem_cons_of_mem _ (hsub q h3))
            · have hqp : q = p := by simpa using hq2
              subst hqp
              refine ⟨hsubp q (List.mem_cons_self _ _), ?_⟩
              intro h3
              exact (List.nodup_cons.mp hndp).1 (hsub q h3)

theorem anc_route_compose {F : Nat} {s0 : PageStore} {k : Tuple} {root : Nat}
    {S2 : PageStore} :
    ∀ {rs : List Nat} {curr : Nat} {lo hi : Option Tuple},
    AncPath F s0 k root rs curr lo hi →
    (∀ p ∈ rs, storeGet S2 p = storeGet s0 p) →
    ∀ {f : Nat} {x : Nat × BPlusTreeLeafPage},
    routeAt f S2 curr k = some x →
    ∃ f2, routeAt f2 S2 root k = some x := by
  intro rs curr lo hi h
  induction h with
  | nil =>
      intro hag f x h2
      exact ⟨f, h2⟩
  | snoc0 hanc hp harr hgood hlook hrest ih =>
      rename_i rs2 p lo2 hi2 ip e0 rest2
      intro hag f x h2
      have hstep : routeAt (f + 1) S2 p k = some x := by
        rw [routeAt_succ]
        rw [hag p (List.mem_append_right _ (List.mem_singleton.mpr rfl)), hp]
        show routeAt f S2 (ip.look_up k) k = some x
        rw [hlook]
        exact h2
      exact ih (fun q hq => hag q (List.mem_append_left _ hq)) hstep
  | snocS hanc hp harr hgood hlook ht hB ih =>
      rename_i rs2 p lo2 hi2 ip e0 A B t c
      intro hag f x h2
      have hstep : routeAt (f + 1) S2 p k = some x := by
        rw [routeAt_succ]
        rw [hag p (List.mem_append_right _ (List.mem_singleton.mpr rfl)), hp]
        show routeAt f S2 (ip.look_up k) k = some x
        rw [hlook]
        exact h2
      exact ih (fun q hq => hag q (List.mem_append_left _ hq)) hstep


theorem findLoop_anc {F : Nat} {s0 : PageStore} {k : Tuple} {root : Nat} :
    ∀ (f : Nat) (pid : Nat) (page : BPlusTreePage) (acc : List Nat) (L : Nat)
      (rs : List Nat) (lo hi : Option Tuple),
    findLeafPageLoop f s0 pid page acc k = some (L, rs) →
    storeGet s0 pid = some page →
    goodAt F s0 pid lo hi = true →
    AncPath F s0 k root acc pid lo hi →
    ∃ loL hiL lp, AncPath F s0 k root rs L loL hiL ∧
      storeGet s0 L = some (.leaf lp) ∧ goodAt F s0 L loL hiL = true := by
  intro f
  induction f with
  | zero => intro pid page acc L rs lo hi h hget hgood hanc; exact (nomatch h)
  | succ n ih =>
      intro pid page acc L rs lo hi h hget hgood hanc
      cases page with
      | leaf lp =>
          simp only [findLeafPageLoop] at h
          injection h with h2
          injection h2 with h3 h4
          subst h3
          subst h4
          exact ⟨lo, hi, lp, hanc, hget, hgood⟩
      | internal ip =>
          simp only [findLeafPageLoop] at h
          split at h
          · exact (nomatch h)
          · rename_i np hnp
            cases F with
            | zero => exact (nomatch hgood)
            | succ m =>
                have hgood2 := hgood
                rw [goodAt_succ, hget] at hgood2
                simp only [goodPg, goodPgF, Bool.and_eq_true] at hgood2
                have h2 := hgood2.2
                match harr : ip.array with
                | [] => rw [harr] at h2; exact (nomatch h2)
                | e0 :: rest =>
                    rw [harr] at h2
                    simp only [Bool.and_eq_true] at h2
                    rcases look_up_inverse harr (rfl :
                        ip.look_up k = ip.look_up k) with ⟨hc, hrest⟩ | ⟨A, t, B, hsp, ht, hB⟩
                    · have hanc2 : AncPath (m + 1) s0 k root (acc ++ [pid]) (ip.look_up k) lo
                          (headKeyOr hi rest) := by
                        rw [hc]
                        exact AncPath.snoc0 hanc hget harr hgood (hc ▸ rfl) hrest
                      have hcg : goodAt (m + 1) s0 (ip.look_up k) lo
                          (headKeyOr hi rest) = true := by
                        rw [hc]
                        exact goodAt_le (Nat.le_succ m) (gk_child0 h2.2)
                      rw [hc] at hnp
                      exact ih (ip.look_up k) np (acc ++ [pid]) L rs lo
                        (headKeyOr hi rest) (hc ▸ h) (hc ▸ hnp) (hc ▸ hcg) (hc ▸ hanc2)
                    · have hanc2 : AncPath (m + 1) s0 k root (acc ++ [pid]) (ip.look_up k)
                          (some t) (headKeyOr hi B) := by
                        exact AncPath.snocS hanc hget (by rw [harr, hsp]) hgood rfl ht hB
                      have hcg : goodAt (m + 1) s0 (ip.look_up k) (some t)
                          (headKeyOr hi B) = true := by
                        refine goodAt_le (Nat.le_succ m) ?_
                        have h3 : goodKids (fun c lo2 hi2 => goodAt m s0 c lo2 hi2) e0.2
                            (A ++ (t, ip.look_up k) :: B) lo hi = true := by
                          rw [← hsp]
                          exact h2.2
                        exact gk_child_split h3
                      exact ih (ip.look_up k) np (acc ++ [pid]) L rs (some t)
                        (headKeyOr hi B) h hnp hcg hanc2

theorem find_leaf_page_anc {F f : Nat} {s : TreeState} {k : Tuple} {L : Nat}
    {rs : List Nat} (h : find_leaf_page f s k = some (some (L, rs)))
    (hgood : goodAt F s.store s.root_page_id none none = true) :
    ∃ loL hiL lp, AncPath F s.store k s.root_page_id rs L loL hiL ∧
      storeGet s.store L = some (.leaf lp) ∧ goodAt F s.store L loL hiL = true ∧
      loLe loL k = true ∧ ltHi k hiL = true := by
  unfold find_leaf_page at h
  split at h
  · injection h with h2
    exact (nomatch h2)
  · split at h
    · exact (nomatch h)
    · rename_i p hget
      match hres : findLeafPageLoop f s.store s.root_page_id p [] k with
      | none => rw [hres] at h; exact (nomatch h)
      | some (L2, rs2) =>
          rw [hres] at h
          injection h with h2
          injection h2 with h3
          injection h3 with h4 h5
          rw [h4, h5] at hres
          rcases findLoop_anc f s.root_page_id p [] L rs none none hres hget hgood
            AncPath.nil with ⟨loL, hiL, lp, hanc, hgetL, hgoodL⟩
          rcases anc_k_bounds hanc with ⟨hk1, hk2⟩
          exact ⟨loL, hiL, lp, hanc, hgetL, hgoodL, hk1, hk2⟩


theorem find?_unique_key {β : Type} {k : Tuple} {e : Tuple × β} :
    ∀ {l : List (Tuple × β)},
    List.Pairwise (fun a b : Tuple × β => tupleLt a.1 b.1 = true) l →
    e ∈ l → e.1 = k →
    l.find? (fun x => decide (x.1 = k)) = some e := by
  intro l
  induction l with
  | nil => intro hpw he hk; exact (nomatch he)
  | cons x rest ih =>
      intro hpw he hk
      have hx := List.pairwise_cons.mp hpw
      by_cases hxk : x.1 = k
      · have hxe : x = e := pairwise_key_unique hpw x (List.mem_cons_self _ _) e he
          (by rw [hxk, hk])
        have hd : (decide (x.1 = k)) = true := by simpa using hxk
        simp only [List.find?, hd]
        rw [hxe]
      · rcases List.mem_cons.mp he with h2 | h2
        · exact absurd (h2 ▸ hk) hxk
        · simp only [List.find?]
          rw [show (decide (x.1 = k)) = false by simpa using hxk]
          exact ih hx.2 h2 hk

theorem pidsPg_exist {store : PageStore} {f : Nat} {pg : BPlusTreePage} {P : List Nat}
    (h : pidsPg f store pg = some P) :
    ∀ q ∈ P, ∃ pg2, storeGet store q = some pg2 := by
  intro q hq
  cases pg with
  | leaf lp =>
      simp only [pidsPg, pidsPgF] at h
      injection h with h2
      rw [← h2] at hq
      exact (nomatch hq)
  | internal ip =>
      simp only [pidsPg, pidsPgF] at h
      rcases kp_mem_inv h q hq with ⟨c, hc, Qc, hgc, hor⟩
      rcases hor with h3 | h3
      · exact h3 ▸ pidsAt_storeGet hgc
      · exact pids_exist hgc q h3

theorem gk_suffix {f : Nat → Option Tuple → Option Tuple → Bool} {e : InternalKV}
    {B : List InternalKV} {hi : Option Tuple} :
    ∀ {A : List InternalKV} {c0 : Nat} {lo : Option Tuple},
    goodKids f c0 (A ++ e :: B) lo hi = true →
    goodKids f e.2 B (some e.1) hi = true := by
  intro A
  induction A with
  | nil =>
      intro c0 lo h
      simp only [List.nil_append, goodKids, Bool.and_eq_true] at h
      exact h.2
  | cons a A2 ih =>
      intro c0 lo h
      simp only [List.cons_append, goodKids, Bool.and_eq_true] at h
      exact ih h.2

theorem gk_prefix {f f2 : Nat → Option Tuple → Option Tuple → Bool} {th sep : Tuple}
    {e : InternalKV} {RD : List InternalKV} {hi : Option Tuple}
    (hth : tupleLe th sep = true) (hesep : e.1 = th) :
    ∀ {RT : List InternalKV} {c0 : Nat} {lo : Option Tuple},
    (∀ c ∈ c0 :: RT.map (fun x => x.2), ∀ lo2,
      f c lo2 (some th) = true → f2 c lo2 (some sep) = true) →
    (∀ c ∈ c0 :: RT.map (fun x => x.2), ∀ lo2 hi2,
      f c lo2 hi2 = true → f2 c lo2 hi2 = true) →
    goodKids f c0 (RT ++ e :: RD) lo hi = true →
    goodKids f2 c0 RT lo (some sep) = true := by
  intro RT
  induction RT with
  | nil =>
      intro c0 lo hlast hcong h
      simp only [List.nil_append, goodKids, Bool.and_eq_true] at h
      refine hlast c0 (List.mem_cons_self _ _) lo ?_
      rw [← hesep]
      exact h.1.2
  | cons a RT2 ih =>
      intro c0 lo hlast hcong h
      simp only [List.cons_append, goodKids, Bool.and_eq_true] at h ⊢
      have hres : goodKids f a.2 (RT2 ++ (e.1, e.2) :: RD) (some a.1) hi = true := by
        simpa using h.2
      have hord := gk_split_order hres
      have hat : tupleLt a.1 th = true := hesep ▸ hord.2.1
      have hsub : ∀ c ∈ a.2 :: RT2.map (fun x => x.2),
          c ∈ c0 :: (a :: RT2).map (fun x => x.2) := by
        intro c hc
        rcases List.mem_cons.mp hc with hc2 | hc2
        · simp [hc2]
        · simp only [List.map_cons, List.mem_cons]
          exact Or.inr (Or.inr (by simpa using hc2))
      refine ⟨⟨⟨h.1.1.1, tupleLt_le_trans hat hth⟩,
        hcong c0 (List.mem_cons_self _ _) lo (some a.1) h.1.2⟩, ?_⟩
      exact ih (fun c hc => hlast c (hsub c hc)) (fun c hc => hcong c (hsub c hc)) h.2


theorem leafSplitFacts {lp : BPlusTreeLeafPage} {k : Tuple} {r : RecordId}
    {lo hi : Option Tuple}
    (hgood : leafGood lp lo hi = true) (hlk : lp.look_up k = some r)
    (hfull : lp.current_size > lp.max_size) :
    ∃ d0 D2, lp.array.drop (lp.current_size / 2) = d0 :: D2 ∧
      List.Pairwise (fun a b : LeafKV => tupleLt b.1 a.1 = false)
        (lp.array.drop (lp.current_size / 2)) ∧
      List.Pairwise (fun a b : LeafKV => tupleLt a.1 b.1 = true)
        (lp.array.take (lp.current_size / 2)) ∧
      List.Pairwise (fun a b : LeafKV => tupleLt a.1 b.1 = true)
        (lp.array.drop (lp.current_size / 2)) ∧
      loLt lo d0.1 = true ∧ ltHi d0.1 hi = true ∧
      (∀ e ∈ lp.array.take (lp.current_size / 2),
        loLe lo e.1 = true ∧ tupleLt e.1 d0.1 = true) ∧
      (∀ e ∈ lp.array.drop (lp.current_size / 2),
        tupleLe d0.1 e.1 = true ∧ ltHi e.1 hi = true) ∧
      ((tupleLt k d0.1 = true ∧
          (lp.array.take (lp.current_size / 2)).find? (fun x => decide (x.1 = k)) =
            some (k, r)) ∨
        (tupleLe d0.1 k = true ∧
          (lp.array.drop (lp.current_size / 2)).find? (fun x => decide (x.1 = k)) =
            some (k, r))) := by
  simp only [leafGood, Bool.and_eq_true, decide_eq_true_eq, List.all_eq_true] at hgood
  rcases hgood with ⟨⟨hmax, hpw⟩, hall⟩
  have hlen : 2 ≤ lp.array.length := by
    have := hfull
    simp only [BPlusTreeLeafPage.current_size] at this ⊢
    omega
  have hsz : lp.current_size = lp.array.length := rfl
  have hh1 : 1 ≤ lp.current_size / 2 := by rw [hsz]; omega
  have hhlt : lp.current_size / 2 < lp.array.length := by rw [hsz]; omega
  have hTD := List.take_append_drop (lp.current_size / 2) lp.array
  have hlenD : 0 < (lp.array.drop (lp.current_size / 2)).length := by
    rw [List.length_drop]
    omega
  have hlenT : 0 < (lp.array.take (lp.current_size / 2)).length := by
    rw [List.length_take]
    omega
  match hD : lp.array.drop (lp.current_size / 2) with
  | [] => rw [hD] at hlenD; exact (nomatch hlenD)
  | d0 :: D2 =>
      match hT : lp.array.take (lp.current_size / 2) with
      | [] => rw [hT] at hlenT; exact (nomatch hlenT)
      | t0 :: T2 =>
          have hpw2 : List.Pairwise (fun a b : LeafKV => tupleLt a.1 b.1 = true)
              ((t0 :: T2) ++ (d0 :: D2)) := by
            rw [← hT, ← hD, hTD]
            exact hpw
          rcases List.pairwise_append.mp hpw2 with ⟨pwT, pwD, cross⟩
          have hmemT : ∀ e ∈ t0 :: T2, e ∈ lp.array := by
            intro e he
            rw [← hTD, hT]
            exact List.mem_append_left _ he
          have hmemD : ∀ e ∈ d0 :: D2, e ∈ lp.array := by
            intro e he
            rw [← hTD, hD]
            exact List.mem_append_right _ he
          have hd0 := hall d0 (hmemD d0 (List.mem_cons_self _ _))
          have hTfacts : ∀ e ∈ t0 :: T2, loLe lo e.1 = true ∧ tupleLt e.1 d0.1 = true := by
            intro e he
            exact ⟨(hall e (hmemT e he)).1, cross e he d0 (List.mem_cons_self _ _)⟩
          have hDfacts : ∀ e ∈ d0 :: D2, tupleLe d0.1 e.1 = true ∧ ltHi e.1 hi = true := by
            intro e he
            refine ⟨?_, (hall e (hmemD e he)).2⟩
            rcases List.mem_cons.mp he with h2 | h2
            · rw [h2]
              exact tupleLe_refl _
            · exact tupleLe_of_lt ((List.pairwise_cons.mp pwD).1 e h2)
          have hlolt : loLt lo d0.1 = true :=
            loLt_of_loLe_lt (hTfacts t0 (List.mem_cons_self _ _)).1
              (hTfacts t0 (List.mem_cons_self _ _)).2
          rcases leaf_look_up_some hlk with ⟨e, hemem, hek, her⟩
          have hkr : (k, r) ∈ lp.array := by
            have he2 : e = (k, r) := by
              obtain ⟨e1, e2⟩ := e
              simp only at hek her
              rw [hek, her]
            rw [← he2]
            exact hemem
          have hsplitmem : (k, r) ∈ (t0 :: T2) ++ (d0 :: D2) := by
            rw [← hTD, hT, hD] at hkr
            exact hkr
          refine ⟨d0, D2, rfl, ?_, pwT, pwD, hlolt, hd0.2, hTfacts, hDfacts, ?_⟩
          · refine pwD.imp ?_
            intro a b hab
            exact tupleLt_asymm hab
          · cases hck : tupleLt k d0.1
            · refine Or.inr ⟨by simp [tupleLe, hck], ?_⟩
              have hmem2 : (k, r) ∈ d0 :: D2 := by
                rcases List.mem_append.mp hsplitmem with h2 | h2
                · exfalso
                  have := (hTfacts (k, r) h2).2
                  simp only at this
                  rw [this] at hck
                  exact (nomatch hck)
                · exact h2
              exact find?_unique_key pwD hmem2 rfl
            · refine Or.inl ⟨rfl, ?_⟩
              have hmem2 : (k, r) ∈ t0 :: T2 := by
                rcases List.mem_append.mp hsplitmem with h2 | h2
                · exact h2
                · exfalso
                  have hle := (hDfacts (k, r) h2).1
                  simp only at hle
                  have := tupleLe_lt_trans hle hck
                  rw [tupleLt_irrefl] at this
                  exact (nomatch this)
              exact find?_unique_key pwT hmem2 rfl


theorem gk_pairwise {f : Nat → Option Tuple → Option Tuple → Bool} :
    ∀ {rest : List InternalKV} {c0 : Nat} {lo hi : Option Tuple},
    goodKids f c0 rest lo hi = true →
    List.Pairwise (fun a b : InternalKV => tupleLt a.1 b.1 = true) rest := by
  intro rest
  induction rest with
  | nil => intro c0 lo hi h; exact List.Pairwise.nil
  | cons e1 rest2 ih =>
      intro c0 lo hi h
      simp only [goodKids, Bool.and_eq_true] at h
      refine List.pairwise_cons.mpr ⟨?_, ih h.2⟩
      intro e he
      exact (gk_key_facts h.2 e he).1


theorem headKeyOr_of_head {hi : Option Tuple} {rest : List InternalKV} {e : InternalKV}
    (h : rest.head? = some e) : headKeyOr hi rest = some e.1 := by
  cases rest with
  | nil => exact (nomatch h)
  | cons x r2 =>
      injection h with h2
      rw [h2]
      rfl

theorem gk_replace_head {f f2 : Nat → Option Tuple → Option Tuple → Bool}
    {rest : List InternalKV} {c0 c1 : Nat} {lo lo2 hi : Option Tuple}
    (h : goodKids f c0 rest lo hi = true)
    (hcong : ∀ c ∈ rest.map (fun x => x.2), ∀ a b, f c a b = true → f2 c a b = true)
    (hraise : f2 c1 lo2 (headKeyOr hi rest) = true)
    (hlo2 : ∀ e, rest.head? = some e → loLt lo2 e.1 = true) :
    goodKids f2 c1 rest lo2 hi = true := by
  cases rest with
  | nil => exact hraise
  | cons e r2 =>
      simp only [goodKids, Bool.and_eq_true] at h ⊢
      refine ⟨⟨⟨hlo2 e rfl, h.1.1.2⟩, hraise⟩, ?_⟩
      refine gk_mono ?_ h.2
      intro c hc a b hf
      refine hcong c ?_ a b hf
      simpa using hc

theorem internalSplitFacts {idx : BPlusTreeIndex} {fuel : Nat} {s : TreeState}
    {ip2 : BPlusTreeInternalPage} {k : Tuple} {r : RecordId} {lo hi : Option Tuple}
    {G Fp f0 : Nat} {P : List Nat} {lam : Nat} {lpl : BPlusTreeLeafPage}
    {s1 : TreeState} {csp : BPlusTreePage} {ikv : InternalKV}
    (hsplit : split fuel idx s (.internal ip2) = some (s1, csp, ikv))
    (hgood : goodPg G s.store (.internal ip2) lo hi = true)
    (hpids : pidsPg Fp s.store (.internal ip2) = some P)
    (hroute : routeAt f0 s.store (ip2.look_up k) k = some (lam, lpl))
    (hlkr : lpl.look_up k = some r)
    (hfull : ip2.current_size > ip2.max_size)
    (hfresh : ∀ q ∈ P, q < s.next_page)
    (hmaxI : 1 ≤ idx.internal_max_size) :
    ∃ e0 RT e1 RD2 sep,
      ip2.array = (e0 :: RT) ++ e1 :: RD2 ∧
      s1 = { s with
          next_page := s.next_page + 1,
          store := storeSet s.store s.next_page
            (.internal { max_size := idx.internal_max_size, array := e1 :: RD2 }) } ∧
      csp = .internal { ip2 with array := e0 :: RT } ∧
      ikv = (sep, s.next_page) ∧
      loLt lo sep = true ∧ ltHi sep hi = true ∧
      goodPg G s1.store (.internal { ip2 with array := e0 :: RT }) lo (some sep) = true ∧
      goodPg G s1.store
        (.internal { max_size := idx.internal_max_size, array := e1 :: RD2 })
        (some sep) hi = true ∧
      ((tupleLt k sep = true ∧ ∃ f2, routeAt f2 s1.store
          (BPlusTreeInternalPage.look_up { ip2 with array := e0 :: RT } k) k =
            some (lam, lpl)) ∨
        (tupleLe sep k = true ∧ ∃ f2, routeAt f2 s1.store
          (BPlusTreeInternalPage.look_up
            { max_size := idx.internal_max_size, array := e1 :: RD2 } k) k =
            some (lam, lpl))) := by
  have hgood2 := hgood
  simp only [goodPg, goodPgF, Bool.and_eq_true, decide_eq_true_eq] at hgood2
  rcases hgood2 with ⟨hmax2, h2⟩
  match harr : ip2.array with
  | [] => rw [harr] at h2; exact (nomatch h2)
  | e0 :: rest =>
      rw [harr] at h2
      simp only [Bool.and_eq_true] at h2
      rcases h2 with ⟨he0, hgk⟩
      have hlen : 2 ≤ ip2.array.length := by
        have h3 := hfull
        simp only [BPlusTreeInternalPage.current_size] at h3
        omega
      have hsz : ip2.current_size = ip2.array.length := rfl
      have hh1 : 1 ≤ ip2.current_size / 2 := by rw [hsz]; omega
      have hhlt : ip2.current_size / 2 < ip2.array.length := by rw [hsz]; omega
      have hm : ip2.current_size / 2 = (ip2.current_size / 2 - 1) + 1 :=
        (Nat.succ_pred_eq_of_pos hh1).symm
      have hrlen : rest.length = ip2.array.length - 1 := by rw [harr]; rfl
      have hTeq : ip2.array.take (ip2.current_size / 2) =
          e0 :: rest.take (ip2.current_size / 2 - 1) := by
        rw [harr, hm, List.take_succ_cons, Nat.add_sub_cancel]
      have hDeq : ip2.array.drop (ip2.current_size / 2) =
          rest.drop (ip2.current_size / 2 - 1) := by
        rw [harr, hm, List.drop_succ_cons, Nat.add_sub_cancel]
      have hlenRD : 0 < (rest.drop (ip2.current_size / 2 - 1)).length := by
        rw [List.length_drop]
        omega
      have hrestTD := List.take_append_drop (ip2.current_size / 2 - 1) rest
      match hRD : rest.drop (ip2.current_size / 2 - 1) with
      | [] => rw [hRD] at hlenRD; exact (nomatch hlenRD)
      | e1 :: RD2 =>
          have hrestsp : rest = rest.take (ip2.current_size / 2 - 1) ++ e1 :: RD2 := by
            rw [← hRD, hrestTD]
          have hpwrest : List.Pairwise (fun a b : InternalKV => tupleLt a.1 b.1 = true)
              rest := gk_pairwise hgk
          have hpwle : List.Pairwise (fun a b : InternalKV => tupleLt b.1 a.1 = false)
              (ip2.array.drop (ip2.current_size / 2)) := by
            rw [hDeq]
            refine List.Pairwise.imp ?_ (hpwrest.sublist (List.drop_sublist _ _))
            intro a b hab
            exact tupleLt_asymm hab
          have hni : BPlusTreeInternalPage.batch_insert
              { max_size := idx.internal_max_size, array := [] }
              (ip2.array.drop (ip2.current_size / 2)) =
              { max_size := idx.internal_max_size,
                array := ip2.array.drop (ip2.current_size / 2) } := by
            unfold BPlusTreeInternalPage.batch_insert
            simp only [BPlusTreeInternalPage.mk.injEq, true_and]
            rw [foldl_kvInsert_sorted _ [] (by simp) hpwle]
            simp
          simp only [split, newPage, BPlusTreeInternalPage.split_off, hni] at hsplit
          rw [hDeq, hRD] at hsplit
          split at hsplit
          · exact (nomatch hsplit)
          · rename_i mlk hmlk
            injection hsplit with hsp1
            injection hsp1 with hseq hsp2
            injection hsp2 with hcspeq hikveq
            subst hseq
            subst hcspeq
            subst hikveq
            rw [hrestsp] at hgk
            have hmemC : ∀ c2 ∈ e0.2 :: (rest.take (ip2.current_size / 2 - 1)).map
                (fun x => x.2) ++ (e1.2 :: RD2.map (fun x => x.2)),
                c2 ∈ ip2.array.map (fun x => x.2) := by
              intro c2 hc2
              rw [harr, hrestsp]
              simp only [List.map_cons, List.map_append, List.cons_append,
                List.mem_cons, List.mem_append] at hc2 ⊢
              tauto
            have hchild : ∀ c2 ∈ ip2.array.map (fun x => x.2),
                ∃ Qc, pidsAt Fp s.store c2 = some Qc ∧ ∀ q ∈ c2 :: Qc, q ∈ P := by
              intro c2 hc2
              have hpids2 := hpids
              simp only [pidsPg, pidsPgF] at hpids2
              rcases kp_mem hpids2 c2 hc2 with ⟨Qc, hQc, hsub⟩
              exact ⟨Qc, hQc, hsub⟩
            have htrans : ∀ c2 ∈ ip2.array.map (fun x => x.2), ∀ lo2 hi2,
                goodAt G s.store c2 lo2 hi2 = true →
                goodAt G (storeSet s.store s.next_page (BPlusTreePage.internal { max_size := idx.internal_max_size, array := e1 :: RD2 })) c2 lo2 hi2 = true := by
              intro c2 hc2 lo2 hi2 hg
              rcases hchild c2 hc2 with ⟨Qc, hQc, hsubQ⟩
              refine goodAt_congr hQc ?_ hg
              intro q hq
              have hql : q < s.next_page := hfresh q (hsubQ q hq)
              exact storeGet_storeSet_ne _ _ _ _ (by omega)
            have hch : goodAt G s.store e1.2 (some e1.1) (headKeyOr hi RD2) = true :=
              gk_child_split hgk
            have hord := gk_split_order hgk
            have he1mem : e1.2 ∈ ip2.array.map (fun x => x.2) := by
              refine hmemC e1.2 ?_
              simp
            have hchN : goodAt G (storeSet s.store s.next_page (BPlusTreePage.internal { max_size := idx.internal_max_size, array := e1 :: RD2 })) e1.2 (some e1.1) (headKeyOr hi RD2) = true :=
              htrans e1.2 he1mem _ _ hch
            unfold find_subtree_min_leafkv find_subtree_leafkv at hmlk
            rw [storeGet_storeSet_self] at hmlk
            cases fuel with
            | zero => exact (nomatch hmlk)
            | succ fu =>
                simp only [findSubtreeLeafkvLoop, if_true] at hmlk
                have hmlk2 : (match storeGet (storeSet s.store s.next_page (BPlusTreePage.internal { max_size := idx.internal_max_size, array := e1 :: RD2 })) e1.2 with
                    | none => none
                    | some np => findSubtreeLeafkvLoop fu (storeSet s.store s.next_page (BPlusTreePage.internal { max_size := idx.internal_max_size, array := e1 :: RD2 })) np true) =
                    some mlk := hmlk
                clear hmlk
                cases G with
                | zero => exact (nomatch hch)
                | succ g =>
                    have hchN2 := hchN
                    rw [goodAt_succ] at hchN2
                    match hgetch : storeGet (storeSet s.store s.next_page (BPlusTreePage.internal { max_size := idx.internal_max_size, array := e1 :: RD2 })) e1.2 with
                    | none => rw [hgetch] at hchN2; exact (nomatch hchN2)
                    | some chpg =>
                        rw [hgetch] at hchN2 hmlk2
                        rcases minRaise_loop hmlk2 hchN2 with ⟨hsep1, hsep2, hraise⟩
                        have hraiseAt : goodAt (g + 1) (storeSet s.store s.next_page (BPlusTreePage.internal { max_size := idx.internal_max_size, array := e1 :: RD2 })) e1.2 (some mlk.1)
                            (headKeyOr hi RD2) = true := by
                          rw [goodAt_succ, hgetch]
                          exact hraise
                        have hsepHi : ltHi mlk.1 hi = true := by
                          cases hrd2 : RD2 with
                          | nil =>
                              rw [hrd2] at hsep2
                              exact hsep2
                          | cons rd0 RD2b =>
                              rw [hrd2] at hsep2
                              have hmem3 : rd0 ∈ rest.take (ip2.current_size / 2 - 1) ++
                                  e1 :: RD2 := by
                                rw [hrd2]
                                exact List.mem_append_right _
                                  (List.mem_cons_of_mem _ (List.mem_cons_self _ _))
                              exact ltHi_trans_lt hsep2 (gk_key_facts hgk rd0 hmem3).2
                        have hleftGood : goodPg (g + 1) (storeSet s.store s.next_page (BPlusTreePage.internal { max_size := idx.internal_max_size, array := e1 :: RD2 }))
                            (.internal { ip2 with
                              array := e0 :: rest.take (ip2.current_size / 2 - 1) }) lo
                            (some mlk.1) = true := by
                          simp only [goodPg, goodPgF, Bool.and_eq_true, decide_eq_true_eq]
                          refine ⟨hmax2, he0, ?_⟩
                          refine gk_prefix hsep1 rfl ?_ ?_ hgk
                          · intro c2 hc2 lo2 hg
                            refine htrans c2 (hmemC c2 (by
                              simp only [List.mem_append]
                              exact Or.inl hc2)) lo2 (some mlk.1) ?_
                            refine goodAt_weaken_hi ?_ hg
                            intro x hx
                            exact tupleLt_le_trans hx hsep1
                          · intro c2 hc2 lo2 hi2 hg
                            exact htrans c2 (hmemC c2 (by
                              simp only [List.mem_append]
                              exact Or.inl hc2)) lo2 hi2 hg
                        have hmemR : ∀ c2 ∈ e1.2 :: RD2.map (fun x => x.2),
                            c2 ∈ ip2.array.map (fun x => x.2) := by
                          intro c2 hc2
                          refine hmemC c2 ?_
                          simp only [List.mem_append]
                          exact Or.inr hc2
                        have hrightGood : goodPg (g + 1) (storeSet s.store s.next_page (BPlusTreePage.internal { max_size := idx.internal_max_size, array := e1 :: RD2 }))
                            (.internal { max_size := idx.internal_max_size, array := e1 :: RD2 }) (some mlk.1) hi = true := by
                          simp only [goodPg, goodPgF, Bool.and_eq_true, decide_eq_true_eq]
                          refine ⟨hmaxI, hsep1, ?_⟩
                          refine gk_replace_head (gk_suffix hgk) ?_ hraiseAt ?_
                          · intro c2 hc2 a b hg
                            refine htrans c2 (hmemR c2 (List.mem_cons_of_mem _ hc2)) a b hg
                          · intro e he
                            rw [headKeyOr_of_head he] at hsep2
                            exact hsep2
                        refine ⟨e0, rest.take (ip2.current_size / 2 - 1), e1, RD2, mlk.1,
                          by rw [List.cons_append]; exact congrArg (fun l => e0 :: l) hrestsp,
                          rfl, by rw [hTeq], rfl,
                          loLt_trans_le hord.2.1 hsep1, hsepHi, hleftGood, hrightGood, ?_⟩
                        have hsep1b : tupleLe e1.1 mlk.1 = true := hsep1
                        have hmemLU : ip2.look_up k ∈ (e0 :: rest).map (fun e => e.2) :=
                          look_up_mem harr
                        have hmemLU2 : ip2.look_up k ∈ ip2.array.map (fun x => x.2) := by
                          rw [harr]
                          exact hmemLU
                        have hmemGK : ip2.look_up k ∈ e0.2 ::
                            (rest.take (ip2.current_size / 2 - 1) ++
                              e1 :: RD2).map (fun e => e.2) := by
                          have h6 := hmemLU
                          rw [hrestsp] at h6
                          simpa using h6
                        rcases gk_children_bounded hgk (ip2.look_up k) hmemGK with
                          ⟨lo2, hi2, hgc, hwlo, hwhi⟩
                        rcases hchild (ip2.look_up k) hmemLU2 with ⟨Qc, hQc, hsubQ⟩
                        have hrouteN : routeAt f0 (storeSet s.store s.next_page (BPlusTreePage.internal { max_size := idx.internal_max_size, array := e1 :: RD2 })) (ip2.look_up k) k =
                            some (lam, lpl) := by
                          refine routeAt_congr hroute hgc hQc ?_
                          intro q hq
                          have hql : q < s.next_page := hfresh q (hsubQ q hq)
                          exact storeGet_storeSet_ne _ _ _ _ (by omega)
                        rcases look_up_inverse harr rfl with ⟨hc0, hall⟩ |
                          ⟨A, t, B, hsp, htk, hB⟩
                        · have he1r : e1 ∈ rest := by
                            rw [hrestsp]
                            exact List.mem_append_right _ (List.mem_cons_self _ _)
                          have hke1 : tupleLt k e1.1 = true := hall e1 he1r
                          refine Or.inl ⟨tupleLt_le_trans hke1 hsep1b, f0, ?_⟩
                          have hluL : BPlusTreeInternalPage.look_up
                              { ip2 with
                                array := e0 :: rest.take (ip2.current_size / 2 - 1) } k =
                              e0.2 := by
                            refine look_up_complete0 rfl ?_
                            intro e he
                            exact hall e (List.take_subset _ _ he)
                          rw [hluL, ← hc0]
                          exact hrouteN
                        · have heq : A ++ (t, ip2.look_up k) :: B =
                              rest.take (ip2.current_size / 2 - 1) ++ e1 :: RD2 :=
                            hsp.symm.trans hrestsp
                          rcases List.append_eq_append_iff.mp heq with
                            ⟨a2, hRT2, hcons⟩ | ⟨c2, hA2, hcons⟩
                          · cases a2 with
                            | nil =>
                                simp only [List.nil_append] at hcons
                                injection hcons with h1 h2
                                have hc : ip2.look_up k = e1.2 :=
                                  congrArg Prod.snd h1
                                have hrouteN2 : routeAt f0 (storeSet s.store s.next_page (BPlusTreePage.internal { max_size := idx.internal_max_size, array := e1 :: RD2 })) e1.2 k =
                                    some (lam, lpl) := by
                                  rw [← hc]
                                  exact hrouteN
                                have hbd := routeAt_bounds hrouteN2 hraiseAt hlkr
                                refine Or.inr ⟨hbd.1, f0, ?_⟩
                                have hluR : BPlusTreeInternalPage.look_up
                                    { max_size := idx.internal_max_size,
                                      array := e1 :: RD2 } k = e1.2 := by
                                  refine look_up_complete0 rfl ?_
                                  intro e he
                                  rw [← h2] at he
                                  exact hB e he
                                rw [hluR]
                                exact hrouteN2
                            | cons x a3 =>
                                simp only [List.cons_append] at hcons
                                injection hcons with h1 h2
                                have he1B : e1 ∈ B := by
                                  rw [h2]
                                  exact List.mem_append_right _
                                    (List.mem_cons_self _ _)
                                have hke1 : tupleLt k e1.1 = true := hB e1 he1B
                                refine Or.inl ⟨tupleLt_le_trans hke1 hsep1b, f0, ?_⟩
                                have hluL : BPlusTreeInternalPage.look_up
                                    { ip2 with
                                      array := e0 ::
                                        rest.take (ip2.current_size / 2 - 1) } k =
                                    ip2.look_up k := by
                                  refine @look_up_complete _ k t
                                    (ip2.look_up k) e0 A a3 ?_ htk ?_
                                  · rw [hRT2, ← h1]
                                  · intro e he
                                    refine hB e ?_
                                    rw [h2]
                                    exact List.mem_append_left _ he
                                rw [hluL]
                                exact hrouteN
                          · cases c2 with
                            | nil =>
                                simp only [List.nil_append] at hcons
                                injection hcons with h1 h2
                                have hc : ip2.look_up k = e1.2 :=
                                  (congrArg Prod.snd h1).symm
                                have hrouteN2 : routeAt f0 (storeSet s.store s.next_page (BPlusTreePage.internal { max_size := idx.internal_max_size, array := e1 :: RD2 })) e1.2 k =
                                    some (lam, lpl) := by
                                  rw [← hc]
                                  exact hrouteN
                                have hbd := routeAt_bounds hrouteN2 hraiseAt hlkr
                                refine Or.inr ⟨hbd.1, f0, ?_⟩
                                have hluR : BPlusTreeInternalPage.look_up
                                    { max_size := idx.internal_max_size,
                                      array := e1 :: RD2 } k = e1.2 := by
                                  refine look_up_complete0 rfl ?_
                                  intro e he
                                  rw [h2] at he
                                  exact hB e he
                                rw [hluR]
                                exact hrouteN2
                            | cons y c3 =>
                                simp only [List.cons_append] at hcons
                                injection hcons with h1 h2
                                have hmlkk : tupleLe mlk.1 k = true := by
                                  cases c3 with
                                  | nil =>
                                      have hh : headKeyOr hi RD2 = some t := by
                                        rw [h2]
                                        rfl
                                      rw [hh] at hsep2
                                      exact tupleLe_of_lt
                                        (tupleLt_le_trans hsep2 htk)
                                  | cons z c4 =>
                                      have hh : headKeyOr hi RD2 = some z.1 := by
                                        rw [h2]
                                        rfl
                                      rw [hh] at hsep2
                                      have hgk3 := hgk
                                      rw [h2, ← List.cons_append,
                                        ← List.append_assoc] at hgk3
                                      have hzt : tupleLt z.1 t = true :=
                                        (gk_split_order hgk3).1 z
                                          (List.mem_append_right _
                                            (List.mem_cons_of_mem _
                                              (List.mem_cons_self _ _)))
                                      exact tupleLe_of_lt (tupleLt_le_trans
                                        (tupleLt_trans hsep2 hzt) htk)
                                refine Or.inr ⟨hmlkk, f0, ?_⟩
                                have hluR : BPlusTreeInternalPage.look_up
                                    { max_size := idx.internal_max_size,
                                      array := e1 :: RD2 } k = ip2.look_up k := by
                                  refine @look_up_complete _ k t
                                    (ip2.look_up k) e1 c3 B ?_ htk hB
                                  rw [h2]
                                rw [hluR]
                                exact hrouteN


/-! ### Rebuilding the structural invariants across an insert split

The split-and-ascend loop of `insert` rewrites one page per level and
allocates one fresh sibling; the lemmas below rebuild sortedness /
interval goodness, the subtree page-id lists and their distinctness, and
the position of the key being inserted after each such rewrite. -/

/-- The route taken from an in-memory page (not yet written back): a leaf
is itself the destination, an internal page routes through `look_up`. -/
def pageRoute (f : Nat) (store : PageStore) (pid : Nat) (pg : BPlusTreePage) (k : Tuple) :
    Option (Nat × BPlusTreeLeafPage) :=
  match pg with
  | .leaf lp => some (pid, lp)
  | .internal ip => routeAt f store (ip.look_up k) k

theorem storeGet_lt {store : PageStore} {q : Nat} {pg : BPlusTreePage} {N : Nat}
    (h : storeGet store q = some pg) (hfresh : ∀ e ∈ store, e.1 < N) : q < N := by
  unfold storeGet at h
  match hfind : store.find? (fun e => decide (e.1 = q)) with
  | none => rw [hfind] at h; exact (nomatch h)
  | some e =>
      have hmem := List.mem_of_find?_eq_some hfind
      have hkey := List.find?_some hfind
      have he : e.1 = q := by simpa using hkey
      rw [← he]
      exact hfresh e hmem

theorem pidsAt_fresh {store : PageStore} {F pid N : Nat} {Q : List Nat}
    {pgN : BPlusTreePage} (h : pidsAt F store pid = some Q)
    (hfresh : ∀ e ∈ store, e.1 < N) :
    pidsAt F (storeSet store N pgN) pid = some Q := by
  refine pidsAt_congr h ?_
  intro q hq
  have hlt : q < N := by
    rcases List.mem_cons.mp hq with h2 | h2
    · rcases pidsAt_storeGet h with ⟨pg, hg⟩
      exact h2 ▸ storeGet_lt hg hfresh
    · rcases pids_exist h q h2 with ⟨pg, hg⟩
      exact storeGet_lt hg hfresh
  exact storeGet_storeSet_ne _ _ _ _ (by omega)

theorem goodAt_fresh {store : PageStore} {G F pid N : Nat} {Q : List Nat}
    {lo hi : Option Tuple} {pgN : BPlusTreePage}
    (h : goodAt G store pid lo hi = true) (hp : pidsAt F store pid = some Q)
    (hfresh : ∀ e ∈ store, e.1 < N) :
    goodAt G (storeSet store N pgN) pid lo hi = true := by
  refine goodAt_congr hp ?_ h
  intro q hq
  have hlt : q < N := by
    rcases List.mem_cons.mp hq with h2 | h2
    · rcases pidsAt_storeGet hp with ⟨pg, hg⟩
      exact h2 ▸ storeGet_lt hg hfresh
    · rcases pids_exist hp q h2 with ⟨pg, hg⟩
      exact storeGet_lt hg hfresh
  exact storeGet_storeSet_ne _ _ _ _ (by omega)

/-- Writing a page at `pid` makes its in-memory goodness a store-rooted
goodness, provided the page's subtree does not contain `pid` itself. -/
theorem goodPg_write {store : PageStore} {pid : Nat} {pg : BPlusTreePage}
    {lo hi : Option Tuple} {G Fp : Nat} {Pc : List Nat}
    (hgood : goodPg G store pg lo hi = true)
    (hpids : pidsPg Fp store pg = some Pc)
    (hnomem : pid ∉ Pc) :
    goodAt (G + 1) (storeSet store pid pg) pid lo hi = true := by
  rw [goodAt_succ, storeGet_storeSet_self]
  cases pg with
  | leaf lp => exact hgood
  | internal ip =>
      simp only [goodPg, goodPgF, Bool.and_eq_true] at hgood ⊢
      refine ⟨hgood.1, ?_⟩
      have h2 := hgood.2
      split at h2
      · exact (nomatch h2)
      · rename_i e0 rest harr
        simp only [Bool.and_eq_true] at h2 ⊢
        refine ⟨h2.1, ?_⟩
        refine gk_mono ?_ h2.2
        intro c hc lo2 hi2 hg
        simp only [pidsPg, pidsPgF] at hpids
        have hc2 : c ∈ ip.array.map (fun e => e.2) := by
          rw [harr]
          simpa using hc
        rcases kp_mem hpids c hc2 with ⟨Qc, hgc, hsub⟩
        refine goodAt_congr hgc ?_ hg
        intro q hq
        have hqP : q ∈ Pc := hsub q hq
        have hne : q ≠ pid := fun he => hnomem (he ▸ hqP)
        exact storeGet_storeSet_ne _ _ _ _ hne

theorem pidsPg_write {store : PageStore} {pid : Nat} {pg : BPlusTreePage}
    {Fp : Nat} {Pc : List Nat}
    (hpids : pidsPg Fp store pg = some Pc)
    (hnomem : pid ∉ Pc) :
    pidsAt (Fp + 1) (storeSet store pid pg) pid = some Pc := by
  rw [pidsAt_succ, storeGet_storeSet_self]
  cases pg with
  | leaf lp => exact hpids
  | internal ip =>
      simp only [pidsPg, pidsPgF] at hpids ⊢
      refine kp_mono ?_ hpids
      intro c hc Qc hg
      rcases kp_mem hpids c hc with ⟨Qc2, hg2, hsub⟩
      rw [hg2] at hg
      injection hg with hg3
      subst hg3
      refine pidsAt_congr hg2 ?_
      intro q hq
      have hqP : q ∈ Pc := hsub q hq
      have hne : q ≠ pid := fun he => hnomem (he ▸ hqP)
      exact storeGet_storeSet_ne _ _ _ _ hne

theorem pageRoute_write {store : PageStore} {pid : Nat} {pg : BPlusTreePage}
    {k : Tuple} {x : Nat × BPlusTreeLeafPage} {lo hi : Option Tuple}
    {f0 G Fp : Nat} {Pc : List Nat}
    (h : pageRoute f0 store pid pg k = some x)
    (hgood : goodPg G store pg lo hi = true)
    (hpids : pidsPg Fp store pg = some Pc)
    (hnomem : pid ∉ Pc) :
    ∃ f, routeAt f (storeSet store pid pg) pid k = some x := by
  cases pg with
  | leaf lp =>
      refine ⟨1, ?_⟩
      rw [routeAt_succ, storeGet_storeSet_self]
      exact h
  | internal ip =>
      refine ⟨f0 + 1, ?_⟩
      rw [routeAt_succ, storeGet_storeSet_self]
      show routeAt f0 (storeSet store pid (BPlusTreePage.internal ip)) (ip.look_up k) k =
        some x
      simp only [goodPg, goodPgF, Bool.and_eq_true] at hgood
      have h2 := hgood.2
      split at h2
      · exact (nomatch h2)
      · rename_i e0 rest harr
        simp only [Bool.and_eq_true] at h2
        have hmem : ip.look_up k ∈ (e0 :: rest).map (fun e => e.2) := look_up_mem harr
        have hmem2 : ip.look_up k ∈ ip.array.map (fun e => e.2) := by
          rw [harr]
          exact hmem
        rcases gk_children_bounded h2.2 (ip.look_up k) (by simpa using hmem)
          with ⟨lo2, hi2, hgc, hwlo, hwhi⟩
        simp only [pidsPg, pidsPgF] at hpids
        rcases kp_mem hpids (ip.look_up k) hmem2 with ⟨Qc, hgp, hsub⟩
        refine routeAt_congr h hgc hgp ?_
        intro q hq
        have hqP : q ∈ Pc := hsub q hq
        have hne : q ≠ pid := fun he => hnomem (he ▸ hqP)
        exact storeGet_storeSet_ne _ _ _ _ hne

/-- Subtree page-id lists of distinct children of one `kidsPids`
computation with a duplicate-free result are pairwise disjoint. -/
theorem kp_disjoint {g : Nat → Option (List Nat)} :
    ∀ {l Q : List Nat}, kidsPids g l = some Q → Q.Nodup →
    List.Pairwise (fun c d => ∀ Qc Qd, g c = some Qc → g d = some Qd →
      ∀ x ∈ c :: Qc, x ∉ d :: Qd) l := by
  intro l
  induction l with
  | nil => intro Q h hnd; exact List.Pairwise.nil
  | cons c cs ih =>
      intro Q h hnd
      simp only [kidsPids] at h
      split at h
      · rename_i q1 q2 hq1 hq2
        injection h with h3
        rw [← h3] at hnd
        have hnd2 := List.nodup_cons.mp hnd
        have hndq12 := List.nodup_append.mp hnd2.2
        refine List.Pairwise.cons ?_ (ih hq2 hndq12.2.1)
        intro d hd Qc Qd hgc hgd x hx hxd
        rw [hq1] at hgc
        injection hgc with hgc2
        subst hgc2
        rcases kp_mem hq2 d hd with ⟨Qd2, hgd2, hsubd⟩
        rw [hgd2] at hgd
        injection hgd with hgd3
        subst hgd3
        have hxq2 : x ∈ q2 := hsubd x hxd
        rcases List.mem_cons.mp hx with h4 | h4
        · exact hnd2.1 (h4 ▸ List.mem_append_right _ hxq2)
        · exact hndq12.2.2 h4 hxq2
      · exact (nomatch h)

/-- `kidsPids` of children with duplicate-free, pairwise-disjoint
subtrees is duplicate-free. -/
theorem kp_nodup {g : Nat → Option (List Nat)} :
    ∀ {l Q : List Nat}, kidsPids g l = some Q →
    (∀ c ∈ l, ∀ Qc, g c = some Qc → (c :: Qc).Nodup) →
    List.Pairwise (fun c d => ∀ Qc Qd, g c = some Qc → g d = some Qd →
      ∀ x ∈ c :: Qc, x ∉ d :: Qd) l →
    Q.Nodup := by
  intro l
  induction l with
  | nil =>
      intro Q h hone hpw
      injection h with h2
      rw [← h2]
      exact List.nodup_nil
  | cons c cs ih =>
      intro Q h hone hpw
      simp only [kidsPids] at h
      split at h
      · rename_i q1 q2 hq1 hq2
        injection h with h3
        rw [← h3]
        have hpw2 := List.pairwise_cons.mp hpw
        have hc1 : (c :: q1).Nodup := hone c (List.mem_cons_self _ _) q1 hq1
        have hq2nd : q2.Nodup :=
          ih hq2 (fun d hd Qd hgd => hone d (List.mem_cons_of_mem _ hd) Qd hgd) hpw2.2
        have hdisj : ∀ x ∈ c :: q1, x ∉ q2 := by
          intro x hx hxq2
          rcases kp_mem_inv hq2 x hxq2 with ⟨d, hd, Qd, hgd, hor⟩
          have hxd : x ∈ d :: Qd := by
            rcases hor with h4 | h4
            · exact h4 ▸ List.mem_cons_self _ _
            · exact List.mem_cons_of_mem _ h4
          exact hpw2.1 d hd q1 Qd hq1 hgd x hx hxd
        have hc1' := List.nodup_cons.mp hc1
        refine List.nodup_cons.mpr ⟨?_, ?_⟩
        · intro hc
          rcases List.mem_append.mp hc with h4 | h4
          · exact hc1'.1 h4
          · exact hdisj c (List.mem_cons_self _ _) h4
        · refine List.Nodup.append hc1'.2 hq2nd ?_
          intro x hx
          exact hdisj x (List.mem_cons_of_mem _ hx)
      · exact (nomatch h)

/-- Stable ordered insertion of a fresh key preserves strict sortedness. -/
theorem kvInsert_pairwise {β : Type} {x : Tuple × β} :
    ∀ {l : List (Tuple × β)},
    List.Pairwise (fun a b : Tuple × β => tupleLt a.1 b.1 = true) l →
    (∀ e ∈ l, e.1 ≠ x.1) →
    List.Pairwise (fun a b : Tuple × β => tupleLt a.1 b.1 = true) (kvInsert x l) := by
  intro l
  induction l with
  | nil => intro hpw hne; exact List.pairwise_singleton _ _
  | cons e r ih =>
      intro hpw hne
      have he := List.pairwise_cons.mp hpw
      simp only [kvInsert]
      by_cases hx : tupleLt x.1 e.1 = true
      · simp only [hx, if_true]
        refine List.Pairwise.cons ?_ hpw
        intro y hy
        rcases List.mem_cons.mp hy with h2 | h2
        · exact h2 ▸ hx
        · exact tupleLt_trans hx (he.1 y h2)
      · simp only [hx, if_false]
        refine List.Pairwise.cons ?_ (ih he.2 (fun y hy => hne y (List.mem_cons_of_mem _ hy)))
        intro y hy
        rcases mem_kvInsert hy with h2 | h2
        · rw [h2]
          exact tupleLt_of_ne_of_not_lt (Bool.eq_false_iff.mpr hx)
            (fun h3 => hne e (List.mem_cons_self _ _) h3.symm)
        · exact he.1 y h2

theorem kvInsert_self_mem {β : Type} {x : Tuple × β} :
    ∀ {l : List (Tuple × β)}, x ∈ kvInsert x l := by
  intro l
  induction l with
  | nil => exact List.mem_cons_self _ _
  | cons e r ih =>
      simp only [kvInsert]
      by_cases hx : tupleLt x.1 e.1 = true
      · simp [hx]
      · simp only [hx, if_false]
        exact List.mem_cons_of_mem _ ih

/-- Looking up a freshly inserted key finds the inserted record. -/
theorem leaf_insert_look_up {lp : BPlusTreeLeafPage} {k : Tuple} {r : RecordId}
    (hpw : List.Pairwise (fun a b : LeafKV => tupleLt a.1 b.1 = true) lp.array)
    (hfresh : ∀ e ∈ lp.array, e.1 ≠ k) :
    (lp.insert k r).look_up k = some r := by
  unfold BPlusTreeLeafPage.look_up BPlusTreeLeafPage.insert
  have hpw2 : List.Pairwise (fun a b : LeafKV => tupleLt a.1 b.1 = true)
      (kvInsert (k, r) lp.array) := kvInsert_pairwise hpw hfresh
  rw [find?_unique_key hpw2 (kvInsert_self_mem) rfl]
  rfl

theorem leafGood_insert {lp : BPlusTreeLeafPage} {lo hi : Option Tuple} {k : Tuple}
    {r : RecordId} (hg : leafGood lp lo hi = true)
    (hfresh : ∀ e ∈ lp.array, e.1 ≠ k)
    (hlo : loLe lo k = true) (hhi : ltHi k hi = true) :
    leafGood (lp.insert k r) lo hi = true := by
  simp only [leafGood, Bool.and_eq_true, decide_eq_true_eq, List.all_eq_true] at hg ⊢
  refine ⟨⟨hg.1.1, kvInsert_pairwise hg.1.2 hfresh⟩, ?_⟩
  intro e he
  rcases mem_kvInsert he with h2 | h2
  · rw [h2]
    simp only [Bool.and_eq_true]
    exact ⟨hlo, hhi⟩
  · exact hg.2 e h2

/-- Prepending a separator entry in front of an internal array's tail:
the old child 0 keeps its children up to the separator, the new child
covers from the separator to the old first key. -/
theorem gk_insert_head {f f2 : Nat → Option Tuple → Option Tuple → Bool} {sep : Tuple}
    {cn : Nat} {rest : List InternalKV} {hi : Option Tuple} {c0 : Nat} {lo : Option Tuple}
    (h : goodKids f c0 rest lo hi = true)
    (hcong : ∀ c ∈ rest.map (fun x => x.2), ∀ a b, f c a b = true → f2 c a b = true)
    (hleft : f2 c0 lo (some sep) = true)
    (hright : f2 cn (some sep) (headKeyOr hi rest) = true)
    (hlo : loLt lo sep = true)
    (hhiN : ltHi sep (headKeyOr hi rest) = true) :
    goodKids f2 c0 ((sep, cn) :: rest) lo hi = true := by
  have hhi : ltHi sep hi = true := by
    cases rest with
    | nil => exact hhiN
    | cons e r2 =>
        have h2 : tupleLt sep e.1 = true := hhiN
        exact ltHi_trans_lt h2 (gk_key_facts h e (List.mem_cons_self _ _)).2
  simp only [goodKids, Bool.and_eq_true]
  refine ⟨⟨⟨hlo, hhi⟩, hleft⟩, ?_⟩
  refine gk_replace_head h hcong hright ?_
  intro e he
  have h3 : headKeyOr hi rest = some e.1 := headKeyOr_of_head he
  rw [h3] at hhiN
  exact hhiN

/-- Inserting the separator entry for a freshly split child right after
the child's own entry preserves the chain of interval bounds. -/
theorem gk_insert_split {f f2 : Nat → Option Tuple → Option Tuple → Bool} {t sep : Tuple}
    {c cn : Nat} {B : List InternalKV} {hi : Option Tuple} :
    ∀ {A : List InternalKV} {c0 : Nat} {lo : Option Tuple},
    goodKids f c0 (A ++ (t, c) :: B) lo hi = true →
    (∀ c2 ∈ c0 :: (A.map (fun x => x.2) ++ B.map (fun x => x.2)), ∀ a b,
      f c2 a b = true → f2 c2 a b = true) →
    f2 c (some t) (some sep) = true →
    f2 cn (some sep) (headKeyOr hi B) = true →
    tupleLt t sep = true →
    ltHi sep (headKeyOr hi B) = true →
    goodKids f2 c0 (A ++ (t, c) :: (sep, cn) :: B) lo hi = true := by
  intro A
  induction A with
  | nil =>
      intro c0 lo h hcong hleft hright hts hhiN
      simp only [List.nil_append, goodKids, Bool.and_eq_true] at h ⊢
      have hinner : goodKids f2 c ((sep, cn) :: B) (some t) hi = true := by
        refine gk_insert_head h.2 ?_ hleft hright hts hhiN
        intro c2 hc2 a b
        exact hcong c2 (List.mem_cons_of_mem _ (List.mem_append_right _ hc2)) a b
      refine ⟨⟨h.1.1, hcong c0 (List.mem_cons_self _ _) _ _ h.1.2⟩, ?_⟩
      simpa only [goodKids, Bool.and_eq_true] using hinner
  | cons a A2 ih =>
      intro c0 lo h hcong hleft hright hts hhiN
      simp only [List.cons_append, goodKids, Bool.and_eq_true] at h ⊢
      have hsub : ∀ c2 ∈ a.2 :: (A2.map (fun x => x.2) ++ B.map (fun x => x.2)),
          c2 ∈ c0 :: ((a :: A2).map (fun x => x.2) ++ B.map (fun x => x.2)) := by
        intro c2 hc2
        simp only [List.map_cons, List.cons_append, List.mem_cons] at hc2 ⊢
        tauto
      refine ⟨⟨h.1.1, hcong c0 (List.mem_cons_self _ _) _ _ h.1.2⟩, ?_⟩
      exact ih h.2 (fun c2 hc2 => hcong c2 (hsub c2 hc2)) hleft hright hts hhiN

/-- Splitting a full leaf: the state, the returned left page and
separator kv, the goodness of both halves on the separated intervals,
and which half retains the looked-up key. -/
theorem leafSplitStateFacts {idx : BPlusTreeIndex} {fuel : Nat} {s : TreeState}
    {lp2 : BPlusTreeLeafPage} {k : Tuple} {r : RecordId} {lo hi : Option Tuple}
    {s1 : TreeState} {csp : BPlusTreePage} {ikv : InternalKV}
    (hsplit : split fuel idx s (.leaf lp2) = some (s1, csp, ikv))
    (hgood : leafGood lp2 lo hi = true)
    (hlk : lp2.look_up k = some r)
    (hfull : lp2.current_size > lp2.max_size)
    (hmaxL : 1 ≤ idx.leaf_max_size) :
    ∃ sep LEFT RIGHT,
      s1 = { s with
          next_page := s.next_page + 1,
          store := storeSet s.store s.next_page (.leaf RIGHT) } ∧
      csp = .leaf LEFT ∧
      ikv = (sep, s.next_page) ∧
      loLt lo sep = true ∧ ltHi sep hi = true ∧
      leafGood LEFT lo (some sep) = true ∧
      leafGood RIGHT (some sep) hi = true ∧
      ((tupleLt k sep = true ∧ LEFT.look_up k = some r) ∨
        (tupleLe sep k = true ∧ RIGHT.look_up k = some r)) := by
  rcases leafSplitFacts hgood hlk hfull with
    ⟨d0, D2, hD, hpwF, pwT, pwD, hlolt, hd0hi, hTfacts, hDfacts, hrt⟩
  have hbatch : BPlusTreeLeafPage.batch_insert
      { max_size := idx.leaf_max_size, next_page_id := INVALID_PAGE_ID, array := [] }
      (lp2.array.drop (lp2.current_size / 2)) =
      { max_size := idx.leaf_max_size, next_page_id := INVALID_PAGE_ID,
        array := lp2.array.drop (lp2.current_size / 2) } := by
    unfold BPlusTreeLeafPage.batch_insert
    simp only [BPlusTreeLeafPage.mk.injEq, true_and]
    rw [foldl_kvInsert_sorted _ [] (by simp) hpwF]
    simp
  simp only [split, newPage, BPlusTreeLeafPage.split_off, hbatch] at hsplit
  rw [hD] at hsplit
  have hk0 : ({ max_size := idx.leaf_max_size, next_page_id := lp2.next_page_id, array := d0 :: D2 } : BPlusTreeLeafPage).key_at 0 = some d0.1 := rfl
  rw [hk0] at hsplit
  injection hsplit with hsp1
  injection hsp1 with hseq hsp2
  injection hsp2 with hcspeq hikveq
  refine ⟨d0.1, { max_size := lp2.max_size, next_page_id := s.next_page, array := lp2.array.take (lp2.current_size / 2) }, { max_size := idx.leaf_max_size, next_page_id := lp2.next_page_id, array := d0 :: D2 }, hseq.symm, hcspeq.symm, hikveq.symm, hlolt, hd0hi, ?_, ?_, ?_⟩
  · simp only [leafGood, Bool.and_eq_true, decide_eq_true_eq, List.all_eq_true] at hgood ⊢
    refine ⟨⟨hgood.1.1, pwT⟩, ?_⟩
    intro e he
    exact ⟨(hTfacts e he).1, (hTfacts e he).2⟩
  · rw [hD] at pwD
    simp only [leafGood, Bool.and_eq_true, decide_eq_true_eq, List.all_eq_true]
    refine ⟨⟨hmaxL, pwD⟩, ?_⟩
    intro e he
    rw [← hD] at he
    exact ⟨(hDfacts e he).1, (hDfacts e he).2⟩
  · rcases hrt with ⟨hlt, hfind⟩ | ⟨hle, hfind⟩
    · refine Or.inl ⟨hlt, ?_⟩
      unfold BPlusTreeLeafPage.look_up
      simp only [hfind]
      rfl
    · refine Or.inr ⟨hle, ?_⟩
      unfold BPlusTreeLeafPage.look_up
      rw [hD] at hfind
      simp only [hfind]
      rfl

/-- Goodness of an in-memory page survives a store write outside the
page's subtree. -/
theorem goodPg_set {store : PageStore} {pid : Nat} {pgW pg : BPlusTreePage}
    {lo hi : Option Tuple} {G Fp : Nat} {Pc : List Nat}
    (hgood : goodPg G store pg lo hi = true)
    (hpids : pidsPg Fp store pg = some Pc)
    (hnomem : pid ∉ Pc) :
    goodPg G (storeSet store pid pgW) pg lo hi = true := by
  cases pg with
  | leaf lp => exact hgood
  | internal ip =>
      simp only [goodPg, goodPgF, Bool.and_eq_true] at hgood ⊢
      refine ⟨hgood.1, ?_⟩
      have h2 := hgood.2
      split at h2
      · exact (nomatch h2)
      · rename_i e0 rest harr
        simp only [Bool.and_eq_true] at h2 ⊢
        refine ⟨h2.1, ?_⟩
        refine gk_mono ?_ h2.2
        intro c hc lo2 hi2 hg
        simp only [pidsPg, pidsPgF] at hpids
        have hc2 : c ∈ ip.array.map (fun e => e.2) := by
          rw [harr]
          simpa using hc
        rcases kp_mem hpids c hc2 with ⟨Qc, hgc, hsub⟩
        refine goodAt_congr hgc ?_ hg
        intro q hq
        have hne : q ≠ pid := fun he => hnomem (he ▸ hsub q hq)
        exact storeGet_storeSet_ne _ _ _ _ hne

theorem pidsPg_set {store : PageStore} {pid : Nat} {pgW pg : BPlusTreePage}
    {Fp : Nat} {Pc : List Nat}
    (hpids : pidsPg Fp store pg = some Pc)
    (hnomem : pid ∉ Pc) :
    pidsPg Fp (storeSet store pid pgW) pg = some Pc := by
  cases pg with
  | leaf lp => exact hpids
  | internal ip =>
      simp only [pidsPg, pidsPgF] at hpids ⊢
      refine kp_mono ?_ hpids
      intro c hc Qc hg
      rcases kp_mem hpids c hc with ⟨Qc2, hg2, hsub⟩
      rw [hg2] at hg
      injection hg with hg3
      subst hg3
      refine pidsAt_congr hg2 ?_
      intro q hq
      have hne : q ≠ pid := fun he => hnomem (he ▸ hsub q hq)
      exact storeGet_storeSet_ne _ _ _ _ hne

theorem pageRoute_set {store : PageStore} {pid pidSelf : Nat} {pgW pg : BPlusTreePage}
    {k : Tuple} {x : Nat × BPlusTreeLeafPage} {lo hi : Option Tuple}
    {f0 G Fp : Nat} {Pc : List Nat}
    (h : pageRoute f0 store pidSelf pg k = some x)
    (hgood : goodPg G store pg lo hi = true)
    (hpids : pidsPg Fp store pg = some Pc)
    (hnomem : pid ∉ Pc) :
    pageRoute f0 (storeSet store pid pgW) pidSelf pg k = some x := by
  cases pg with
  | leaf lp => exact h
  | internal ip =>
      show routeAt f0 (storeSet store pid pgW) (ip.look_up k) k = some x
      simp only [goodPg, goodPgF, Bool.and_eq_true] at hgood
      have h2 := hgood.2
      split at h2
      · exact (nomatch h2)
      · rename_i e0 rest harr
        simp only [Bool.and_eq_true] at h2
        have hmem : ip.look_up k ∈ (e0 :: rest).map (fun e => e.2) := look_up_mem harr
        have hmem2 : ip.look_up k ∈ ip.array.map (fun e => e.2) := by
          rw [harr]
          exact hmem
        rcases gk_children_bounded h2.2 (ip.look_up k) (by simpa using hmem)
          with ⟨lo2, hi2, hgc, hwlo, hwhi⟩
        simp only [pidsPg, pidsPgF] at hpids
        rcases kp_mem hpids (ip.look_up k) hmem2 with ⟨Qc, hgp, hsub⟩
        refine routeAt_congr h hgc hgp ?_
        intro q hq
        have hne : q ≠ pid := fun he => hnomem (he ▸ hsub q hq)
        exact storeGet_storeSet_ne _ _ _ _ hne

theorem pageRoute_routeAt_of_get {store : PageStore} {pid : Nat} {pg : BPlusTreePage}
    {k : Tuple} {x : Nat × BPlusTreeLeafPage} {f : Nat}
    (hget : storeGet store pid = some pg)
    (h : pageRoute f store pid pg k = some x) :
    routeAt (f + 1) store pid k = some x := by
  rw [routeAt_succ, hget]
  cases pg with
  | leaf lp => exact h
  | internal ip => exact h

/-- The invariant of the split-and-ascend loop of `insert`: a reference
snapshot `S0` of the store with its root facts, the descent path to the
current page, and the facts about the current in-memory page and the
partially rewritten store. -/
structure LoopInv (idx : BPlusTreeIndex) (k : Tuple) (r : RecordId) (s : TreeState)
    (curr : Nat) (currPg : BPlusTreePage) (readSet : List Nat)
    (lo hi : Option Tuple) where
  F : Nat
  S0 : PageStore
  root : Nat
  P0 : List Nat
  N0 : Nat
  hrootG : goodAt F S0 root none none = true
  hrootP : pidsAt F S0 root = some P0
  hndP : (root :: P0).Nodup
  hbound : ∀ q ∈ root :: P0, q < N0
  hroot0 : root ≠ INVALID_PAGE_ID
  hanc : AncPath F S0 k root readSet curr lo hi
  qc0 : List Nat
  hqc0 : pidsAt F S0 curr = some qc0
  hrootId : s.root_page_id = root
  hfreshS : ∀ e ∈ s.store, e.1 < s.next_page
  hN0 : N0 ≤ s.next_page
  G : Nat
  hgood : goodPg G s.store currPg lo hi = true
  Fp : Nat
  Pc : List Nat
  hpids : pidsPg Fp s.store currPg = some Pc
  hndC : (curr :: Pc).Nodup
  hPcB : ∀ q ∈ Pc, q ∈ qc0 ∨ N0 ≤ q
  hagree : ∀ q ∈ root :: P0, q ∉ curr :: qc0 → storeGet s.store q = storeGet S0 q
  f0 : Nat
  lam : Nat
  lpl : BPlusTreeLeafPage
  hroute : pageRoute f0 s.store curr currPg k = some (lam, lpl)
  hlkr : lpl.look_up k = some r

/-- The split-and-ascend loop of `insert` preserves the position of the
freshly inserted key: on success the final tree routes `k` to a leaf
whose lookup answers `r`. -/
theorem insertLoop_ok : ∀ (n : Nat) {idx : BPlusTreeIndex} {k : Tuple} {r : RecordId}
    {s : TreeState} {curr : Nat} {currPg : BPlusTreePage} {readSet : List Nat}
    {s2 : TreeState} {lo hi : Option Tuple},
    insertLoop n idx s curr currPg readSet = some s2 →
    1 ≤ idx.internal_max_size →
    1 ≤ idx.leaf_max_size →
    LoopInv idx k r s curr currPg readSet lo hi →
    ∃ f lam2 lpl2, routeAt f s2.store s2.root_page_id k = some (lam2, lpl2) ∧
      lpl2.look_up k = some r ∧ s2.root_page_id ≠ INVALID_PAGE_ID := by
  intro n
  induction n with
  | zero =>
      intro idx k r s curr currPg readSet s2 lo hi hloop hmaxI hmaxL inv
      exact (nomatch hloop)
  | succ m ih =>
      intro idx k r s curr currPg readSet s2 lo hi hloop hmaxI hmaxL inv
      obtain ⟨F, S0, root, P0, N0, hrootG, hrootP, hndP, hbound, hroot0, hanc, qc0, hqc0,
        hrootId, hfreshS, hN0, G, hgood, Fp, Pc, hpids, hndC, hPcB, hagree,
        f0, lam, lpl, hroute, hlkr⟩ := inv
      simp only [insertLoop] at hloop
      split at hloop
      · -- the current page is full: split it and ascend
        rename_i hfull
        split at hloop
        · exact (nomatch hloop)
        · rename_i s1 csp ikv hsp
          have hPcLt : ∀ q ∈ Pc, q < s.next_page := by
            intro q hq
            rcases pidsPg_exist hpids q hq with ⟨pg2, hg2⟩
            exact storeGet_lt hg2 hfreshS
          have hcurrPc : curr ∉ Pc := (List.nodup_cons.mp hndC).1
          have hpack : ∃ sep PgL PgR Gb FpL QL QR lam2 lpl2 fP,
              s1 = { s with
                  next_page := s.next_page + 1,
                  store := storeSet s.store s.next_page PgR } ∧
              csp = PgL ∧ ikv = (sep, s.next_page) ∧
              loLt lo sep = true ∧ ltHi sep hi = true ∧
              goodPg Gb (storeSet s.store s.next_page PgR) PgL lo (some sep) = true ∧
              goodPg Gb (storeSet s.store s.next_page PgR) PgR (some sep) hi = true ∧
              pidsPg FpL (storeSet s.store s.next_page PgR) PgL = some QL ∧
              pidsPg FpL (storeSet s.store s.next_page PgR) PgR = some QR ∧
              Pc = QL ++ QR ∧
              lpl2.look_up k = some r ∧
              ((tupleLt k sep = true ∧
                  pageRoute fP (storeSet s.store s.next_page PgR) curr PgL k =
                    some (lam2, lpl2)) ∨
                (tupleLe sep k = true ∧
                  pageRoute fP (storeSet s.store s.next_page PgR) s.next_page PgR k =
                    some (lam2, lpl2))) := by
            cases currPg with
            | leaf lp2 =>
                have hl : lam = curr ∧ lpl = lp2 := by
                  have h2 : some (curr, lp2) = some (lam, lpl) := hroute
                  injection h2 with h3
                  injection h3 with h4 h5
                  exact ⟨h4.symm, h5.symm⟩
                have hfull2 : lp2.current_size > lp2.max_size := by
                  simpa [BPlusTreePage.is_full, BPlusTreeLeafPage.is_full] using hfull
                rcases leafSplitStateFacts hsp hgood (hl.2 ▸ hlkr) hfull2 hmaxL with
                  ⟨sep, LEFT, RIGHT, hseq, hcspeq, hikveq, hlosep, hsephi, hgL, hgR, hrt⟩
                have hPcnil : Pc = [] := by
                  have h2 : some [] = some Pc := hpids
                  injection h2 with h3
                  exact h3.symm
                rcases hrt with ⟨hlt, hluL⟩ | ⟨hle, hluR⟩
                · exact ⟨sep, .leaf LEFT, .leaf RIGHT, 0, Fp, [], [], curr, LEFT, 0,
                    hseq, hcspeq, hikveq, hlosep, hsephi, hgL, hgR, rfl, rfl,
                    by rw [hPcnil]; rfl, hluL, Or.inl ⟨hlt, rfl⟩⟩
                · exact ⟨sep, .leaf LEFT, .leaf RIGHT, 0, Fp, [], [], s.next_page, RIGHT, 0,
                    hseq, hcspeq, hikveq, hlosep, hsephi, hgL, hgR, rfl, rfl,
                    by rw [hPcnil]; rfl, hluR, Or.inr ⟨hle, rfl⟩⟩
            | internal ip2 =>
                have hfull2 : ip2.current_size > ip2.max_size := by
                  simpa [BPlusTreePage.is_full, BPlusTreeInternalPage.is_full] using hfull
                rcases internalSplitFacts hsp hgood hpids hroute hlkr hfull2 hPcLt hmaxI with
                  ⟨e0, RT, e1, RD2, sep, harr2, hseq, hcspeq, hikveq, hlosep, hsephi,
                    hgL, hgR, hrt⟩
                have hmap : ip2.array.map (fun e => e.2) =
                    (e0.2 :: RT.map (fun e => e.2)) ++
                      (e1.2 :: RD2.map (fun e => e.2)) := by
                  rw [harr2]
                  simp
                have hpids2 : kidsPids (fun c => pidsAt Fp s.store c)
                    ((e0.2 :: RT.map (fun e => e.2)) ++
                      (e1.2 :: RD2.map (fun e => e.2))) = some Pc := by
                  have h2 := hpids
                  simp only [pidsPg, pidsPgF] at h2
                  rw [hmap] at h2
                  exact h2
                rcases kp_split hpids2 with ⟨QL, QR, hQL, hQR, hPceq⟩
                have hQLN : pidsPg Fp (storeSet s.store s.next_page
                    (BPlusTreePage.internal { max_size := idx.internal_max_size, array := e1 :: RD2 }))
                    (.internal { ip2 with array := e0 :: RT }) = some QL := by
                  simp only [pidsPg, pidsPgF, List.map_cons]
                  refine kp_mono ?_ hQL
                  intro c hc Qc hg
                  exact pidsAt_fresh hg hfreshS
                have hQRN : pidsPg Fp (storeSet s.store s.next_page
                    (BPlusTreePage.internal { max_size := idx.internal_max_size, array := e1 :: RD2 }))
                    (.internal { max_size := idx.internal_max_size, array := e1 :: RD2 }) = some QR := by
                  simp only [pidsPg, pidsPgF, List.map_cons]
                  refine kp_mono ?_ hQR
                  intro c hc Qc hg
                  exact pidsAt_fresh hg hfreshS
                rw [hseq] at hgL hgR hrt
                rcases hrt with ⟨hlt, f2, hr2⟩ | ⟨hle, f2, hr2⟩
                · exact ⟨sep, .internal { ip2 with array := e0 :: RT },
                    .internal { max_size := idx.internal_max_size, array := e1 :: RD2 },
                    G, Fp, QL, QR, lam, lpl, f2, hseq, hcspeq, hikveq, hlosep, hsephi,
                    hgL, hgR, hQLN, hQRN, hPceq, hlkr, Or.inl ⟨hlt, hr2⟩⟩
                · exact ⟨sep, .internal { ip2 with array := e0 :: RT },
                    .internal { max_size := idx.internal_max_size, array := e1 :: RD2 },
                    G, Fp, QL, QR, lam, lpl, f2, hseq, hcspeq, hikveq, hlosep, hsephi,
                    hgL, hgR, hQLN, hQRN, hPceq, hlkr, Or.inr ⟨hle, hr2⟩⟩
          obtain ⟨sep, PgL, PgR, Gb, FpL, QL, QR, lam2, lpl2, fP, hseq, hcspeq, hikveq,
            hlosep, hsephi, hgL, hgR, hQLN, hQRN, hPceq, hlkr2, hrt⟩ := hpack
          subst hseq
          rw [hcspeq] at hloop
          subst hikveq
          rcases anc_pids hrootP hndP hanc with ⟨qc0b, hqc0b, hndq, hsubq, hrsq⟩
          rw [hqc0] at hqc0b
          injection hqc0b with hqc0e
          subst hqc0e
          have hcurrP0 : curr ∈ root :: P0 := hsubq curr (List.mem_cons_self _ _)
          have hcurrLtN0 : curr < N0 := hbound curr hcurrP0
          have hcurrNe : curr ≠ s.next_page := by omega
          have hQLsub : ∀ q ∈ QL, q ∈ Pc := by
            intro q hq
            rw [hPceq]
            exact List.mem_append_left _ hq
          have hQRsub : ∀ q ∈ QR, q ∈ Pc := by
            intro q hq
            rw [hPceq]
            exact List.mem_append_right _ hq
          have hcurrQL : curr ∉ QL := fun h2 => hcurrPc (hQLsub curr h2)
          have hcurrQR : curr ∉ QR := fun h2 => hcurrPc (hQRsub curr h2)
          have hgetWn : storeGet (storeSet (storeSet s.store s.next_page PgR) curr PgL)
              s.next_page = some PgR := by
            rw [storeGet_storeSet_ne _ _ _ _ (fun h2 => hcurrNe h2.symm)]
            exact storeGet_storeSet_self _ _ _
          have hgoodWc : goodAt (Gb + 1)
              (storeSet (storeSet s.store s.next_page PgR) curr PgL) curr lo (some sep) =
              true := goodPg_write hgL hQLN hcurrQL
          have hpidsWc : pidsAt (FpL + 1)
              (storeSet (storeSet s.store s.next_page PgR) curr PgL) curr = some QL :=
            pidsPg_write hQLN hcurrQL
          have hgRW : goodPg Gb (storeSet (storeSet s.store s.next_page PgR) curr PgL)
              PgR (some sep) hi = true := goodPg_set hgR hQRN hcurrQR
          have hpRW : pidsPg FpL (storeSet (storeSet s.store s.next_page PgR) curr PgL)
              PgR = some QR := pidsPg_set hQRN hcurrQR
          have hgoodWn : goodAt (Gb + 1)
              (storeSet (storeSet s.store s.next_page PgR) curr PgL) s.next_page
              (some sep) hi = true := by
            rw [goodAt_succ, hgetWn]
            exact hgRW
          have hpidsWn : pidsAt (FpL + 1)
              (storeSet (storeSet s.store s.next_page PgR) curr PgL) s.next_page =
              some QR := by
            rw [pidsAt_succ, hgetWn]
            exact hpRW
          have hfreshW : ∀ e ∈ storeSet (storeSet s.store s.next_page PgR) curr PgL,
              e.1 < s.next_page + 1 := by
            intro e he
            rcases mem_storeSet he with h2 | h2
            · rw [h2]
              omega
            · rcases mem_storeSet h2 with h3 | h3
              · rw [h3]
                omega
              · have := hfreshS e h3
                omega
          have hagreeW : ∀ q ∈ root :: P0, q ∉ curr :: qc0 →
              storeGet (storeSet (storeSet s.store s.next_page PgR) curr PgL) q =
              storeGet S0 q := by
            intro q hq hq2
            have hqn : q ≠ curr := fun h2 => hq2 (h2 ▸ List.mem_cons_self _ _)
            have hqlt : q < N0 := hbound q hq
            rw [storeGet_storeSet_ne _ _ _ _ hqn,
              storeGet_storeSet_ne _ _ _ _ (show q ≠ s.next_page by omega)]
            exact hagree q hq hq2
          cases hanc with
          | nil =>
              simp only [List.getLast?_nil, newPage] at hloop
              rw [hrootId] at hloop
              rw [if_pos rfl] at hloop
              have hins2 : ({ max_size := idx.internal_max_size, array := [] } : BPlusTreeInternalPage).insert [] curr = { max_size := idx.internal_max_size, array := [(([] : Tuple), curr)] } := rfl
              rw [hins2] at hloop
              have hins3 : ({ max_size := idx.internal_max_size, array := [(([] : Tuple), curr)] } : BPlusTreeInternalPage).insert sep s.next_page = ({ max_size := idx.internal_max_size, array := [(([] : Tuple), curr), (sep, s.next_page)] } : BPlusTreeInternalPage) := by
                simp [BPlusTreeInternalPage.insert, kvInsert, tupleLt_nil_right]
              rw [hins3] at hloop
              have hPcnd : (QL ++ QR).Nodup := by
                have h2 := (List.nodup_cons.mp hndC).2
                rwa [hPceq] at h2
              have hQLlt : ∀ q ∈ QL, q < s.next_page := fun q hq => hPcLt q (hQLsub q hq)
              have hQRlt : ∀ q ∈ QR, q < s.next_page := fun q hq => hPcLt q (hQRsub q hq)
              have hndP0N : (curr :: (QL ++ s.next_page :: QR)).Nodup := by
                refine List.nodup_cons.mpr ⟨?_, ?_⟩
                · intro h2
                  rcases List.mem_append.mp h2 with h3 | h3
                  · exact hcurrQL h3
                  · rcases List.mem_cons.mp h3 with h4 | h4
                    · exact hcurrNe h4
                    · exact hcurrQR h4
                · rw [List.nodup_middle]
                  refine List.nodup_cons.mpr ⟨?_, hPcnd⟩
                  intro h2
                  rcases List.mem_append.mp h2 with h3 | h3
                  · exact absurd (hQLlt _ h3) (by omega)
                  · exact absurd (hQRlt _ h3) (by omega)
              have hnrP0N : (s.next_page + 1) ∉ (curr :: (QL ++ s.next_page :: QR)) := by
                intro h2
                rcases List.mem_cons.mp h2 with h3 | h3
                · omega
                · rcases List.mem_append.mp h3 with h4 | h4
                  · exact absurd (hQLlt _ h4) (by omega)
                  · rcases List.mem_cons.mp h4 with h5 | h5
                    · omega
                    · exact absurd (hQRlt _ h5) (by omega)
              have hgNRW : goodPg (Gb + 1) (storeSet (storeSet s.store s.next_page PgR) curr PgL) (BPlusTreePage.internal ({ max_size := idx.internal_max_size, array := [(([] : Tuple), curr), (sep, s.next_page)] } : BPlusTreeInternalPage)) none none = true := by
                simp only [goodPg, goodPgF, goodKids, loLt, ltHi, e0Bound, Bool.and_eq_true,
                  Bool.true_and, Bool.and_true, decide_eq_true_eq]
                exact ⟨hmaxI, trivial, hgoodWc, hgoodWn⟩
              have hpNRW : pidsPg (FpL + 1) (storeSet (storeSet s.store s.next_page PgR) curr PgL) (BPlusTreePage.internal ({ max_size := idx.internal_max_size, array := [(([] : Tuple), curr), (sep, s.next_page)] } : BPlusTreeInternalPage)) = some (curr :: (QL ++ s.next_page :: QR)) := by
                simp only [pidsPg, pidsPgF, List.map_cons, List.map_nil, kidsPids,
                  hpidsWc, hpidsWn]
                simp
              have hgoodS5 : goodAt (Gb + 2) ({ store := storeSet (storeSet (storeSet s.store s.next_page PgR) curr PgL) (s.next_page + 1) (BPlusTreePage.internal ({ max_size := idx.internal_max_size, array := [(([] : Tuple), curr), (sep, s.next_page)] } : BPlusTreeInternalPage)), next_page := s.next_page + 1 + 1, root_page_id := s.next_page + 1 } : TreeState).store (s.next_page + 1) none none = true :=
                goodPg_write hgNRW hpNRW hnrP0N
              have hpidsS5 : pidsAt (FpL + 2) ({ store := storeSet (storeSet (storeSet s.store s.next_page PgR) curr PgL) (s.next_page + 1) (BPlusTreePage.internal ({ max_size := idx.internal_max_size, array := [(([] : Tuple), curr), (sep, s.next_page)] } : BPlusTreeInternalPage)), next_page := s.next_page + 1 + 1, root_page_id := s.next_page + 1 } : TreeState).store (s.next_page + 1) = some (curr :: (QL ++ s.next_page :: QR)) :=
                pidsPg_write hpNRW hnrP0N
              have hgoodCur : goodPg (Gb + 1) ({ store := storeSet (storeSet (storeSet s.store s.next_page PgR) curr PgL) (s.next_page + 1) (BPlusTreePage.internal ({ max_size := idx.internal_max_size, array := [(([] : Tuple), curr), (sep, s.next_page)] } : BPlusTreeInternalPage)), next_page := s.next_page + 1 + 1, root_page_id := s.next_page + 1 } : TreeState).store (BPlusTreePage.internal ({ max_size := idx.internal_max_size, array := [(([] : Tuple), curr), (sep, s.next_page)] } : BPlusTreeInternalPage)) none none = true :=
                goodPg_set hgNRW hpNRW hnrP0N
              have hpidsCur : pidsPg (FpL + 1) ({ store := storeSet (storeSet (storeSet s.store s.next_page PgR) curr PgL) (s.next_page + 1) (BPlusTreePage.internal ({ max_size := idx.internal_max_size, array := [(([] : Tuple), curr), (sep, s.next_page)] } : BPlusTreeInternalPage)), next_page := s.next_page + 1 + 1, root_page_id := s.next_page + 1 } : TreeState).store (BPlusTreePage.internal ({ max_size := idx.internal_max_size, array := [(([] : Tuple), curr), (sep, s.next_page)] } : BPlusTreeInternalPage)) = some (curr :: (QL ++ s.next_page :: QR)) :=
                pidsPg_set hpNRW hnrP0N
              have hrouteS5 : ∃ fN, pageRoute fN ({ store := storeSet (storeSet (storeSet s.store s.next_page PgR) curr PgL) (s.next_page + 1) (BPlusTreePage.internal ({ max_size := idx.internal_max_size, array := [(([] : Tuple), curr), (sep, s.next_page)] } : BPlusTreeInternalPage)), next_page := s.next_page + 1 + 1, root_page_id := s.next_page + 1 } : TreeState).store (s.next_page + 1) (BPlusTreePage.internal ({ max_size := idx.internal_max_size, array := [(([] : Tuple), curr), (sep, s.next_page)] } : BPlusTreeInternalPage)) k = some (lam2, lpl2) := by
                rcases hrt with ⟨hlt, hrtL⟩ | ⟨hle, hrtR⟩
                · rcases pageRoute_write hrtL hgL hQLN hcurrQL with ⟨fW, hrW⟩
                  have hrS5 : routeAt fW ({ store := storeSet (storeSet (storeSet s.store s.next_page PgR) curr PgL) (s.next_page + 1) (BPlusTreePage.internal ({ max_size := idx.internal_max_size, array := [(([] : Tuple), curr), (sep, s.next_page)] } : BPlusTreeInternalPage)), next_page := s.next_page + 1 + 1, root_page_id := s.next_page + 1 } : TreeState).store curr k = some (lam2, lpl2) := by
                    refine routeAt_congr hrW hgoodWc hpidsWc ?_
                    intro q hq
                    have hqlt : q < s.next_page + 1 := by
                      rcases List.mem_cons.mp hq with h3 | h3
                      · omega
                      · exact Nat.lt_succ_of_lt (hQLlt q h3)
                    exact storeGet_storeSet_ne _ _ _ _ (by omega)
                  refine ⟨fW, ?_⟩
                  show routeAt fW ({ store := storeSet (storeSet (storeSet s.store s.next_page PgR) curr PgL) (s.next_page + 1) (BPlusTreePage.internal ({ max_size := idx.internal_max_size, array := [(([] : Tuple), curr), (sep, s.next_page)] } : BPlusTreeInternalPage)), next_page := s.next_page + 1 + 1, root_page_id := s.next_page + 1 } : TreeState).store (BPlusTreeInternalPage.look_up ({ max_size := idx.internal_max_size, array := [(([] : Tuple), curr), (sep, s.next_page)] } : BPlusTreeInternalPage) k) k = some (lam2, lpl2)
                  have hlu : BPlusTreeInternalPage.look_up ({ max_size := idx.internal_max_size, array := [(([] : Tuple), curr), (sep, s.next_page)] } : BPlusTreeInternalPage) k = curr := by
                    simp [BPlusTreeInternalPage.look_up, internalLookUpFrom,
                      tupleLe_not_of_lt hlt]
                  rw [hlu]
                  exact hrS5
                · have hrWn : routeAt (fP + 1) (storeSet (storeSet s.store s.next_page PgR) curr PgL) s.next_page k = some (lam2, lpl2) :=
                    pageRoute_routeAt_of_get hgetWn (pageRoute_set hrtR hgR hQRN hcurrQR)
                  have hrS5 : routeAt (fP + 1) ({ store := storeSet (storeSet (storeSet s.store s.next_page PgR) curr PgL) (s.next_page + 1) (BPlusTreePage.internal ({ max_size := idx.internal_max_size, array := [(([] : Tuple), curr), (sep, s.next_page)] } : BPlusTreeInternalPage)), next_page := s.next_page + 1 + 1, root_page_id := s.next_page + 1 } : TreeState).store s.next_page k = some (lam2, lpl2) := by
                    refine routeAt_congr hrWn hgoodWn hpidsWn ?_
                    intro q hq
                    have hqlt : q < s.next_page + 1 := by
                      rcases List.mem_cons.mp hq with h3 | h3
                      · omega
                      · exact Nat.lt_succ_of_lt (hQRlt q h3)
                    exact storeGet_storeSet_ne _ _ _ _ (by omega)
                  refine ⟨fP + 1, ?_⟩
                  show routeAt (fP + 1) ({ store := storeSet (storeSet (storeSet s.store s.next_page PgR) curr PgL) (s.next_page + 1) (BPlusTreePage.internal ({ max_size := idx.internal_max_size, array := [(([] : Tuple), curr), (sep, s.next_page)] } : BPlusTreeInternalPage)), next_page := s.next_page + 1 + 1, root_page_id := s.next_page + 1 } : TreeState).store (BPlusTreeInternalPage.look_up ({ max_size := idx.internal_max_size, array := [(([] : Tuple), curr), (sep, s.next_page)] } : BPlusTreeInternalPage) k) k = some (lam2, lpl2)
                  have hlu : BPlusTreeInternalPage.look_up ({ max_size := idx.internal_max_size, array := [(([] : Tuple), curr), (sep, s.next_page)] } : BPlusTreeInternalPage) k = s.next_page := by
                    simp [BPlusTreeInternalPage.look_up, internalLookUpFrom, hle]
                  rw [hlu]
                  exact hrS5
              rcases hrouteS5 with ⟨fN, hrN⟩
              refine ih hloop hmaxI hmaxL (show LoopInv _ _ _ _ _ _ _ none none from ?_)
              refine ⟨Gb + FpL + 2, ({ store := storeSet (storeSet (storeSet s.store s.next_page PgR) curr PgL) (s.next_page + 1) (BPlusTreePage.internal ({ max_size := idx.internal_max_size, array := [(([] : Tuple), curr), (sep, s.next_page)] } : BPlusTreeInternalPage)), next_page := s.next_page + 1 + 1, root_page_id := s.next_page + 1 } : TreeState).store, s.next_page + 1, (curr :: (QL ++ s.next_page :: QR)), s.next_page + 2,
                goodAt_le (by omega) hgoodS5, pidsAt_le (by omega) hpidsS5,
                List.nodup_cons.mpr ⟨hnrP0N, hndP0N⟩, ?_,
                (by simp only [INVALID_PAGE_ID]; omega),
                AncPath.nil, (curr :: (QL ++ s.next_page :: QR)), pidsAt_le (by omega) hpidsS5, rfl, ?_, le_rfl,
                Gb + 1, hgoodCur, FpL + 1, (curr :: (QL ++ s.next_page :: QR)), hpidsCur,
                List.nodup_cons.mpr ⟨hnrP0N, hndP0N⟩,
                fun q hq => Or.inl hq, fun q hq hq2 => rfl, fN, lam2, lpl2, hrN, hlkr2⟩
              · intro q hq
                rcases List.mem_cons.mp hq with h3 | h3
                · omega
                · rcases List.mem_cons.mp h3 with h4 | h4
                  · omega
                  · rcases List.mem_append.mp h4 with h5 | h5
                    · exact Nat.lt_of_lt_of_le (hQLlt q h5) (by omega)
                    · rcases List.mem_cons.mp h5 with h6 | h6
                      · omega
                      · exact Nat.lt_of_lt_of_le (hQRlt q h6) (by omega)
              · intro e he
                show e.1 < s.next_page + 1 + 1
                rcases mem_storeSet he with h3 | h3
                · have h4 : e.1 = s.next_page + 1 := by rw [h3]
                  omega
                · exact Nat.lt_succ_of_lt (hfreshW e h3)
          | snoc0 hanc2 hp harr hgoodP hlook hrest =>
              rename_i rs2 pP hiP ipp e0p restp
              rw [List.getLast?_concat, List.dropLast_concat] at hloop
              have hloop2 : (match storeGet (storeSet (storeSet s.store s.next_page PgR) e0p.2 PgL) pP with
                  | none => none
                  | some ptp =>
                      match BPlusTreePage.insert_internalkv (sep, s.next_page) ptp with
                      | none => none
                      | some parent2 => insertLoop m idx
                          { store := (storeSet (storeSet s.store s.next_page PgR) e0p.2 PgL), next_page := s.next_page + 1,
                            root_page_id := s.root_page_id } pP parent2 rs2) =
                  some s2 := hloop
              clear hloop
              rcases anc_pids hrootP hndP hanc2 with ⟨Qp0, hQp0, hndp0, hsubp0, hrsp0⟩
              have hpPb := hrsq pP (List.mem_append_right _ (List.mem_singleton.mpr rfl))
              have hpP0 : pP ∈ root :: P0 := hpPb.1
              have hpNotin : pP ∉ e0p.2 :: qc0 := hpPb.2
              have hgetP : storeGet (storeSet (storeSet s.store s.next_page PgR) e0p.2 PgL) pP = some (BPlusTreePage.internal ipp) := by
                rw [hagreeW pP hpP0 hpNotin]
                exact hp
              rw [hgetP] at hloop2
              have hloop3 : insertLoop m idx
                  { store := (storeSet (storeSet s.store s.next_page PgR) e0p.2 PgL), next_page := s.next_page + 1,
                    root_page_id := s.root_page_id } pP
                  (BPlusTreePage.internal (ipp.insert sep s.next_page)) rs2 =
                  some s2 := hloop2
              clear hloop2
              cases F with
              | zero => exact (nomatch hgoodP)
              | succ Fm =>
              have hgP2 := hgoodP
              rw [goodAt_succ, hp] at hgP2
              simp only [goodPg, goodPgF, Bool.and_eq_true, decide_eq_true_eq] at hgP2
              rcases hgP2 with ⟨hmaxp, h2p⟩
              rw [harr] at h2p
              simp only [Bool.and_eq_true] at h2p
              rcases h2p with ⟨he0p, hgkP⟩
              have hQp2 := hQp0
              rw [pidsAt_succ, hp] at hQp2
              simp only [pidsPg, pidsPgF] at hQp2
              rw [harr] at hQp2
              simp only [List.map_cons] at hQp2
              rcases kp_mem hQp2 e0p.2 (List.mem_cons_self _ _) with ⟨qc0x, hqc0x, hsubQc⟩
              have hqc0x2 : pidsAt (Fm + 1) S0 e0p.2 = some qc0x :=
                pidsAt_le (Nat.le_succ Fm) hqc0x
              rw [hqc0] at hqc0x2
              injection hqc0x2 with hqc0e2
              subst hqc0e2
              have hpwDisj := kp_disjoint hQp2 (List.nodup_cons.mp hndp0).2
              have hheadRel := (List.pairwise_cons.mp hpwDisj).1
              have htrans : ∀ c ∈ restp.map (fun x => x.2),
                  (∃ Qcc, pidsAt Fm S0 c = some Qcc ∧
                    pidsAt Fm (storeSet (storeSet s.store s.next_page PgR) e0p.2 PgL) c = some Qcc ∧
                    (∀ q ∈ c :: Qcc, q ∈ Qp0)) ∧
                  (∀ a b fz, goodAt fz S0 c a b = true →
                    goodAt fz (storeSet (storeSet s.store s.next_page PgR) e0p.2 PgL) c a b = true) := by
                intro c hc
                rcases kp_mem hQp2 c (List.mem_cons_of_mem _ hc) with ⟨Qcc, hQcc, hsubcc⟩
                have hag : ∀ q ∈ c :: Qcc, storeGet (storeSet (storeSet s.store s.next_page PgR) e0p.2 PgL) q = storeGet S0 q := by
                  intro q hq
                  have hqQp0 : q ∈ Qp0 := hsubcc q hq
                  have hqP0 : q ∈ root :: P0 :=
                    hsubp0 q (List.mem_cons_of_mem _ hqQp0)
                  have hqNot : q ∉ e0p.2 :: qc0 := by
                    intro hq2
                    exact hheadRel c hc qc0 Qcc hqc0x hQcc q hq2 hq
                  exact hagreeW q hqP0 hqNot
                refine ⟨⟨Qcc, hQcc, pidsAt_congr hQcc hag, hsubcc⟩, ?_⟩
                intro a b fz hg
                exact goodAt_congr hQcc hag hg
              have he0sep : tupleLe e0p.1 sep = true := by
                cases lo with
                | none =>
                    have h3 : e0p.1 = ([] : Tuple) := by simpa [e0Bound] using he0p
                    rw [h3]
                    exact tupleLe_nil_left _
                | some l =>
                    have h3 : tupleLe e0p.1 l = true := he0p
                    exact tupleLe_trans h3 (tupleLe_of_lt hlosep)
              have hrestpGt : ∀ e ∈ restp, tupleLt sep e.1 = true := by
                cases restp with
                | nil =>
                    intro e he
                    exact (nomatch he)
                | cons r0 r4 =>
                    intro e he
                    have hs0 : tupleLt sep r0.1 = true := hsephi
                    rcases List.mem_cons.mp he with h4 | h4
                    · rw [h4]
                      exact hs0
                    · have hpw2 : List.Pairwise
                          (fun a b : InternalKV => tupleLt a.1 b.1 = true) (r0 :: r4) :=
                        gk_pairwise hgkP
                      exact tupleLt_trans hs0 ((List.pairwise_cons.mp hpw2).1 e h4)
              have harr2 : (ipp.insert sep s.next_page).array =
                  e0p :: (sep, s.next_page) :: restp := by
                show kvInsert (sep, s.next_page) ipp.array = _
                rw [harr]
                exact kvInsert_append_split (A := [e0p])
                  (fun a ha => by
                    rw [List.mem_singleton.mp ha]
                    exact he0sep)
                  hrestpGt
              have hchain : goodKids
                  (fun c a b => goodAt (Fm + Gb + 1) (storeSet (storeSet s.store s.next_page PgR) e0p.2 PgL) c a b)
                  e0p.2 ((sep, s.next_page) :: restp) lo hiP = true := by
                refine gk_insert_head hgkP ?_ ?_ ?_ hlosep hsephi
                · intro c hc a b hg
                  exact (htrans c hc).2 a b _ (goodAt_le (by omega) hg)
                · exact goodAt_le (by omega) hgoodWc
                · exact goodAt_le (by omega) hgoodWn
              have hgoodP2 : goodPg (Fm + Gb + 1) (storeSet (storeSet s.store s.next_page PgR) e0p.2 PgL)
                  (BPlusTreePage.internal (ipp.insert sep s.next_page)) lo hiP = true := by
                simp only [goodPg, goodPgF, harr2, Bool.and_eq_true, decide_eq_true_eq]
                exact ⟨hmaxp, he0p, hchain⟩
              have hQp2b := hQp2
              simp only [kidsPids, hqc0x] at hQp2b
              have hrestPids : ∃ QB, kidsPids (fun c => pidsAt Fm S0 c)
                  (restp.map (fun x => x.2)) = some QB ∧
                  Qp0 = e0p.2 :: (qc0 ++ QB) := by
                cases hrb : kidsPids (fun c => pidsAt Fm S0 c)
                    (restp.map (fun x => x.2)) with
                | none => rw [hrb] at hQp2b; exact (nomatch hQp2b)
                | some QB =>
                    rw [hrb] at hQp2b
                    injection hQp2b with h3
                    exact ⟨QB, rfl, h3.symm⟩
              rcases hrestPids with ⟨QB, hQB, hQp0eq⟩
              have hcurr2 : pidsAt (Fm + FpL + 1) (storeSet (storeSet s.store s.next_page PgR) e0p.2 PgL) e0p.2 = some QL :=
                pidsAt_le (by omega) hpidsWc
              have hnext2 : pidsAt (Fm + FpL + 1) (storeSet (storeSet s.store s.next_page PgR) e0p.2 PgL) s.next_page = some QR :=
                pidsAt_le (by omega) hpidsWn
              have hQBW : kidsPids (fun c => pidsAt (Fm + FpL + 1) (storeSet (storeSet s.store s.next_page PgR) e0p.2 PgL) c)
                  (restp.map (fun x => x.2)) = some QB := by
                refine kp_mono ?_ hQB
                intro c hc Qc2 hg
                rcases (htrans c hc).1 with ⟨Qcc, hQcc, hQccW, hsubcc⟩
                rw [hQcc] at hg
                injection hg with hg2
                subst hg2
                exact pidsAt_le (by omega) hQccW
              have hkv3 : kidsPids (fun c => pidsAt (Fm + FpL + 1) (storeSet (storeSet s.store s.next_page PgR) e0p.2 PgL) c)
                  (e0p.2 :: s.next_page :: restp.map (fun x => x.2)) =
                  some (e0p.2 :: (QL ++ s.next_page :: (QR ++ QB))) := by
                simp only [kidsPids, hcurr2, hnext2, hQBW]
              have hpidsP2 : pidsPg (Fm + FpL + 1) (storeSet (storeSet s.store s.next_page PgR) e0p.2 PgL)
                  (BPlusTreePage.internal (ipp.insert sep s.next_page)) =
                  some (e0p.2 :: (QL ++ s.next_page :: (QR ++ QB))) := by
                simp only [pidsPg, pidsPgF, harr2, List.map_cons]
                exact hkv3
              have hQp0lt : ∀ q ∈ Qp0, q < N0 := by
                intro q hq
                exact hbound q (hsubp0 q (List.mem_cons_of_mem _ hq))
              have hndQp0t : (qc0 ++ QB).Nodup := by
                have h3 := (List.nodup_cons.mp hndp0).2
                rw [hQp0eq] at h3
                exact (List.nodup_cons.mp h3).2
              have hcurrQB : e0p.2 ∉ QB := by
                have h3 := (List.nodup_cons.mp hndp0).2
                rw [hQp0eq] at h3
                intro h4
                exact (List.nodup_cons.mp h3).1 (List.mem_append_right _ h4)
              have hQBQp0 : ∀ q ∈ QB, q ∈ Qp0 := by
                intro q hq
                rw [hQp0eq]
                exact List.mem_cons_of_mem _ (List.mem_append_right _ hq)
              have hQBlt : ∀ q ∈ QB, q < N0 := fun q hq => hQp0lt q (hQBQp0 q hq)
              have hqc0QB : ∀ q ∈ qc0, q ∉ QB := by
                intro q hq hq2
                exact (List.nodup_append.mp hndQp0t).2.2 hq hq2
              have hQLlt : ∀ q ∈ QL, q < s.next_page := fun q hq => hPcLt q (hQLsub q hq)
              have hQRlt : ∀ q ∈ QR, q < s.next_page := fun q hq => hPcLt q (hQRsub q hq)
              have hQLQB : ∀ q ∈ QL, q ∉ QB := by
                intro q hq hq2
                rcases hPcB q (hQLsub q hq) with h3 | h3
                · exact hqc0QB q h3 hq2
                · exact absurd (hQBlt q hq2) (by omega)
              have hQRQB : ∀ q ∈ QR, q ∉ QB := by
                intro q hq hq2
                rcases hPcB q (hQRsub q hq) with h3 | h3
                · exact hqc0QB q h3 hq2
                · exact absurd (hQBlt q hq2) (by omega)
              have hPcnd : (QL ++ QR).Nodup := by
                have h2 := (List.nodup_cons.mp hndC).2
                rwa [hPceq] at h2
              have hndLR := List.nodup_append.mp hPcnd
              have hQBnd : QB.Nodup := (List.nodup_append.mp hndQp0t).2.1
              have hndNew : (e0p.2 :: (QL ++ s.next_page :: (QR ++ QB))).Nodup := by
                refine List.nodup_cons.mpr ⟨?_, ?_⟩
                · intro h3
                  rcases List.mem_append.mp h3 with h4 | h4
                  · exact hcurrQL h4
                  · rcases List.mem_cons.mp h4 with h5 | h5
                    · exact hcurrNe h5
                    · rcases List.mem_append.mp h5 with h6 | h6
                      · exact hcurrQR h6
                      · exact hcurrQB h6
                · rw [List.nodup_middle]
                  refine List.nodup_cons.mpr ⟨?_, ?_⟩
                  · intro h3
                    rcases List.mem_append.mp h3 with h4 | h4
                    · exact absurd (hQLlt _ h4) (by omega)
                    · rcases List.mem_append.mp h4 with h5 | h5
                      · exact absurd (hQRlt _ h5) (by omega)
                      · exact absurd (hQBlt _ h5) (by omega)
                  · refine List.Nodup.append hndLR.1 ?_ ?_
                    · exact List.Nodup.append hndLR.2.1 hQBnd hQRQB
                    · intro q hq hq2
                      rcases List.mem_append.mp hq2 with h4 | h4
                      · exact hndLR.2.2 hq h4
                      · exact hQLQB q hq h4
              have hpPQp0 : pP ∉ Qp0 := (List.nodup_cons.mp hndp0).1
              have hpPcurr : pP ≠ e0p.2 := fun h3 =>
                hpNotin (h3 ▸ List.mem_cons_self _ _)
              have hpPqc0 : pP ∉ qc0 := fun h3 => hpNotin (List.mem_cons_of_mem _ h3)
              have hpPlt : pP < N0 := hbound pP hpP0
              have hndP2 : (pP :: e0p.2 :: (QL ++ s.next_page :: (QR ++ QB))).Nodup := by
                refine List.nodup_cons.mpr ⟨?_, hndNew⟩
                intro h3
                rcases List.mem_cons.mp h3 with h4 | h4
                · exact hpPcurr h4
                · rcases List.mem_append.mp h4 with h5 | h5
                  · rcases hPcB pP (hQLsub pP h5) with h6 | h6
                    · exact hpPqc0 h6
                    · omega
                  · rcases List.mem_cons.mp h5 with h6 | h6
                    · omega
                    · rcases List.mem_append.mp h6 with h7 | h7
                      · rcases hPcB pP (hQRsub pP h7) with h8 | h8
                        · exact hpPqc0 h8
                        · omega
                      · exact hpPQp0 (hQBQp0 pP h7)
              have hPcB2 : ∀ q ∈ e0p.2 :: (QL ++ s.next_page :: (QR ++ QB)),
                  q ∈ Qp0 ∨ N0 ≤ q := by
                intro q hq
                rcases List.mem_cons.mp hq with h3 | h3
                · refine Or.inl ?_
                  rw [hQp0eq, h3]
                  exact List.mem_cons_self _ _
                · rcases List.mem_append.mp h3 with h4 | h4
                  · rcases hPcB q (hQLsub q h4) with h5 | h5
                    · exact Or.inl (hsubQc q (List.mem_cons_of_mem _ h5))
                    · exact Or.inr h5
                  · rcases List.mem_cons.mp h4 with h5 | h5
                    · exact Or.inr (by omega)
                    · rcases List.mem_append.mp h5 with h6 | h6
                      · rcases hPcB q (hQRsub q h6) with h7 | h7
                        · exact Or.inl (hsubQc q (List.mem_cons_of_mem _ h7))
                        · exact Or.inr h7
                      · exact Or.inl (hQBQp0 q h6)
              have hagree2 : ∀ q ∈ root :: P0, q ∉ pP :: Qp0 →
                  storeGet (storeSet (storeSet s.store s.next_page PgR) e0p.2 PgL) q = storeGet S0 q := by
                intro q hq hq2
                refine hagreeW q hq ?_
                intro h3
                refine hq2 (List.mem_cons_of_mem _ ?_)
                rcases List.mem_cons.mp h3 with h4 | h4
                · rw [hQp0eq, h4]
                  exact List.mem_cons_self _ _
                · exact hsubQc q (List.mem_cons_of_mem _ h4)
              have hrouteP2 : ∃ fz, pageRoute fz (storeSet (storeSet s.store s.next_page PgR) e0p.2 PgL) pP
                  (BPlusTreePage.internal (ipp.insert sep s.next_page)) k =
                  some (lam2, lpl2) := by
                rcases hrt with ⟨hlt, hrtL⟩ | ⟨hle, hrtR⟩
                · have hlup : (ipp.insert sep s.next_page).look_up k = e0p.2 := by
                    refine look_up_complete0 harr2 ?_
                    intro e he
                    rcases List.mem_cons.mp he with h4 | h4
                    · rw [h4]
                      exact hlt
                    · exact hrest e h4
                  rcases pageRoute_write hrtL hgL hQLN hcurrQL with ⟨fW, hrW⟩
                  refine ⟨fW, ?_⟩
                  show routeAt fW (storeSet (storeSet s.store s.next_page PgR) e0p.2 PgL) ((ipp.insert sep s.next_page).look_up k) k =
                    some (lam2, lpl2)
                  rw [hlup]
                  exact hrW
                · have hlup : (ipp.insert sep s.next_page).look_up k = s.next_page := by
                    refine @look_up_complete _ k sep s.next_page e0p [] restp ?_ hle hrest
                    rw [harr2]
                    rfl
                  refine ⟨fP + 1, ?_⟩
                  show routeAt (fP + 1) (storeSet (storeSet s.store s.next_page PgR) e0p.2 PgL) ((ipp.insert sep s.next_page).look_up k) k =
                    some (lam2, lpl2)
                  rw [hlup]
                  exact pageRoute_routeAt_of_get hgetWn
                    (pageRoute_set hrtR hgR hQRN hcurrQR)
              rcases hrouteP2 with ⟨fz, hrz⟩
              refine ih hloop3 hmaxI hmaxL (show LoopInv _ _ _ _ _ _ _ lo hiP from ?_)
              exact ⟨Fm + 1, S0, root, P0, N0, hrootG, hrootP, hndP, hbound, hroot0,
                hanc2, Qp0, hQp0, hrootId, hfreshW, (by omega : N0 ≤ s.next_page + 1),
                Fm + Gb + 1, hgoodP2, Fm + FpL + 1,
                e0p.2 :: (QL ++ s.next_page :: (QR ++ QB)), hpidsP2, hndP2, hPcB2,
                hagree2, fz, lam2, lpl2, hrz, hlkr2⟩
          | snocS hanc2 hp harr hgoodP hlook ht hB =>
              rename_i rs2 pP loP hiP ipp e0p A2 B2 t2
              rw [List.getLast?_concat, List.dropLast_concat] at hloop
              have hloop2 : (match storeGet (storeSet (storeSet s.store s.next_page PgR) curr PgL) pP with
                  | none => none
                  | some ptp =>
                      match BPlusTreePage.insert_internalkv (sep, s.next_page) ptp with
                      | none => none
                      | some parent2 => insertLoop m idx
                          { store := (storeSet (storeSet s.store s.next_page PgR) curr PgL), next_page := s.next_page + 1,
                            root_page_id := s.root_page_id } pP parent2 rs2) =
                  some s2 := hloop
              clear hloop
              rcases anc_pids hrootP hndP hanc2 with ⟨Qp0, hQp0, hndp0, hsubp0, hrsp0⟩
              have hpPb := hrsq pP (List.mem_append_right _ (List.mem_singleton.mpr rfl))
              have hpP0 : pP ∈ root :: P0 := hpPb.1
              have hpNotin : pP ∉ curr :: qc0 := hpPb.2
              have hgetP : storeGet (storeSet (storeSet s.store s.next_page PgR) curr PgL) pP = some (BPlusTreePage.internal ipp) := by
                rw [hagreeW pP hpP0 hpNotin]
                exact hp
              rw [hgetP] at hloop2
              have hloop3 : insertLoop m idx
                  { store := (storeSet (storeSet s.store s.next_page PgR) curr PgL), next_page := s.next_page + 1,
                    root_page_id := s.root_page_id } pP
                  (BPlusTreePage.internal (ipp.insert sep s.next_page)) rs2 =
                  some s2 := hloop2
              clear hloop2
              cases F with
              | zero => exact (nomatch hgoodP)
              | succ Fm =>
              have hgP2 := hgoodP
              rw [goodAt_succ, hp] at hgP2
              simp only [goodPg, goodPgF, Bool.and_eq_true, decide_eq_true_eq] at hgP2
              rcases hgP2 with ⟨hmaxp, h2p⟩
              rw [harr] at h2p
              simp only [Bool.and_eq_true] at h2p
              rcases h2p with ⟨he0p, hgkP⟩
              have hQp2 := hQp0
              rw [pidsAt_succ, hp] at hQp2
              simp only [pidsPg, pidsPgF] at hQp2
              rw [harr] at hQp2
              have hQp2b : kidsPids (fun c => pidsAt Fm S0 c)
                  ((e0p.2 :: A2.map (fun x => x.2)) ++
                    (curr :: B2.map (fun x => x.2))) = some Qp0 := by
                have h3 : (e0p :: (A2 ++ (t2, curr) :: B2)).map (fun e => e.2) =
                    (e0p.2 :: A2.map (fun x => x.2)) ++
                      (curr :: B2.map (fun x => x.2)) := by
                  simp
                rw [h3] at hQp2
                exact hQp2
              rcases kp_split hQp2b with ⟨QEA, QCB, hQEA, hQCB, hQp0eq0⟩
              rcases kp_mem hQp2b curr (List.mem_append_right _
                (List.mem_cons_self _ _)) with ⟨qc0x, hqc0x, hsubQc⟩
              have hqc0x2 : pidsAt (Fm + 1) S0 curr = some qc0x :=
                pidsAt_le (Nat.le_succ Fm) hqc0x
              rw [hqc0] at hqc0x2
              injection hqc0x2 with hqc0e2
              subst hqc0e2
              have hQCBb := hQCB
              simp only [kidsPids, hqc0x] at hQCBb
              have hrestPids : ∃ QB, kidsPids (fun c => pidsAt Fm S0 c)
                  (B2.map (fun x => x.2)) = some QB ∧
                  QCB = curr :: (qc0 ++ QB) := by
                cases hrb : kidsPids (fun c => pidsAt Fm S0 c)
                    (B2.map (fun x => x.2)) with
                | none => rw [hrb] at hQCBb; exact (nomatch hQCBb)
                | some QB =>
                    rw [hrb] at hQCBb
                    injection hQCBb with h3
                    exact ⟨QB, rfl, h3.symm⟩
              rcases hrestPids with ⟨QB, hQB, hQCBeq⟩
              have hQp0eq : Qp0 = QEA ++ curr :: (qc0 ++ QB) := by
                rw [hQp0eq0, hQCBeq]
              have hpwDisj := kp_disjoint hQp2b (List.nodup_cons.mp hndp0).2
              rcases List.pairwise_append.mp hpwDisj with ⟨hpwEA, hpwCB, hcross⟩
              have hrelToCurr : ∀ c ∈ e0p.2 :: A2.map (fun x => x.2),
                  ∀ Qc Qd, pidsAt Fm S0 c = some Qc → pidsAt Fm S0 curr = some Qd →
                  ∀ x ∈ c :: Qc, x ∉ curr :: Qd := by
                intro c hc
                exact hcross c hc curr (List.mem_cons_self _ _)
              have hrelFromCurr : ∀ b ∈ B2.map (fun x => x.2),
                  ∀ Qc Qd, pidsAt Fm S0 curr = some Qc → pidsAt Fm S0 b = some Qd →
                  ∀ x ∈ curr :: Qc, x ∉ b :: Qd := by
                intro b hb
                exact (List.pairwise_cons.mp hpwCB).1 b hb
              have htrans : ∀ c ∈ e0p.2 :: (A2.map (fun x => x.2) ++
                    B2.map (fun x => x.2)),
                  (∃ Qcc, pidsAt Fm S0 c = some Qcc ∧
                    pidsAt Fm (storeSet (storeSet s.store s.next_page PgR) curr PgL) c = some Qcc ∧
                    (∀ q ∈ c :: Qcc, q ∈ Qp0)) ∧
                  (∀ a b fz, goodAt fz S0 c a b = true →
                    goodAt fz (storeSet (storeSet s.store s.next_page PgR) curr PgL) c a b = true) := by
                intro c hc
                have hcFull : c ∈ (e0p.2 :: A2.map (fun x => x.2)) ++
                    (curr :: B2.map (fun x => x.2)) := by
                  rcases List.mem_cons.mp hc with h3 | h3
                  · exact List.mem_append_left _ (h3 ▸ List.mem_cons_self _ _)
                  · rcases List.mem_append.mp h3 with h4 | h4
                    · exact List.mem_append_left _ (List.mem_cons_of_mem _ h4)
                    · exact List.mem_append_right _ (List.mem_cons_of_mem _ h4)
                rcases kp_mem hQp2b c hcFull with ⟨Qcc, hQcc, hsubcc⟩
                have hnotCurrSet : ∀ q ∈ c :: Qcc, q ∉ curr :: qc0 := by
                  rcases List.mem_cons.mp hc with h3 | h3
                  · intro q hq hq2
                    exact hrelToCurr c (h3 ▸ List.mem_cons_self _ _) Qcc qc0
                      hQcc hqc0x q hq hq2
                  · rcases List.mem_append.mp h3 with h4 | h4
                    · intro q hq hq2
                      exact hrelToCurr c (List.mem_cons_of_mem _ h4) Qcc qc0
                        hQcc hqc0x q hq hq2
                    · intro q hq hq2
                      exact hrelFromCurr c h4 qc0 Qcc hqc0x hQcc q hq2 hq
                have hag : ∀ q ∈ c :: Qcc, storeGet (storeSet (storeSet s.store s.next_page PgR) curr PgL) q = storeGet S0 q := by
                  intro q hq
                  exact hagreeW q (hsubp0 q (List.mem_cons_of_mem _ (hsubcc q hq)))
                    (hnotCurrSet q hq)
                refine ⟨⟨Qcc, hQcc, pidsAt_congr hQcc hag, hsubcc⟩, ?_⟩
                intro a b fz hg
                exact goodAt_congr hQcc hag hg
              have hordP := gk_split_order hgkP
              have htsep : tupleLt t2 sep = true := hlosep
              have he0sep : tupleLe e0p.1 sep = true := by
                cases loP with
                | none =>
                    have h3 : e0p.1 = ([] : Tuple) := by simpa [e0Bound] using he0p
                    rw [h3]
                    exact tupleLe_nil_left _
                | some l =>
                    have h3 : tupleLe e0p.1 l = true := he0p
                    have h4 : tupleLt l t2 = true := hordP.2.1
                    exact tupleLe_trans h3 (tupleLe_of_lt (tupleLt_trans h4 htsep))
              have hBGt : ∀ e ∈ B2, tupleLt sep e.1 = true := by
                cases B2 with
                | nil =>
                    intro e he
                    exact (nomatch he)
                | cons b0 B4 =>
                    intro e he
                    have hs0 : tupleLt sep b0.1 = true := hsephi
                    rcases List.mem_cons.mp he with h4 | h4
                    · rw [h4]
                      exact hs0
                    · have hpw2 : List.Pairwise
                          (fun a b : InternalKV => tupleLt a.1 b.1 = true) (b0 :: B4) :=
                        gk_pairwise (gk_suffix hgkP)
                      exact tupleLt_trans hs0 ((List.pairwise_cons.mp hpw2).1 e h4)
              have harr2 : (ipp.insert sep s.next_page).array =
                  e0p :: (A2 ++ (t2, curr) :: (sep, s.next_page) :: B2) := by
                show kvInsert (sep, s.next_page) ipp.array = _
                rw [harr]
                rw [show e0p :: (A2 ++ (t2, curr) :: B2) =
                  (e0p :: (A2 ++ [(t2, curr)])) ++ B2 by simp]
                rw [kvInsert_append_split ?_ hBGt]
                · simp
                · intro a ha
                  rcases List.mem_cons.mp ha with h3 | h3
                  · rw [h3]
                    exact he0sep
                  · rcases List.mem_append.mp h3 with h4 | h4
                    · exact tupleLe_of_lt (tupleLt_trans (hordP.1 a h4) htsep)
                    · rw [List.mem_singleton.mp h4]
                      exact tupleLe_of_lt htsep
              have hchain : goodKids
                  (fun c a b => goodAt (Fm + Gb + 1) (storeSet (storeSet s.store s.next_page PgR) curr PgL) c a b)
                  e0p.2 (A2 ++ (t2, curr) :: (sep, s.next_page) :: B2) loP hiP = true := by
                refine gk_insert_split hgkP ?_ ?_ ?_ htsep hsephi
                · intro c2 hc2 a b hg
                  exact (htrans c2 hc2).2 a b _ (goodAt_le (by omega) hg)
                · exact goodAt_le (by omega) hgoodWc
                · exact goodAt_le (by omega) hgoodWn
              have hgoodP2 : goodPg (Fm + Gb + 1) (storeSet (storeSet s.store s.next_page PgR) curr PgL)
                  (BPlusTreePage.internal (ipp.insert sep s.next_page)) loP hiP = true := by
                simp only [goodPg, goodPgF, harr2, Bool.and_eq_true, decide_eq_true_eq]
                exact ⟨hmaxp, he0p, hchain⟩
              have hcurr2 : pidsAt (Fm + FpL + 1) (storeSet (storeSet s.store s.next_page PgR) curr PgL) curr = some QL :=
                pidsAt_le (by omega) hpidsWc
              have hnext2 : pidsAt (Fm + FpL + 1) (storeSet (storeSet s.store s.next_page PgR) curr PgL) s.next_page = some QR :=
                pidsAt_le (by omega) hpidsWn
              have htransKp : ∀ c ∈ e0p.2 :: (A2.map (fun x => x.2) ++
                    B2.map (fun x => x.2)), ∀ Qc2,
                  pidsAt Fm S0 c = some Qc2 → pidsAt (Fm + FpL + 1) (storeSet (storeSet s.store s.next_page PgR) curr PgL) c = some Qc2 := by
                intro c hc Qc2 hg
                rcases (htrans c hc).1 with ⟨Qcc, hQcc, hQccW, hsubcc⟩
                rw [hQcc] at hg
                injection hg with hg2
                subst hg2
                exact pidsAt_le (by omega) hQccW
              have hQEAW : kidsPids (fun c => pidsAt (Fm + FpL + 1) (storeSet (storeSet s.store s.next_page PgR) curr PgL) c)
                  (e0p.2 :: A2.map (fun x => x.2)) = some QEA := by
                refine kp_mono ?_ hQEA
                intro c hc Qc2 hg
                refine htransKp c ?_ Qc2 hg
                rcases List.mem_cons.mp hc with h3 | h3
                · exact h3 ▸ List.mem_cons_self _ _
                · exact List.mem_cons_of_mem _ (List.mem_append_left _ h3)
              have hQBW : kidsPids (fun c => pidsAt (Fm + FpL + 1) (storeSet (storeSet s.store s.next_page PgR) curr PgL) c)
                  (B2.map (fun x => x.2)) = some QB := by
                refine kp_mono ?_ hQB
                intro c hc Qc2 hg
                exact htransKp c (List.mem_cons_of_mem _ (List.mem_append_right _ hc))
                  Qc2 hg
              have hkvCB : kidsPids (fun c => pidsAt (Fm + FpL + 1) (storeSet (storeSet s.store s.next_page PgR) curr PgL) c)
                  (curr :: s.next_page :: B2.map (fun x => x.2)) =
                  some (curr :: (QL ++ s.next_page :: (QR ++ QB))) := by
                simp only [kidsPids, hcurr2, hnext2, hQBW]
              have hkv3 : kidsPids (fun c => pidsAt (Fm + FpL + 1) (storeSet (storeSet s.store s.next_page PgR) curr PgL) c)
                  ((e0p.2 :: A2.map (fun x => x.2)) ++
                    (curr :: s.next_page :: B2.map (fun x => x.2))) =
                  some (QEA ++ curr :: (QL ++ s.next_page :: (QR ++ QB))) :=
                kp_build hQEAW hkvCB
              have hpidsP2 : pidsPg (Fm + FpL + 1) (storeSet (storeSet s.store s.next_page PgR) curr PgL)
                  (BPlusTreePage.internal (ipp.insert sep s.next_page)) =
                  some (QEA ++ curr :: (QL ++ s.next_page :: (QR ++ QB))) := by
                simp only [pidsPg, pidsPgF, harr2]
                have h3 : (e0p :: (A2 ++ (t2, curr) :: (sep, s.next_page) :: B2)).map
                    (fun e => e.2) = (e0p.2 :: A2.map (fun x => x.2)) ++
                      (curr :: s.next_page :: B2.map (fun x => x.2)) := by
                  simp
                rw [h3]
                exact hkv3
              have hQp0lt : ∀ q ∈ Qp0, q < N0 := by
                intro q hq
                exact hbound q (hsubp0 q (List.mem_cons_of_mem _ hq))
              have hndQp0m := List.nodup_middle.mp (by
                rw [← hQp0eq]
                exact (List.nodup_cons.mp hndp0).2)
              rcases List.nodup_cons.mp hndQp0m with ⟨hcurrEAB, hndEAB⟩
              rcases List.nodup_append.mp hndEAB with ⟨hQEAnd, hndqc0QB, hdisjEA⟩
              rcases List.nodup_append.mp hndqc0QB with ⟨hqc0nd, hQBnd, hdisjqc0QB⟩
              have hcurrQB : curr ∉ QB := fun h3 =>
                hcurrEAB (List.mem_append_right _ (List.mem_append_right _ h3))
              have hcurrQEA : curr ∉ QEA := fun h3 =>
                hcurrEAB (List.mem_append_left _ h3)
              have hQEAQp0 : ∀ q ∈ QEA, q ∈ Qp0 := by
                intro q hq
                rw [hQp0eq]
                exact List.mem_append_left _ hq
              have hQBQp0 : ∀ q ∈ QB, q ∈ Qp0 := by
                intro q hq
                rw [hQp0eq]
                exact List.mem_append_right _ (List.mem_cons_of_mem _
                  (List.mem_append_right _ hq))
              have hqc0Qp0 : ∀ q ∈ qc0, q ∈ Qp0 := by
                intro q hq
                rw [hQp0eq]
                exact List.mem_append_right _ (List.mem_cons_of_mem _
                  (List.mem_append_left _ hq))
              have hQBlt : ∀ q ∈ QB, q < N0 := fun q hq => hQp0lt q (hQBQp0 q hq)
              have hQEAlt : ∀ q ∈ QEA, q < N0 := fun q hq => hQp0lt q (hQEAQp0 q hq)
              have hQLlt : ∀ q ∈ QL, q < s.next_page := fun q hq => hPcLt q (hQLsub q hq)
              have hQRlt : ∀ q ∈ QR, q < s.next_page := fun q hq => hPcLt q (hQRsub q hq)
              have hQLQB : ∀ q ∈ QL, q ∉ QB := by
                intro q hq hq2
                rcases hPcB q (hQLsub q hq) with h3 | h3
                · exact hdisjqc0QB h3 hq2
                · exact absurd (hQBlt q hq2) (by omega)
              have hQRQB : ∀ q ∈ QR, q ∉ QB := by
                intro q hq hq2
                rcases hPcB q (hQRsub q hq) with h3 | h3
                · exact hdisjqc0QB h3 hq2
                · exact absurd (hQBlt q hq2) (by omega)
              have hQEAdisjL : ∀ q ∈ QEA, q ∉ QL := by
                intro q hq hq2
                rcases hPcB q (hQLsub q hq2) with h3 | h3
                · exact hdisjEA hq (List.mem_append_left _ h3)
                · exact absurd (hQEAlt q hq) (by omega)
              have hQEAdisjR : ∀ q ∈ QEA, q ∉ QR := by
                intro q hq hq2
                rcases hPcB q (hQRsub q hq2) with h3 | h3
                · exact hdisjEA hq (List.mem_append_left _ h3)
                · exact absurd (hQEAlt q hq) (by omega)
              have hQEAdisjB : ∀ q ∈ QEA, q ∉ QB := by
                intro q hq hq2
                exact hdisjEA hq (List.mem_append_right _ hq2)
              have hPcnd : (QL ++ QR).Nodup := by
                have h2 := (List.nodup_cons.mp hndC).2
                rwa [hPceq] at h2
              have hndLR := List.nodup_append.mp hPcnd
              have hndTail : (QL ++ s.next_page :: (QR ++ QB)).Nodup := by
                rw [List.nodup_middle]
                refine List.nodup_cons.mpr ⟨?_, ?_⟩
                · intro h3
                  rcases List.mem_append.mp h3 with h4 | h4
                  · exact absurd (hQLlt _ h4) (by omega)
                  · rcases List.mem_append.mp h4 with h5 | h5
                    · exact absurd (hQRlt _ h5) (by omega)
                    · exact absurd (hQBlt _ h5) (by omega)
                · refine List.Nodup.append hndLR.1 ?_ ?_
                  · exact List.Nodup.append hndLR.2.1 hQBnd hQRQB
                  · intro q hq hq2
                    rcases List.mem_append.mp hq2 with h4 | h4
                    · exact hndLR.2.2 hq h4
                    · exact hQLQB q hq h4
              have hndNew : (QEA ++ curr :: (QL ++ s.next_page :: (QR ++ QB))).Nodup := by
                rw [List.nodup_middle]
                refine List.nodup_cons.mpr ⟨?_, ?_⟩
                · intro h3
                  rcases List.mem_append.mp h3 with h4 | h4
                  · exact hcurrQEA h4
                  · rcases List.mem_append.mp h4 with h5 | h5
                    · exact hcurrQL h5
                    · rcases List.mem_cons.mp h5 with h6 | h6
                      · exact hcurrNe h6
                      · rcases List.mem_append.mp h6 with h7 | h7
                        · exact hcurrQR h7
                        · exact hcurrQB h7
                · refine List.Nodup.append hQEAnd hndTail ?_
                  intro q hq hq2
                  rcases List.mem_append.mp hq2 with h4 | h4
                  · exact hQEAdisjL q hq h4
                  · rcases List.mem_cons.mp h4 with h5 | h5
                    · exact absurd (hQEAlt q hq) (by omega)
                    · rcases List.mem_append.mp h5 with h6 | h6
                      · exact hQEAdisjR q hq h6
                      · exact hQEAdisjB q hq h6
              have hpPQp0 : pP ∉ Qp0 := (List.nodup_cons.mp hndp0).1
              have hpPcurr : pP ≠ curr := fun h3 =>
                hpNotin (h3 ▸ List.mem_cons_self _ _)
              have hpPqc0 : pP ∉ qc0 := fun h3 => hpNotin (List.mem_cons_of_mem _ h3)
              have hpPlt : pP < N0 := hbound pP hpP0
              have hndP2 : (pP :: (QEA ++ curr ::
                  (QL ++ s.next_page :: (QR ++ QB)))).Nodup := by
                refine List.nodup_cons.mpr ⟨?_, hndNew⟩
                intro h3
                rcases List.mem_append.mp h3 with h4 | h4
                · exact hpPQp0 (hQEAQp0 pP h4)
                · rcases List.mem_cons.mp h4 with h5 | h5
                  · exact hpPcurr h5
                  · rcases List.mem_append.mp h5 with h6 | h6
                    · rcases hPcB pP (hQLsub pP h6) with h7 | h7
                      · exact hpPqc0 h7
                      · omega
                    · rcases List.mem_cons.mp h6 with h7 | h7
                      · omega
                      · rcases List.mem_append.mp h7 with h8 | h8
                        · rcases hPcB pP (hQRsub pP h8) with h9 | h9
                          · exact hpPqc0 h9
                          · omega
                        · exact hpPQp0 (hQBQp0 pP h8)
              have hcurrQp0 : curr ∈ Qp0 := by
                rw [hQp0eq]
                exact List.mem_append_right _ (List.mem_cons_self _ _)
              have hPcB2 : ∀ q ∈ QEA ++ curr :: (QL ++ s.next_page :: (QR ++ QB)),
                  q ∈ Qp0 ∨ N0 ≤ q := by
                intro q hq
                rcases List.mem_append.mp hq with h3 | h3
                · exact Or.inl (hQEAQp0 q h3)
                · rcases List.mem_cons.mp h3 with h4 | h4
                  · exact Or.inl (h4 ▸ hcurrQp0)
                  · rcases List.mem_append.mp h4 with h5 | h5
                    · rcases hPcB q (hQLsub q h5) with h6 | h6
                      · exact Or.inl (hqc0Qp0 q h6)
                      · exact Or.inr h6
                    · rcases List.mem_cons.mp h5 with h6 | h6
                      · exact Or.inr (by omega)
                      · rcases List.mem_append.mp h6 with h7 | h7
                        · rcases hPcB q (hQRsub q h7) with h8 | h8
                          · exact Or.inl (hqc0Qp0 q h8)
                          · exact Or.inr h8
                        · exact Or.inl (hQBQp0 q h7)
              have hagree2 : ∀ q ∈ root :: P0, q ∉ pP :: Qp0 →
                  storeGet (storeSet (storeSet s.store s.next_page PgR) curr PgL) q = storeGet S0 q := by
                intro q hq hq2
                refine hagreeW q hq ?_
                intro h3
                refine hq2 (List.mem_cons_of_mem _ ?_)
                rcases List.mem_cons.mp h3 with h4 | h4
                · exact h4 ▸ hcurrQp0
                · exact hqc0Qp0 q h4
              have hrouteP2 : ∃ fz, pageRoute fz (storeSet (storeSet s.store s.next_page PgR) curr PgL) pP
                  (BPlusTreePage.internal (ipp.insert sep s.next_page)) k =
                  some (lam2, lpl2) := by
                rcases hrt with ⟨hlt, hrtL⟩ | ⟨hle, hrtR⟩
                · have hlup : (ipp.insert sep s.next_page).look_up k = curr := by
                    refine @look_up_complete _ k t2 curr e0p A2
                      ((sep, s.next_page) :: B2) harr2 ht ?_
                    intro e he
                    rcases List.mem_cons.mp he with h4 | h4
                    · rw [h4]
                      exact hlt
                    · exact hB e h4
                  rcases pageRoute_write hrtL hgL hQLN hcurrQL with ⟨fW, hrW⟩
                  refine ⟨fW, ?_⟩
                  show routeAt fW (storeSet (storeSet s.store s.next_page PgR) curr PgL) ((ipp.insert sep s.next_page).look_up k) k =
                    some (lam2, lpl2)
                  rw [hlup]
                  exact hrW
                · have hlup : (ipp.insert sep s.next_page).look_up k = s.next_page := by
                    refine @look_up_complete _ k sep s.next_page e0p
                      (A2 ++ [(t2, curr)]) B2 ?_ hle hB
                    rw [harr2]
                    simp
                  refine ⟨fP + 1, ?_⟩
                  show routeAt (fP + 1) (storeSet (storeSet s.store s.next_page PgR) curr PgL) ((ipp.insert sep s.next_page).look_up k) k =
                    some (lam2, lpl2)
                  rw [hlup]
                  exact pageRoute_routeAt_of_get hgetWn
                    (pageRoute_set hrtR hgR hQRN hcurrQR)
              rcases hrouteP2 with ⟨fz, hrz⟩
              refine ih hloop3 hmaxI hmaxL (show LoopInv _ _ _ _ _ _ _ loP hiP from ?_)
              exact ⟨Fm + 1, S0, root, P0, N0, hrootG, hrootP, hndP, hbound, hroot0,
                hanc2, Qp0, hQp0, hrootId, hfreshW, (by omega : N0 ≤ s.next_page + 1),
                Fm + Gb + 1, hgoodP2, Fm + FpL + 1,
                QEA ++ curr :: (QL ++ s.next_page :: (QR ++ QB)), hpidsP2, hndP2, hPcB2,
                hagree2, fz, lam2, lpl2, hrz, hlkr2⟩
      · -- the current page has room: write it back and finish
        injection hloop with hs2
        have hcurrPc : curr ∉ Pc := (List.nodup_cons.mp hndC).1
        rcases pageRoute_write hroute hgood hpids hcurrPc with ⟨fV, hrV⟩
        rcases anc_pids hrootP hndP hanc with ⟨Qc2, hQc2, hndc2, hsubc2, hrs2⟩
        rw [hqc0] at hQc2
        injection hQc2 with hQc2e
        subst hQc2e
        have hagV : ∀ p ∈ readSet,
            storeGet (storeSet s.store curr currPg) p = storeGet S0 p := by
          intro p hp
          rcases hrs2 p hp with ⟨hp1, hp2⟩
          have hpc : p ≠ curr := fun he => hp2 (he ▸ List.mem_cons_self _ _)
          rw [storeGet_storeSet_ne _ _ _ _ hpc]
          exact hagree p hp1 hp2
        rcases anc_route_compose hanc hagV hrV with ⟨f2, hr2⟩
        refine ⟨f2, lam, lpl, ?_, hlkr, ?_⟩
        · rw [← hs2]
          show routeAt f2 (storeSet s.store curr currPg) s.root_page_id k =
            some (lam, lpl)
          rw [hrootId]
          exact hr2
        · rw [← hs2]
          show s.root_page_id ≠ INVALID_PAGE_ID
          rw [hrootId]
          exact hroot0

/-- The descent of `find_leaf_page` agrees with `routeAt`: both follow
`look_up` from the same page, so they reach the same leaf. -/
theorem findLoop_routeAt {store : PageStore} {k : Tuple} {lam : Nat}
    {lpl : BPlusTreeLeafPage} :
    ∀ {g f : Nat} {pid : Nat} {page : BPlusTreePage} {acc : List Nat} {L : Nat}
      {rs : List Nat},
    findLeafPageLoop g store pid page acc k = some (L, rs) →
    storeGet store pid = some page →
    routeAt f store pid k = some (lam, lpl) →
    L = lam ∧ storeGet store L = some (.leaf lpl) := by
  intro g
  induction g with
  | zero => intro f pid page acc L rs h hget hr; exact (nomatch h)
  | succ n ih =>
      intro f pid page acc L rs h hget hr
      cases f with
      | zero => exact (nomatch hr)
      | succ f2 =>
          rw [routeAt_succ, hget] at hr
          cases page with
          | leaf lp =>
              simp only [findLeafPageLoop] at h
              injection h with h2
              injection h2 with h3 h4
              injection hr with h5
              injection h5 with h6 h7
              refine ⟨by rw [← h3]; exact h6, ?_⟩
              rw [← h3, hget, h7]
          | internal ip =>
              simp only [findLeafPageLoop] at h
              split at h
              · exact (nomatch h)
              · rename_i np hnp
                exact ih h hnp hr
  
/-- `get` answers according to the leaf that `routeAt` reaches. -/
theorem get_of_routeAt {s2 : TreeState} {k : Tuple} {g f : Nat} {lam : Nat}
    {lpl : BPlusTreeLeafPage} {res : Option RecordId}
    (hr : routeAt f s2.store s2.root_page_id k = some (lam, lpl))
    (hroot0 : s2.root_page_id ≠ INVALID_PAGE_ID)
    (hget : get g s2 k = some res) : res = lpl.look_up k := by
  have hemp : s2.is_empty = false := by
    simp [TreeState.is_empty, hroot0]
  unfold get at hget
  rw [hemp] at hget
  simp only [Bool.false_eq_true, if_false] at hget
  split at hget
  · exact (nomatch hget)
  · rename_i heq
    unfold find_leaf_page at heq
    rw [hemp] at heq
    simp only [Bool.false_eq_true, if_false] at heq
    split at heq
    · exact (nomatch heq)
    · rename_i p hget2
      have heq2 : (findLeafPageLoop g s2.store s2.root_page_id p [] k).map some =
          some none := heq
      cases hfl : findLeafPageLoop g s2.store s2.root_page_id p [] k with
      | none =>
          rw [hfl] at heq2
          exact (nomatch heq2)
      | some Lrs =>
          rw [hfl] at heq2
          have heq3 : some (some Lrs) = (some none : Option (Option (Nat × List Nat))) :=
            heq2
          injection heq3 with h3
          exact (nomatch h3)
  · rename_i L rs heq
    unfold find_leaf_page at heq
    rw [hemp] at heq
    simp only [Bool.false_eq_true, if_false] at heq
    split at heq
    · exact (nomatch heq)
    · rename_i p hget2
      have heq2 : (findLeafPageLoop g s2.store s2.root_page_id p [] k).map some =
          some (some (L, rs)) := heq
      cases hfl : findLeafPageLoop g s2.store s2.root_page_id p [] k with
      | none =>
          rw [hfl] at heq2
          exact (nomatch heq2)
      | some Lrs =>
          rw [hfl] at heq2
          have heq3 : some (some Lrs) = some (some (L, rs)) := heq2
          injection heq3 with h3
          injection h3 with h4
          rw [h4] at hfl
          rcases findLoop_routeAt hfl hget2 hr with ⟨hL, hgetL⟩
          rw [hgetL] at hget
          have hget4 : some (lpl.look_up k) = some res := hget
          injection hget4 with h5
          exact h5.symm

/-- The insert half of the round-trip claim, for a fresh key on a
well-formed tree: a `get` of `k` succeeding after a successful
`insert(k, rid)` answers `Some rid`. -/
theorem insert_then_get {fuel g F : Nat} {idx : BPlusTreeIndex} {s0 : TreeState}
    {k : Tuple} {rid : RecordId} {s2 : TreeState} {res : Option RecordId}
    (hwf : wfTree F s0 = true)
    (hnk : storeNoKey s0.store k = true)
    (hmaxI : 1 ≤ idx.internal_max_size) (hmaxL : 1 ≤ idx.leaf_max_size)
    (hnp : 1 ≤ s0.next_page)
    (hins : insert fuel idx s0 k rid = some s2)
    (hget : get g s2 k = some res) : res = some rid := by
  simp only [wfTree, Bool.and_eq_true] at hwf
  rcases hwf with ⟨hfresh0, hwf2⟩
  have hfreshS0 : ∀ e ∈ s0.store, e.1 < s0.next_page := by
    intro e he
    have h2 := (List.all_eq_true.mp hfresh0) e he
    simpa using h2
  unfold insert at hins
  split at hins
  · -- empty tree: start_new_tree
    rename_i hempty
    injection hins with hs2
    subst hs2
    have hroot2 : (start_new_tree idx s0 k rid).root_page_id = s0.next_page := rfl
    have hr : routeAt 1 (start_new_tree idx s0 k rid).store
        (start_new_tree idx s0 k rid).root_page_id k =
        some (s0.next_page, { max_size := idx.leaf_max_size, next_page_id := INVALID_PAGE_ID, array := [(k, rid)] }) := by
      rw [routeAt_succ, hroot2]
      show (match storeGet (storeSet s0.store s0.next_page
          (BPlusTreePage.leaf { max_size := idx.leaf_max_size, next_page_id := INVALID_PAGE_ID, array := [(k, rid)] })) s0.next_page with
        | some (BPlusTreePage.leaf lp) => some (s0.next_page, lp)
        | some (BPlusTreePage.internal ip) =>
            routeAt 0 (start_new_tree idx s0 k rid).store (ip.look_up k) k
        | none => none) = _
      rw [storeGet_storeSet_self]
    have hroot0 : (start_new_tree idx s0 k rid).root_page_id ≠ INVALID_PAGE_ID := by
      rw [hroot2]
      simp only [INVALID_PAGE_ID]
      omega
    have h3 := get_of_routeAt hr hroot0 hget
    rw [h3]
    show (List.find? (fun e => decide (e.1 = k)) [(k, rid)]).map (fun x => x.2) =
      some rid
    simp [List.find?]
  · -- non-empty tree
    rename_i hnemp
    have hroot0 : s0.root_page_id ≠ INVALID_PAGE_ID := by
      intro h2
      exact hnemp (by simp [TreeState.is_empty, h2])
    rw [if_neg (by simp [hroot0] : ¬s0.root_page_id = INVALID_PAGE_ID)] at hwf2
    simp only [Bool.and_eq_true] at hwf2
    rcases hwf2 with ⟨hrootG, hwf3⟩
    cases hpids0 : pidsAt F s0.store s0.root_page_id with
    | none => rw [hpids0] at hwf3; exact (nomatch hwf3)
    | some P0 =>
        rw [hpids0] at hwf3
        have hndP : (s0.root_page_id :: P0).Nodup := by simpa using hwf3
        split at hins
        · exact (nomatch hins)
        · exact (nomatch hins)
        · rename_i L readSet hfl
          split at hins
          · rename_i lp hgetL0
            rcases find_leaf_page_anc hfl hrootG with
              ⟨loL, hiL, lp2, hancL, hgetL, hgoodL, hk1, hk2⟩
            rw [hgetL0] at hgetL
            injection hgetL with hgetLe
            injection hgetLe with hlpe
            subst hlpe
            rcases anc_pids hpids0 hndP hancL with ⟨QcL, hQcL, hndcL, hsubcL, hrsL⟩
            have hbound : ∀ q ∈ s0.root_page_id :: P0, q < s0.next_page := by
              intro q hq
              rcases List.mem_cons.mp hq with h2 | h2
              · rcases pidsAt_storeGet hpids0 with ⟨pg, hpg⟩
                exact h2 ▸ storeGet_lt hpg hfreshS0
              · rcases pids_exist hpids0 q h2 with ⟨pg, hpg⟩
                exact storeGet_lt hpg hfreshS0
            have hlpGood : leafGood lp loL hiL = true := by
              cases F with
              | zero => exact (nomatch hgoodL)
              | succ F2 =>
                  rw [goodAt_succ, hgetL0] at hgoodL
                  exact hgoodL
            have hlpNoKey : ∀ e ∈ lp.array, e.1 ≠ k := by
              have h2 := storeNoKey_get hnk hgetL0
              exact leafNoKey_iff.mp h2
            have hlpPw : List.Pairwise (fun a b : LeafKV => tupleLt a.1 b.1 = true)
                lp.array := by
              simp only [leafGood, Bool.and_eq_true, decide_eq_true_eq] at hlpGood
              exact hlpGood.1.2
            rcases insertLoop_ok fuel hins hmaxI hmaxL
                ⟨F, s0.store, s0.root_page_id, P0, s0.next_page, hrootG, hpids0, hndP,
                  hbound, hroot0, hancL, QcL, hQcL, rfl, hfreshS0, le_rfl,
                  0, leafGood_insert hlpGood hlpNoKey hk1 hk2,
                  0, [], rfl, List.nodup_cons.mpr ⟨List.not_mem_nil _, List.nodup_nil⟩,
                  fun q hq => (nomatch hq), fun q hq hq2 => rfl,
                  0, L, lp.insert k rid, rfl,
                  leaf_insert_look_up hlpPw hlpNoKey⟩ with
              ⟨f, lam2, lpl2, hr, hlk2, hroot02⟩
            rw [get_of_routeAt hr hroot02 hget]
            exact hlk2
          · exact (nomatch hins)

/-! ### The round-trip claim, amended -/

def c1wIdx : BPlusTreeIndex := { internal_max_size := 4, leaf_max_size := 4 }

def c1wR5 : RecordId := { page_id := 10, slot_num := 0 }

def c1wR7 : RecordId := { page_id := 20, slot_num := 1 }

def c1wS0 : TreeState :=
  { store := [(1, mkLeaf 0 [([5], c1wR5)])], next_page := 2, root_page_id := 1 }

def c1wS1 : TreeState :=
  { store := [(1, mkLeaf 0 [([5], c1wR5), ([7], c1wR7)])], next_page := 2,
    root_page_id := 1 }

def c1wS2 : TreeState :=
  { store := [(1, mkLeaf 0 [([5], c1wR5)])], next_page := 2, root_page_id := 1 }

/-- C1, amended.  Insert half: on a well-formed tree (`wfTree`: sorted
pages, child intervals, existing and duplicate-free subtree page ids)
whose store does not yet hold the key `k`, with positive configured page
capacities and a positive allocation counter, a successful `get(k)`
after a successful `insert(k, rid)` answers `Some rid`.  Delete half: if
`k` occurs at most once and only in the leaf that the descent reaches,
a successful `get(k)` after a successful `delete(k)` answers `None`.
(The unamended claim is refuted by `claimC1_counterexample`: with a
duplicate key, stable insertion and leftmost lookup break both
halves.) -/
theorem claimC1 :
    (∀ (fuel g F : Nat) (idx : BPlusTreeIndex) (s0 : TreeState) (k : Tuple)
      (rid : RecordId) (s2 : TreeState) (res : Option RecordId),
      wfTree F s0 = true →
      storeNoKey s0.store k = true →
      1 ≤ idx.internal_max_size → 1 ≤ idx.leaf_max_size → 1 ≤ s0.next_page →
      insert fuel idx s0 k rid = some s2 →
      get g s2 k = some res → res = some rid) ∧
    (∀ (fuel g : Nat) (s0 : TreeState) (k : Tuple) (L : Nat) (rs : List Nat)
      (lp : BPlusTreeLeafPage) (s1 : TreeState) (res : Option RecordId),
      (s0.store.map Prod.fst).Nodup →
      find_leaf_page fuel s0 k = some (some (L, rs)) →
      storeGet s0.store L = some (.leaf lp) →
      kvCount k lp.array ≤ 1 →
      (∀ e ∈ s0.store, e.1 ≠ L → pageNoKey e.2 k = true) →
      delete fuel s0 k = some s1 →
      get g s1 k = some res → res = none) :=
  ⟨fun _ _ _ _ _ _ _ _ _ hwf hnk hmi hml hnp hins hget =>
      insert_then_get hwf hnk hmi hml hnp hins hget,
    fun _ _ _ _ _ _ _ _ _ hnd hfl hlp hcnt hoth hdel hget =>
      delete_then_get_none hnd hfl hlp hcnt hoth hdel hget⟩

/-- C1 witness: both halves of the amended claim applied to a concrete
one-leaf tree; every hypothesis is discharged by evaluation. -/
theorem claimC1_witness :
    (some c1wR7 : Option RecordId) = some c1wR7 ∧
    (none : Option RecordId) = none :=
  ⟨claimC1.1 9 9 2 c1wIdx c1wS0 [7] c1wR7 c1wS1 (some c1wR7) (by decide) (by decide)
      (by decide) (by decide) (by decide) (by decide) (by decide),
    claimC1.2 9 9 c1wS1 [7] 1 []
      { max_size := 4, next_page_id := 0, array := [([5], c1wR5), ([7], c1wR7)] }
      c1wS2 none (by decide) (by decide) (by decide) (by decide) (by decide)
      (by decide) (by decide)⟩

/-! ### Claim C2: the balance invariant after insert/delete sequences

The claimed invariant fails in the code: `merge` deletes the right page
through `buffer_pool.delete_page`, but `delete_page` returns `Ok(false)`
without doing anything when the page is still pinned, and the `?` on the
call only propagates `Err`, so the `false` is silently ignored.  The
`delete` call keeps the handle of the leaf it descended to alive for its
whole duration, so when the underflowing leaf is merged into its left
sibling (the leaf is the right page of that merge) the leaf page is still
pinned and survives with its underflowed image.  Likewise on a root
collapse the parent's handle is alive at the `delete_page(parent)` call,
so the old root always survives.  The run below exhibits a non-root leaf
page of size 0 < ceil(max/2) after a successful operation sequence from
the empty tree. -/

/-- A single top-level tree operation, as named by the claim. -/
inductive TreeOp where
  | ins (k : Tuple) (r : RecordId)
  | del (k : Tuple)
deriving Repr

/-- Apply one operation through the embedded `insert`/`delete`. -/
def applyOp (fuel : Nat) (idx : BPlusTreeIndex) (s : TreeState) : TreeOp → Option TreeState
  | .ins k r => insert fuel idx s k r
  | .del k => delete fuel s k

/-- Run a sequence of operations; `none` as soon as one fails, so a
`some` result means every operation in the sequence succeeded. -/
def runOps (fuel : Nat) (idx : BPlusTreeIndex) : TreeState → List TreeOp → Option TreeState
  | s, [] => some s
  | s, op :: rest =>
      match applyOp fuel idx s op with
      | none => none
      | some s2 => runOps fuel idx s2 rest

/-- The claim's per-page bound: `current_size ∈ [ceil(max/2), max]`
(`minSize` is `ceil(max_size / 2)`). -/
def pageSizeInBounds : BPlusTreePage → Bool
  | .leaf lp => decide (minSize lp.max_size ≤ lp.current_size ∧ lp.current_size ≤ lp.max_size)
  | .internal ip =>
      decide (minSize ip.max_size ≤ ip.current_size ∧ ip.current_size ≤ ip.max_size)

/-- The claim's invariant: every stored leaf and internal page except
possibly the root satisfies the size bound. -/
def balancedExceptRoot (s : TreeState) : Bool :=
  s.store.all (fun e => e.1 = s.root_page_id || pageSizeInBounds e.2)

def c2Idx : BPlusTreeIndex := { internal_max_size := 3, leaf_max_size := 2 }

def c2S0 : TreeState := { store := [], next_page := 1, root_page_id := INVALID_PAGE_ID }

/-- Insert keys 1, 2, 3 (splitting the first leaf), delete 3, then
delete 2: the right leaf underflows and is merged into its left
sibling. -/
def c2Ops : List TreeOp :=
  [.ins [1] { page_id := 10, slot_num := 0 }, .ins [2] { page_id := 11, slot_num := 0 },
   .ins [3] { page_id := 12, slot_num := 0 }, .del [3], .del [2]]

/-- Claim C2, refuted on a concrete run: the five operations of `c2Ops`
all succeed from the empty tree (first conjunct), yet the final state
violates the claimed invariant (second conjunct): page 2 — the leaf the
last delete emptied and merged away, which its own pinned handle
protected from `delete_page` — is still stored as a leaf of
`current_size` 0 with `max_size` 2, below `ceil(2 / 2) = 1` (third
conjunct), and it is not the root, which is page 1 (fourth conjunct). -/
theorem claimC2 :
    (runOps 9 c2Idx c2S0 c2Ops).isSome = true ∧
    (runOps 9 c2Idx c2S0 c2Ops).map balancedExceptRoot = some false ∧
    (runOps 9 c2Idx c2S0 c2Ops).map (fun s => storeGet s.store 2) =
      some (some (.leaf { max_size := 2, next_page_id := 0, array := [] })) ∧
    (runOps 9 c2Idx c2S0 c2Ops).map (fun s => s.root_page_id) = some 1 := by
  decide

end Bustubx
